import Mathlib

/- Verification of the file-lister / file-comparer snapshot tree code: the
DirLevel data model of dir_level.h, the Traverse encoder, the two decoder
copies of CreateFromTraverseFile (dir_level.cpp and file-lister.cpp),
ReadDir over a filesystem model, and RemoveCommon. C strings are modelled
as character lists; machine integers as Int/Nat with explicit reductions
where the code relies on wrapping. -/

/-- Character sequences model C strings (std::string contents, char arrays). -/
abbrev Str := List Char

/-- DT_DIR constant from dirent.h. -/
def DT_DIR : Int := 4

/-- Decimal digit character for a value below ten. -/
def digitChar (n : Nat) : Char := Char.ofNat (48 + n)

/-- Numeric value of a decimal digit character. -/
def digitVal (c : Char) : Nat := c.toNat - 48

/-- Fuel driven digit extraction; the fuel always suffices below. -/
def natDigitsF : Nat → Nat → Str
  | 0, _ => []
  | fuel + 1, n =>
    if n < 10 then [digitChar n]
    else natDigitsF fuel (n / 10) ++ [digitChar (n % 10)]

/-- Decimal digits of a natural number, most significant first, as printf
renders a nonnegative value. -/
def natDigits (n : Nat) : Str := natDigitsF (n + 1) n

theorem natDigitsF_irrel : ∀ (f1 f2 n : Nat), n < f1 → n < f2 →
    natDigitsF f1 n = natDigitsF f2 n
  | 0, _, _, h1, _ => by omega
  | _ + 1, 0, _, _, h2 => by omega
  | f1 + 1, f2 + 1, n, h1, h2 => by
    simp only [natDigitsF]
    by_cases h : n < 10
    · rw [if_pos h, if_pos h]
    · rw [if_neg h, if_neg h]
      have hd : n / 10 < n := Nat.div_lt_self (by omega) (by omega)
      rw [natDigitsF_irrel f1 f2 (n / 10) (by omega) (by omega)]

theorem natDigits_eq (n : Nat) :
    natDigits n = if n < 10 then [digitChar n]
      else natDigits (n / 10) ++ [digitChar (n % 10)] := by
  show natDigitsF (n + 1) n = _
  simp only [natDigitsF]
  by_cases h : n < 10
  · rw [if_pos h, if_pos h]
  · rw [if_neg h, if_neg h]
    have hd : n / 10 < n := Nat.div_lt_self (by omega) (by omega)
    rw [natDigitsF_irrel n (n / 10 + 1) (n / 10) (by omega) (by omega)]
    rfl

/-- printf %d rendering of an int value. -/
def intDigits (i : Int) : Str :=
  if i < 0 then '-' :: natDigits (-i).toNat else natDigits i.toNat

/-- printf %u rendering: the argument is read as a 32 bit unsigned int. -/
def uDigitsN (n : Nat) : Str := natDigits (n % 2 ^ 32)

/-- printf %u rendering of an int argument (the year sum 1900 + tm_year is
an int passed to an unsigned conversion): the value modulo two to the 32. -/
def uDigitsI (i : Int) : Str := natDigits (i.emod (2 ^ 32)).toNat

/-- printf %lu rendering: the argument is read as a 64 bit unsigned long. -/
def luDigits (i : Int) : Str := natDigits (i.emod (2 ^ 64)).toNat

/-- Zero padding of a printf conversion to a minimum field width. -/
def padZ (w : Nat) (s : Str) : Str := List.replicate (w - s.length) '0' ++ s

/-- Leap year test of the proleptic Gregorian calendar as libc __isleap
computes it on the int year; the C remainder and emod agree on the
divisibility tests, negative years included. -/
def isLeap (y : Int) : Bool := y % 4 == 0 && (y % 100 != 0 || y % 400 == 0)

/-- Number of days in a civil year. -/
def daysInYear (y : Int) : Nat := if isLeap y then 366 else 365

/-- Month lengths of a civil year. -/
def monthLens (leap : Bool) : List Nat :=
  [31, if leap then 29 else 28, 31, 30, 31, 30, 31, 31, 30, 31, 30, 31]

theorem daysInYear_pos (y : Int) : 365 ≤ daysInYear y := by
  unfold daysInYear
  split <;> omega

/-- Total days of the n civil years starting at year y0. -/
def sumDays (y0 : Int) : Nat → Nat
  | 0 => 0
  | n + 1 => sumDays y0 n + daysInYear (y0 + n)

/-- Signed day count from the epoch 1970-01-01 back to the start of a
year: nonnegative from 1970 on, negative before. -/
def yearsDaysI (y : Int) : Int :=
  if 1970 ≤ y then (sumDays 1970 (y - 1970).toNat : Int)
  else -(sumDays y (1970 - y).toNat : Int)

/-- Fuel driven year scan in both directions: the year loop of libc gmtime
moves the year down while the day index is negative and up while it is at
least a full year, until it falls inside the year; the fuel always
suffices below since every step moves by at least 365 days. -/
def findYearF : Nat → Int → Int → Int × Int
  | 0, d, y => (y, d)
  | fuel + 1, d, y =>
    if d < 0 then findYearF fuel (d + daysInYear (y - 1)) (y - 1)
    else if d < daysInYear y then (y, d)
    else findYearF fuel (d - daysInYear y) (y + 1)

/-- Split a day count, possibly negative, into year and day of year,
scanning years from a base year; models the year loop of libc gmtime. -/
def findYear (d : Int) (y : Int) : Int × Int :=
  findYearF (d.natAbs / 365 + 2) d y

theorem findYearF_terminal (f : Nat) (d y : Int) (hf : 1 ≤ f) (h0 : 0 ≤ d)
    (hlt : d < daysInYear y) : findYearF f d y = (y, d) := by
  match f, hf with
  | g + 1, _ =>
    simp only [findYearF]
    rw [if_neg (by omega), if_pos hlt]

theorem findYearF_irrel : ∀ (a f1 f2 : Nat) (d y : Int), d.natAbs = a →
    d.natAbs / 365 + 2 ≤ f1 → d.natAbs / 365 + 2 ≤ f2 →
    findYearF f1 d y = findYearF f2 d y := by
  intro a
  induction a using Nat.strong_induction_on with
  | _ a ih =>
    intro f1 f2 d y ha h1 h2
    obtain ⟨g1, rfl⟩ : ∃ g1, f1 = g1 + 1 := ⟨f1 - 1, by omega⟩
    obtain ⟨g2, rfl⟩ : ∃ g2, f2 = g2 + 1 := ⟨f2 - 1, by omega⟩
    simp only [findYearF]
    by_cases hd0 : d < 0
    · rw [if_pos hd0, if_pos hd0]
      have hD := daysInYear_pos (y - 1)
      by_cases hneg : d + daysInYear (y - 1) < 0
      · have hab : (d + (daysInYear (y - 1) : Int)).natAbs < a := by omega
        have hdiv : (d + (daysInYear (y - 1) : Int)).natAbs / 365 + 1
            ≤ d.natAbs / 365 := by
          have hle : (d + (daysInYear (y - 1) : Int)).natAbs + 365 ≤ d.natAbs := by
            omega
          omega
        exact ih _ hab g1 g2 _ (y - 1) rfl (by omega) (by omega)
      · have hlt : d + daysInYear (y - 1) < daysInYear (y - 1) := by omega
        rw [findYearF_terminal g1 _ _ (by omega) (by omega) hlt,
          findYearF_terminal g2 _ _ (by omega) (by omega) hlt]
    · rw [if_neg hd0, if_neg hd0]
      by_cases hterm : d < daysInYear y
      · rw [if_pos hterm, if_pos hterm]
      · rw [if_neg hterm, if_neg hterm]
        have hD := daysInYear_pos y
        have hab : (d - (daysInYear y : Int)).natAbs < a := by omega
        have hdiv : (d - (daysInYear y : Int)).natAbs / 365 + 1
            ≤ d.natAbs / 365 := by
          have hle : (d - (daysInYear y : Int)).natAbs + 365 ≤ d.natAbs := by omega
          omega
        exact ih _ hab g1 g2 _ (y + 1) rfl (by omega) (by omega)

theorem findYear_terminal {d y : Int} (h0 : 0 ≤ d) (hlt : d < daysInYear y) :
    findYear d y = (y, d) :=
  findYearF_terminal _ _ _ (by omega) h0 hlt

theorem findYear_eq (d y : Int) :
    findYear d y = if d < 0 then findYear (d + daysInYear (y - 1)) (y - 1)
      else if d < daysInYear y then (y, d)
      else findYear (d - daysInYear y) (y + 1) := by
  obtain ⟨g, hg⟩ : ∃ g, d.natAbs / 365 + 2 = g + 1 := ⟨d.natAbs / 365 + 1, rfl⟩
  show findYearF (d.natAbs / 365 + 2) d y = _
  rw [hg]
  simp only [findYearF]
  by_cases hd0 : d < 0
  · rw [if_pos hd0, if_pos hd0]
    have hD := daysInYear_pos (y - 1)
    by_cases hneg : d + daysInYear (y - 1) < 0
    · have hdiv : (d + (daysInYear (y - 1) : Int)).natAbs / 365 + 1
          ≤ d.natAbs / 365 := by
        have hle : (d + (daysInYear (y - 1) : Int)).natAbs + 365 ≤ d.natAbs := by
          omega
        omega
      show findYearF g (d + (daysInYear (y - 1) : Int)) (y - 1)
        = findYearF ((d + (daysInYear (y - 1) : Int)).natAbs / 365 + 2)
            (d + (daysInYear (y - 1) : Int)) (y - 1)
      exact findYearF_irrel _ g _ _ (y - 1) rfl (by omega) (by omega)
    · have hlt : d + daysInYear (y - 1) < daysInYear (y - 1) := by omega
      rw [findYearF_terminal g _ _ (by omega) (by omega) hlt,
        findYear_terminal (by omega) hlt]
  · rw [if_neg hd0, if_neg hd0]
    by_cases hterm : d < daysInYear y
    · rw [if_pos hterm, if_pos hterm]
    · rw [if_neg hterm, if_neg hterm]
      have hD := daysInYear_pos y
      have hdiv : (d - (daysInYear y : Int)).natAbs / 365 + 1 ≤ d.natAbs / 365 := by
        have hle : (d - (daysInYear y : Int)).natAbs + 365 ≤ d.natAbs := by omega
        omega
      show findYearF g (d - (daysInYear y : Int)) (y + 1)
        = findYearF ((d - (daysInYear y : Int)).natAbs / 365 + 2)
            (d - (daysInYear y : Int)) (y + 1)
      exact findYearF_irrel _ g _ _ (y + 1) rfl (by omega) (by omega)

/-- Split a day of year into month index and day index, both from zero,
scanning the month length table; models the month loop of libc gmtime. -/
def findMonth (doy : Nat) : List Nat → Nat → Nat × Nat
  | [], m => (m, doy)
  | ml :: rest, m => if doy < ml then (m, doy) else findMonth (doy - ml) rest (m + 1)

/-- Broken down UTC time as gmtime produces it, with the full year stored
as an int (the C struct stores year - 1900, possibly negative; Traverse
prints 1900 + tm_year back through an unsigned conversion). -/
structure Tm where
  year : Int
  mon : Nat
  mday : Nat
  hour : Nat
  minute : Nat
  sec : Nat
deriving DecidableEq

/-- Model of libc gmtime: splits seconds since the epoch, negative
included, into UTC calendar fields; the floor division and nonnegative
remainder match the quotient fixup of glibc __offtime. none models the
NULL return, which glibc produces exactly when year - 1900 overflows the
int tm_year. -/
def gmtime (s : Int) : Option Tm :=
  let d := s / 86400
  let sod := (s % 86400).toNat
  let yd := findYear d 1970
  let md := findMonth yd.2.toNat (monthLens (isLeap yd.1)) 0
  if -2147481748 ≤ yd.1 ∧ yd.1 ≤ 2147485547 then
    some ⟨yd.1, md.1 + 1, md.2 + 1, sod / 3600, sod % 3600 / 60, sod % 60⟩
  else none

/-- Model of libc timegm as the decoders use it: the code stores
year - 1900 and month - 1 into a zeroed tm and timegm converts the UTC
fields back to epoch seconds, for years before 1970 as well; the model
takes the plain parsed fields. An out of range month is clamped here
rather than normalized (no claim depends on one). -/
def timegm (year mon mday hour minute sec : Int) : Int :=
  (yearsDaysI year + (((monthLens (isLeap year)).take (mon - 1).toNat).sum : Int)
    + (mday - 1)) * 86400 + hour * 3600 + minute * 60 + sec

/-- Whitespace test of C isspace, as sscanf uses it. -/
def isSpaceC (c : Char) : Bool :=
  c == ' ' || c == '\t' || c == '\n' || c == '\x0b' || c == '\x0c' || c == '\r'

/-- Decimal digit test. -/
def isDigitC (c : Char) : Bool := '0' ≤ c && c ≤ '9'

/-- Numeric value of a digit run, by decimal accumulation. -/
def digitsVal (acc : Nat) : Str → Nat
  | [] => acc
  | c :: cs => digitsVal (acc * 10 + digitVal c) cs

/-- Model of one sscanf %d conversion: skip whitespace, an optional sign,
then at least one digit; int overflow is undefined in C and unbounded here. -/
def scanInt (s : Str) : Option (Int × Str) :=
  match s.dropWhile isSpaceC with
  | '-' :: rest =>
    if (rest.takeWhile isDigitC) = [] then none
    else some (-(digitsVal 0 (rest.takeWhile isDigitC) : Int), rest.dropWhile isDigitC)
  | '+' :: rest =>
    if (rest.takeWhile isDigitC) = [] then none
    else some ((digitsVal 0 (rest.takeWhile isDigitC) : Int), rest.dropWhile isDigitC)
  | other =>
    if (other.takeWhile isDigitC) = [] then none
    else some ((digitsVal 0 (other.takeWhile isDigitC) : Int), other.dropWhile isDigitC)

/-- Model of one sscanf %lu conversion: strtoul semantics, an optional sign
with the value reduced modulo two to the 64. -/
def scanULong (s : Str) : Option (Int × Str) :=
  match scanInt s with
  | none => none
  | some (v, rest) => some (v.emod (2 ^ 64), rest)

/-- Model of a literal character directive in an sscanf format: it must
match the next input character exactly, with no whitespace skip. -/
def expectCh (c : Char) (s : Str) : Option Str :=
  match s with
  | d :: rest => if d == c then some rest else none
  | [] => none

/-- Result of the nine field sscanf of a snapshot line. sscanf leaves
unmatched C variables unassigned; the code reads them only when matched is
nine, so unmatched fields are zero here. -/
structure Scan9 where
  matched : Nat
  type : Int
  size : Int
  year : Int
  mon : Int
  mday : Int
  hour : Int
  minute : Int
  sec : Int
  nsec : Int
deriving DecidableEq

/-- Model of
sscanf(s, "%d %lu %d-%d-%d %d:%d:%d.%ld", ...) from both decoder copies. A
space in the format skips whitespace, which the numeric conversions do
themselves, so adjacent space directives are folded into the conversions. -/
def scan9 (s0 : Str) : Scan9 :=
  match scanInt s0 with
  | none => ⟨0, 0, 0, 0, 0, 0, 0, 0, 0, 0⟩
  | some (ty, s1) =>
  match scanULong s1 with
  | none => ⟨1, ty, 0, 0, 0, 0, 0, 0, 0, 0⟩
  | some (sz, s2) =>
  match scanInt s2 with
  | none => ⟨2, ty, sz, 0, 0, 0, 0, 0, 0, 0⟩
  | some (yr, s3) =>
  match expectCh '-' s3 with
  | none => ⟨3, ty, sz, yr, 0, 0, 0, 0, 0, 0⟩
  | some s4 =>
  match scanInt s4 with
  | none => ⟨3, ty, sz, yr, 0, 0, 0, 0, 0, 0⟩
  | some (mo, s5) =>
  match expectCh '-' s5 with
  | none => ⟨4, ty, sz, yr, mo, 0, 0, 0, 0, 0⟩
  | some s6 =>
  match scanInt s6 with
  | none => ⟨4, ty, sz, yr, mo, 0, 0, 0, 0, 0⟩
  | some (dy, s7) =>
  match scanInt s7 with
  | none => ⟨5, ty, sz, yr, mo, dy, 0, 0, 0, 0⟩
  | some (hr, s8) =>
  match expectCh ':' s8 with
  | none => ⟨6, ty, sz, yr, mo, dy, hr, 0, 0, 0⟩
  | some s9 =>
  match scanInt s9 with
  | none => ⟨6, ty, sz, yr, mo, dy, hr, 0, 0, 0⟩
  | some (mi, s10) =>
  match expectCh ':' s10 with
  | none => ⟨7, ty, sz, yr, mo, dy, hr, mi, 0, 0⟩
  | some s11 =>
  match scanInt s11 with
  | none => ⟨7, ty, sz, yr, mo, dy, hr, mi, 0, 0⟩
  | some (se, s12) =>
  match expectCh '.' s12 with
  | none => ⟨8, ty, sz, yr, mo, dy, hr, mi, se, 0⟩
  | some s13 =>
  match scanInt s13 with
  | none => ⟨8, ty, sz, yr, mo, dy, hr, mi, se, 0⟩
  | some (ns, _) => ⟨9, ty, sz, yr, mo, dy, hr, mi, se, ns⟩

mutual
/-- EntryInfo from dir_level.h: entry type, size, mtime seconds and
nanoseconds, and the owned child tree when the entry is a directory. The C
name field is a back pointer to the map key and the model stores the name
as the map key itself; the parent back references of DirLevel are
observation only and carry no data. -/
inductive EntryInfo : Type where
  | mk (type : Int) (size : Int) (sec : Int) (nsec : Int) (dir : Option DirLevel) : EntryInfo

/-- DirLevel from dir_level.h: one directory level, the name keyed std::map
of entries modelled as a list kept in ascending byte wise name order. -/
inductive DirLevel : Type where
  | mk (entries : List (Str × EntryInfo)) : DirLevel
end

def EntryInfo.type : EntryInfo → Int
  | .mk t _ _ _ _ => t

def EntryInfo.size : EntryInfo → Int
  | .mk _ z _ _ _ => z

def EntryInfo.sec : EntryInfo → Int
  | .mk _ _ s _ _ => s

def EntryInfo.nsec : EntryInfo → Int
  | .mk _ _ _ n _ => n

def EntryInfo.dir : EntryInfo → Option DirLevel
  | .mk _ _ _ _ d => d

def DirLevel.entries : DirLevel → List (Str × EntryInfo)
  | .mk es => es

instance : Inhabited EntryInfo := ⟨.mk 0 0 0 0 none⟩

instance : Inhabited DirLevel := ⟨.mk []⟩

/-- Byte wise lexicographic comparison of names (std::string operator
less); UTF-8 byte order coincides with scalar value order. -/
def strLtB : Str → Str → Bool
  | [], [] => false
  | [], _ :: _ => true
  | _ :: _, [] => false
  | a :: as, b :: bs => decide (a.toNat < b.toNat) || (a == b && strLtB as bs)

/-- Map lookup (std::map find). -/
def lookupE : List (Str × EntryInfo) → Str → Option EntryInfo
  | [], _ => none
  | (m, e) :: rest, n => if n = m then some e else lookupE rest n

/-- Map erase by name (std::map erase); the map holds at most one binding
per name. -/
def eraseE : List (Str × EntryInfo) → Str → List (Str × EntryInfo)
  | [], _ => []
  | (m, e) :: rest, n => if n = m then rest else (m, e) :: eraseE rest n

/-- Replace the child tree of the named entry, keeping its other fields:
the functional image of mutating info.dir in place. -/
def setDirAt : List (Str × EntryInfo) → Str → DirLevel → List (Str × EntryInfo)
  | [], _, _ => []
  | (m, e) :: rest, n, d =>
    if n = m then (m, .mk e.type e.size e.sec e.nsec (some d)) :: rest
    else (m, e) :: setDirAt rest n d

/-- Leaf step of CreateFromTraverseFile in dir_level.cpp: emplace the leaf
name (insert only if absent, in sorted map position), then overwrite type,
size and mtime, and when the parsed type is DT_DIR reset the child to a
fresh empty level; otherwise a pre existing child pointer is left as is. -/
def setLeaf : List (Str × EntryInfo) → Str → Int → Int → Int → Int → List (Str × EntryInfo)
  | [], n, t, z, s, ns => [(n, .mk t z s ns (if t = DT_DIR then some (.mk []) else none))]
  | (m, e) :: rest, n, t, z, s, ns =>
    if strLtB n m then
      (n, .mk t z s ns (if t = DT_DIR then some (.mk []) else none)) :: (m, e) :: rest
    else if n = m then
      (m, .mk t z s ns (if t = DT_DIR then some (.mk []) else e.dir)) :: rest
    else (m, e) :: setLeaf rest n t z s ns

/-- Leaf step of CreateFromTraverseFile in file-lister.cpp, the duplicated
decoder copy: textually the same emplace, field assignment and conditional
child reset as the dir_level.cpp copy. -/
def flSetLeaf : List (Str × EntryInfo) → Str → Int → Int → Int → Int → List (Str × EntryInfo)
  | [], n, t, z, s, ns => [(n, .mk t z s ns (if t = DT_DIR then some (.mk []) else none))]
  | (m, e) :: rest, n, t, z, s, ns =>
    if strLtB n m then
      (n, .mk t z s ns (if t = DT_DIR then some (.mk []) else none)) :: (m, e) :: rest
    else if n = m then
      (m, .mk t z s ns (if t = DT_DIR then some (.mk []) else e.dir)) :: rest
    else (m, e) :: flSetLeaf rest n t z s ns

/-- AddEntry of dir_level.cpp: emplace the dirent name, then assign type,
size (zero for a directory) and mtime from the stat; an existing entry
keeps its map node and child pointer while the metadata fields are
overwritten. -/
def addEntry : List (Str × EntryInfo) → Str → Int → Int → Int → Int → List (Str × EntryInfo)
  | [], n, t, z, s, ns => [(n, .mk t (if t = DT_DIR then 0 else z) s ns none)]
  | (m, e) :: rest, n, t, z, s, ns =>
    if strLtB n m then (n, .mk t (if t = DT_DIR then 0 else z) s ns none) :: (m, e) :: rest
    else if n = m then (m, .mk t (if t = DT_DIR then 0 else z) s ns e.dir) :: rest
    else (m, e) :: addEntry rest n t z s ns

/-- Parse failures thrown by CreateFromTraverseFile in dir_level.cpp, with
the line number the thrown message carries; missingDir also carries the
FullPath prefix of the level reached joined with the offending component. -/
inductive PErr : Type where
  | finalFields (ln : Nat)
  | badFields (ln : Nat) (matched : Nat)
  | missingDir (path : Str) (ln : Nat)
deriving DecidableEq

/-- Backward scan of dir_level.cpp: walking the reversed line, find the
fourth space from the end and split there into the path and the trailing
fields; none models the remain not zero parse error. acc carries the
characters already passed, in forward order. -/
def splitRevAux : Str → Nat → Str → Option (Str × Str)
  | [], _, _ => none
  | c :: rest, remain, acc =>
    if c == ' ' then
      if remain == 1 then some (rest.reverse, acc)
      else splitRevAux rest (remain - 1) (c :: acc)
    else splitRevAux rest remain (c :: acc)

/-- Split of a snapshot line at the fourth space from the end, as the
dir_level.cpp decoder performs it. -/
def dlSplit (line : Str) : Option (Str × Str) := splitRevAux line.reverse 4 []

/-- Result of the backward scan in file-lister.cpp with its size_t post
decrement loop: when the fourth space from the end sits at a positive index
the split succeeds; when it sits at index zero this copy throws its parse
error; with fewer than four spaces ofs wraps to the largest size_t, the
ofs equal zero check misses, and the copy writes one byte far out of
bounds, which is undefined behavior, modelled by the oob result. -/
inductive FlSplit : Type where
  | ok (path fields : Str)
  | err
  | oob
deriving DecidableEq

/-- Backward scan of file-lister.cpp (the duplicated decoder copy). -/
def flSplit (line : Str) : FlSplit :=
  match splitRevAux line.reverse 4 [] with
  | some pf => if pf.1 = [] then .err else .ok pf.1 pf.2
  | none => .oob

/-- Split a path at its last slash into the dirname, trailing slash
included, and the leaf name; with no slash the dirname is empty and the
whole path is the leaf (the rfind npos branch). Walks the reversed path. -/
def splitSlashAux : Str → Str → Str × Str
  | [], acc => ([], acc)
  | c :: rest, acc =>
    if c == '/' then ((c :: rest).reverse, acc) else splitSlashAux rest (c :: acc)

/-- Dirname and leaf split of the decoders. -/
def splitLastSlash (p : Str) : Str × Str := splitSlashAux p.reverse []

/-- Component scan of the dirname loop: collect the nonempty segments
before each slash, stopping after the last slash (a trailing segment not
followed by a slash is never visited, and empty segments are skipped).
cur carries the current segment reversed. -/
def compsAux : Str → Str → List Str
  | [], _ => []
  | c :: rest, cur =>
    if c == '/' then
      if cur == [] then compsAux rest [] else cur.reverse :: compsAux rest []
    else compsAux rest (c :: cur)

/-- Directory components of a dirname as the decoders walk them. -/
def pathComps (dirname : Str) : List Str := compsAux dirname []

/-- Prefix walk of CreateFromTraverseFile in dir_level.cpp: each component
must resolve to an existing DT_DIR entry owning a child, otherwise the
decode throws missingDir with the walked FullPath prefix and the component;
on success the update f is applied to the reached level, the functional
image of the in place mutation. -/
def navUpdate (lvl : DirLevel) (comps : List Str) (walked : Str) (ln : Nat)
    (f : List (Str × EntryInfo) → List (Str × EntryInfo)) : Except PErr DirLevel :=
  match comps with
  | [] => .ok (.mk (f lvl.entries))
  | c :: rest =>
    match lookupE lvl.entries c with
    | some e =>
      if e.type = DT_DIR then
        match e.dir with
        | some child =>
          match navUpdate child rest (walked ++ c ++ ['/']) ln f with
          | .ok child2 => .ok (.mk (setDirAt lvl.entries c child2))
          | .error er => .error er
        | none => .error (.missingDir (walked ++ c) ln)
      else .error (.missingDir (walked ++ c) ln)
    | none => .error (.missingDir (walked ++ c) ln)

/-- Pure read of the level a component path reaches, through DT_DIR entries
owning children. -/
def navGet (lvl : DirLevel) : List Str → Option DirLevel
  | [] => some lvl
  | c :: rest =>
    match lookupE lvl.entries c with
    | some e =>
      if e.type = DT_DIR then
        match e.dir with
        | some child => navGet child rest
        | none => none
      else none
    | none => none

/-- Replace the level a component path reaches; identity when the walk
fails (only used where navGet succeeds). -/
def navSet (lvl : DirLevel) (comps : List Str) (es : List (Str × EntryInfo)) : DirLevel :=
  match comps with
  | [] => .mk es
  | c :: rest =>
    match lookupE lvl.entries c with
    | some e =>
      match e.dir with
      | some child => .mk (setDirAt lvl.entries c (navSet child rest es))
      | none => lvl
    | none => lvl

/-- The missing directory error path of a failing prefix walk: the walked
prefix joined with slashes followed by the offending component; none when
the walk succeeds. -/
def navFail (lvl : DirLevel) (comps : List Str) (walked : Str) : Option Str :=
  match comps with
  | [] => none
  | c :: rest =>
    match lookupE lvl.entries c with
    | some e =>
      if e.type = DT_DIR then
        match e.dir with
        | some child => navFail child rest (walked ++ c ++ ['/'])
        | none => some (walked ++ c)
      else some (walked ++ c)
    | none => some (walked ++ c)

/-- One line of CreateFromTraverseFile in dir_level.cpp: backward scan for
the final four fields, the nine field sscanf, the dirname walk, and the
leaf insertion with the timegm conversion. -/
def dlProcessLine (root : DirLevel) (line : Str) (ln : Nat) : Except PErr DirLevel :=
  match dlSplit line with
  | none => .error (.finalFields ln)
  | some pf =>
    let r := scan9 pf.2
    if r.matched ≠ 9 then .error (.badFields ln r.matched)
    else
      let dn := splitLastSlash pf.1
      navUpdate root (pathComps dn.1) [] ln
        (fun es =>
          setLeaf es dn.2 r.type r.size
            (timegm r.year r.mon r.mday r.hour r.minute r.sec) r.nsec)

/-- Line loop of CreateFromTraverseFile in dir_level.cpp, threading the
line counter; any parse failure aborts the whole decode. -/
def dlDecodeFrom (root : DirLevel) : List Str → Nat → Except PErr DirLevel
  | [], _ => .ok root
  | l :: ls, n =>
    match dlProcessLine root l (n + 1) with
    | .ok r => dlDecodeFrom r ls (n + 1)
    | .error e => .error e

/-- CreateFromTraverseFile of dir_level.cpp over the getline pieces. -/
def dlDecode (ls : List Str) : Except PErr DirLevel := dlDecodeFrom (.mk []) ls 0

/-- Formatted trailing fields of one Traverse line, after the printf format
string: space, %d type, space, %lu size, space, then the zero padded UTC
date and time with nine nanosecond digits. -/
def fmtFields (e : EntryInfo) (tm : Tm) : Str :=
  ' ' :: intDigits e.type ++ ' ' :: luDigits e.size
    ++ ' ' :: padZ 4 (uDigitsI tm.year) ++ '-' :: padZ 2 (uDigitsN tm.mon)
    ++ '-' :: padZ 2 (uDigitsN tm.mday)
    ++ ' ' :: padZ 2 (uDigitsN tm.hour) ++ ':' :: padZ 2 (uDigitsN tm.minute)
    ++ ':' :: padZ 2 (uDigitsN tm.sec)
    ++ '.' :: padZ 9 (luDigits e.nsec)

mutual
/-- Traverse of dir_level.cpp: iterate one level in map order, emitting one
line per entry and, for an entry owning a child, recursing right after its
own line with the name and a slash appended to the path prefix. none
models the gmtime failure throw, which aborts the whole traversal. -/
def traverseLines : DirLevel → Str → Option (List Str)
  | .mk es, p => traverseEntries es p

/-- The recursion guard of Traverse: an entry owning a child is traversed
under the extended prefix, any other entry contributes no descendant
lines. -/
def traverseChild : Option DirLevel → Str → Option (List Str)
  | some c, p => traverseLines c p
  | none, _ => some []

/-- Entry loop of Traverse over the tail of one level. -/
def traverseEntries : List (Str × EntryInfo) → Str → Option (List Str)
  | [], _ => some []
  | (n, .mk t z s ns od) :: rest, p =>
    match gmtime s with
    | none => none
    | some tm =>
      match traverseChild od (p ++ n ++ ['/']) with
      | none => none
      | some sub =>
        match traverseEntries rest p with
        | none => none
        | some tail =>
          some ((p ++ n ++ fmtFields (.mk t z s ns od) tm) :: (sub ++ tail))
end

/-- Fatal error of RemoveCommon: a directory typed entry on either side
lacks its owned child tree; the offending name is carried (the thrown
message also reconstructs the FullPath prefix, which the functional model
does not track). -/
inductive RcErr : Type where
  | missingPtr (name : Str)
deriving DecidableEq

mutual
/-- Level loop of RemoveCommon in dir_level.cpp: iterate the entries of
dir1 in map order with the erase safe iterator, threading dir2. A name
found in dir2 with DT_DIR on both sides recurses unconditionally, then each
side's directory entry is erased exactly when that side's child became
empty; a name with equal type, size and mtime on both sides (not both
directories) is erased from both; anything else leaves both sides
untouched. -/
def rcLevel : List (Str × EntryInfo) → DirLevel → Except RcErr (List (Str × EntryInfo) × DirLevel)
  | [], d2 => .ok ([], d2)
  | (n, .mk t1 z1 s1 ns1 od1) :: rest, d2 =>
    match lookupE d2.entries n with
    | none =>
      match rcLevel rest d2 with
      | .error er => .error er
      | .ok rd => .ok ((n, .mk t1 z1 s1 ns1 od1) :: rd.1, rd.2)
    | some e2 =>
      if t1 = DT_DIR ∧ e2.type = DT_DIR then
        match od1, e2.dir with
        | some c1, some c2 =>
          match removeCommonD c1 c2 with
          | .error er => .error er
          | .ok cc =>
            let d2x : DirLevel :=
              if cc.2.entries.isEmpty then .mk (eraseE d2.entries n)
              else .mk (setDirAt d2.entries n cc.2)
            match rcLevel rest d2x with
            | .error er => .error er
            | .ok rd =>
              if cc.1.entries.isEmpty then .ok (rd.1, rd.2)
              else .ok ((n, .mk t1 z1 s1 ns1 (some cc.1)) :: rd.1, rd.2)
        | _, _ => .error (.missingPtr n)
      else
        if t1 = e2.type ∧ z1 = e2.size ∧ s1 = e2.sec ∧ ns1 = e2.nsec then
          match rcLevel rest (.mk (eraseE d2.entries n)) with
          | .error er => .error er
          | .ok rd => .ok (rd.1, rd.2)
        else
          match rcLevel rest d2 with
          | .error er => .error er
          | .ok rd => .ok ((n, .mk t1 z1 s1 ns1 od1) :: rd.1, rd.2)

/-- RemoveCommon of dir_level.cpp on two levels, mutating both in place in
the C code; here the two pruned levels are returned. -/
def removeCommonD : DirLevel → DirLevel → Except RcErr (DirLevel × DirLevel)
  | .mk es, d2 =>
    match rcLevel es d2 with
    | .error er => .error er
    | .ok rd => .ok (.mk rd.1, rd.2)
end

mutual
/-- One filesystem object as readdir and fstatat report it: the dirent
d_type, the stat size and mtime, and for an openable directory its own
listing; none for sub on a DT_DIR entry models a directory that cannot be
opened, which aborts the build. -/
inductive FSNode : Type where
  | mk (dtype : Int) (size : Int) (sec : Int) (nsec : Int) (sub : Option FSDir) : FSNode

/-- A directory listing in readdir order, which is unspecified and possibly
unsorted. -/
inductive FSDir : Type where
  | mk (listing : List (Str × FSNode)) : FSDir
end

mutual
/-- Entry loop of ReadDir in dir_level.cpp over the filesystem model: skip
the dot entries, AddEntry each dirent with its stat, and for a DT_DIR
entry recurse immediately and attach the child level before moving to the
next sibling. -/
def readEntries : List (Str × FSNode) → List (Str × EntryInfo) → Option (List (Str × EntryInfo))
  | [], acc => some acc
  | (n, .mk t z s ns osub) :: rest, acc =>
    if n = ['.'] ∨ n = ['.', '.'] then readEntries rest acc
    else
      if t = DT_DIR then
        match osub with
        | none => none
        | some sub =>
          match readDirM sub with
          | none => none
          | some child => readEntries rest (setDirAt (addEntry acc n t z s ns) n child)
      else readEntries rest (addEntry acc n t z s ns)

/-- ReadDir of dir_level.cpp on one directory of the filesystem model. -/
def readDirM : FSDir → Option DirLevel
  | .mk l =>
    match readEntries l [] with
    | none => none
    | some es => some (.mk es)
end

/-- CreateFromPath of dir_level.cpp over the filesystem model: read the
whole tree from the root directory. -/
def createFromPath (fs : FSDir) : Option DirLevel := readDirM fs

/-- Names a live filesystem walk yields: nonempty and slash free; the
newline free condition is the extra requirement under which the text
round trip holds. -/
def goodNameB (n : Str) : Bool :=
  !n.isEmpty && !n.contains '/' && !n.contains '\n'

/-- Strict ascending byte wise order of the names of one level, the
std::map iteration invariant. -/
def sortedNames : List (Str × EntryInfo) → Bool
  | [] => true
  | [_] => true
  | (a, _) :: (b, e) :: rest => strLtB a b && sortedNames ((b, e) :: rest)

mutual
/-- Well formedness of the entries of one level for the round trip: good
names, machine representable sizes, valid nanosecond fields, mtimes at or
after the start of UTC year 0 (-62167219200; for an earlier mtime the
printf %u of the negative int year prints a huge unsigned value whose %d
readback overflows int, so the text format cannot carry it), and a child
tree owned exactly by DT_DIR entries, recursively. -/
def validEntries : List (Str × EntryInfo) → Bool
  | [] => true
  | (n, .mk t z s ns od) :: rest =>
    goodNameB n && decide (0 ≤ z) && decide (z < 2 ^ 64)
      && decide (0 ≤ ns) && decide (ns < 1000000000)
      && decide (-62167219200 ≤ s)
      && (match od with
          | some c => t == DT_DIR && validTree c
          | none => t != DT_DIR)
      && validEntries rest

/-- Well formedness of a whole tree: every level sorted with well formed
entries. -/
def validTree : DirLevel → Bool
  | .mk es => sortedNames es && validEntries es
end

/-- Path prefix string of a component list, each component followed by a
slash, as Traverse accumulates it. -/
def pathStr : List Str → Str
  | [] => []
  | c :: rest => c ++ '/' :: pathStr rest

mutual
/-- Checks the child iff directory invariant on the entries of one level:
an entry owns a child tree exactly when its type is DT_DIR, recursively. -/
def childOkEntries : List (Str × EntryInfo) → Bool
  | [] => true
  | (_, .mk t _ _ _ od) :: rest =>
    (match od with
     | some c => t == DT_DIR && childOkTree c
     | none => t != DT_DIR)
      && childOkEntries rest

/-- Checks the child iff directory invariant on a whole tree. -/
def childOkTree : DirLevel → Bool
  | .mk es => childOkEntries es
end

mutual
/-- Checks the weaker one sided invariant that every DT_DIR entry owns a
child tree, on the entries of one level. -/
def dirOwnsEntries : List (Str × EntryInfo) → Bool
  | [] => true
  | (_, .mk t _ _ _ od) :: rest =>
    (match od with
     | some c => dirOwnsTree c
     | none => t != DT_DIR)
      && dirOwnsEntries rest

/-- Checks that every DT_DIR entry of a tree owns a child tree. -/
def dirOwnsTree : DirLevel → Bool
  | .mk es => dirOwnsEntries es
end

theorem splitRevAux_none_of_count_lt (l : Str) : ∀ (remain : Nat) (acc : Str),
    l.count ' ' < remain → splitRevAux l remain acc = none := by
  induction l with
  | nil => intro remain acc _; rfl
  | cons c rest ih =>
    intro remain acc h
    rw [List.count_cons] at h
    by_cases hc : c = ' '
    · subst hc
      simp only [splitRevAux, beq_self_eq_true, if_true]
      simp only [beq_self_eq_true, if_pos] at h
      have h2 : ¬ ((remain == 1) = true) := by
        simp only [beq_iff_eq]
        omega
      rw [if_neg h2]
      exact ih (remain - 1) _ (by omega)
    · have hcb : (c == ' ') = false := by
        simpa [beq_eq_false_iff_ne] using hc
      simp only [splitRevAux, hcb, Bool.false_eq_true, if_false]
      simp only [hcb, Bool.false_eq_true, if_false] at h
      exact ih remain _ (by omega)

theorem dlSplit_none_of_count_lt (line : Str) (h : line.count ' ' < 4) :
    dlSplit line = none := by
  unfold dlSplit
  exact splitRevAux_none_of_count_lt _ 4 [] (by rwa [List.count_reverse])

theorem strLtB_irrefl (s : Str) : strLtB s s = false := by
  induction s with
  | nil => rfl
  | cons a as ih => simp [strLtB, ih]

theorem strLtB_asymm : ∀ {a b : Str}, strLtB a b = true → strLtB b a = false
  | [], [], h => by simp [strLtB] at h
  | [], _ :: _, _ => rfl
  | _ :: _, [], h => by simp [strLtB] at h
  | x :: as, y :: bs, h => by
    simp only [strLtB, Bool.or_eq_true, decide_eq_true_eq, Bool.and_eq_true,
      beq_iff_eq] at h
    simp only [strLtB, Bool.or_eq_false_iff, decide_eq_false_iff_not,
      Bool.and_eq_false_iff, beq_eq_false_iff_ne]
    rcases h with h | ⟨rfl, h2⟩
    · have : x ≠ y := fun he => by rw [he] at h; omega
      exact ⟨by omega, Or.inl fun he => this he.symm⟩
    · exact ⟨by omega, Or.inr (strLtB_asymm h2)⟩

theorem strLtB_trans : ∀ {a b c : Str},
    strLtB a b = true → strLtB b c = true → strLtB a c = true
  | [], _ :: _, _ :: _, _, _ => rfl
  | [], [], _, h1, _ => by simp [strLtB] at h1
  | [], _ :: _, [], _, h2 => by simp [strLtB] at h2
  | _ :: _, [], _, h1, _ => by simp [strLtB] at h1
  | _ :: _, _ :: _, [], _, h2 => by simp [strLtB] at h2
  | x :: as, y :: bs, z :: cs, h1, h2 => by
    simp only [strLtB, Bool.or_eq_true, decide_eq_true_eq, Bool.and_eq_true,
      beq_iff_eq] at h1 h2 ⊢
    rcases h1 with h1 | ⟨rfl, h1b⟩
    · rcases h2 with h2 | ⟨rfl, _⟩
      · exact Or.inl (by omega)
      · exact Or.inl h1
    · rcases h2 with h2 | ⟨rfl, h2b⟩
      · exact Or.inl h2
      · exact Or.inr ⟨rfl, strLtB_trans h1b h2b⟩

theorem sortedNames_tail {m : Str} {e : EntryInfo} {rest : List (Str × EntryInfo)}
    (h : sortedNames ((m, e) :: rest) = true) : sortedNames rest = true := by
  match rest with
  | [] => rfl
  | (b, f) :: rest2 =>
    simp only [sortedNames, Bool.and_eq_true] at h
    exact h.2

theorem sortedNames_head_lt {m : Str} {e : EntryInfo} {rest : List (Str × EntryInfo)}
    (h : sortedNames ((m, e) :: rest) = true) :
    ∀ p ∈ rest, strLtB m p.1 = true := by
  induction rest generalizing m e with
  | nil => intro p hp; cases hp
  | cons q rest2 ih =>
    intro p hp
    obtain ⟨b, f⟩ := q
    simp only [sortedNames, Bool.and_eq_true] at h
    rcases List.mem_cons.mp hp with rfl | hp2
    · exact h.1
    · exact strLtB_trans h.1 (ih h.2 p hp2)

theorem lookupE_mem {es : List (Str × EntryInfo)} {n : Str} {e : EntryInfo}
    (h : lookupE es n = some e) : (n, e) ∈ es := by
  induction es with
  | nil => cases h
  | cons q rest ih =>
    obtain ⟨m, f⟩ := q
    by_cases hn : n = m
    · subst hn
      simp [lookupE] at h
      subst h
      exact List.mem_cons_self _ _
    · simp [lookupE, hn] at h
      exact List.mem_cons_of_mem _ (ih h)

/-- C6: a line with fewer than four spaces makes the dir_level.cpp decoder
throw the final four fields parse error at that line, and a line whose
trailing fields yield fewer than nine parsed tokens makes it throw the
expected nine fields error; but in the file-lister.cpp copy the backward
scan on a line with fewer than four spaces wraps ofs past zero, the
ofs equal zero check misses, and the copy writes out of bounds instead of
throwing, shown here on the failing input hello. -/
theorem c6_malformed_line_rejection :
    (∀ (root : DirLevel) (line : Str) (k : Nat),
        line.count ' ' < 4 →
        dlProcessLine root line k = .error (.finalFields k)) ∧
    (∀ (root : DirLevel) (line p f : Str) (k : Nat),
        dlSplit line = some (p, f) → (scan9 f).matched < 9 →
        dlProcessLine root line k = .error (.badFields k (scan9 f).matched)) ∧
    flSplit ("hello".data) = FlSplit.oob := by
  refine ⟨?_, ?_, rfl⟩
  · intro root line k h
    unfold dlProcessLine
    rw [dlSplit_none_of_count_lt line h]
  · intro root line p f k h1 h2
    unfold dlProcessLine
    rw [h1]
    simp only [ne_eq, ite_not]
    rw [if_neg (by omega)]

/-- Witness for c6_malformed_line_rejection at the failing input hello and
at a five field line whose trailing fields parse to zero tokens. -/
theorem c6_malformed_line_rejection_witness :
    ("hello".data.count ' ' < 4) ∧
    dlProcessLine (.mk []) "hello".data 1 = .error (.finalFields 1) ∧
    dlSplit "a b c d e".data = some ("a".data, "b c d e".data) ∧
    ((scan9 "b c d e".data).matched < 9) ∧
    dlProcessLine (.mk []) "a b c d e".data 2 =
      .error (.badFields 2 (scan9 "b c d e".data).matched) :=
  ⟨by decide, c6_malformed_line_rejection.1 (.mk []) "hello".data 1 (by decide),
   by decide, by decide,
   c6_malformed_line_rejection.2.1 (.mk []) "a b c d e".data "a".data "b c d e".data 2
     (by decide) (by decide)⟩

/-- C8 counterexample: decoding a directory line for d, then a file d/a,
reaches a tree where d owns a child holding a; decoding the same directory
line for d once more does not preserve that child — the decoder resets
info.dir unconditionally and the re-decoded tree has an empty child under
d, losing a. -/
theorem c8_counterexample :
    dlDecode ["d 4 0 2024-01-01 00:00:00.000000000".data,
              "d/a 8 5 2024-01-01 00:00:00.000000000".data] =
      .ok (.mk [(['d'], .mk 4 0 1704067200 0
        (some (.mk [(['a'], .mk 8 5 1704067200 0 none)])))]) ∧
    dlDecode ["d 4 0 2024-01-01 00:00:00.000000000".data,
              "d/a 8 5 2024-01-01 00:00:00.000000000".data,
              "d 4 0 2024-01-01 00:00:00.000000000".data] =
      .ok (.mk [(['d'], .mk 4 0 1704067200 0 (some (.mk [])))]) :=
  ⟨rfl, rfl⟩

/-- C8 amended: when a decoded line's kind is DT_DIR, both decoder copies
reset the entry's child to a fresh empty level unconditionally, so a pre
existing child tree and anything decoded into it is discarded, not
preserved. -/
theorem c8_amended_child_reset :
    ∀ (es : List (Str × EntryInfo)) (n : Str) (z s ns : Int),
      lookupE (setLeaf es n DT_DIR z s ns) n =
        some (.mk DT_DIR z s ns (some (.mk []))) ∧
      lookupE (flSetLeaf es n DT_DIR z s ns) n =
        some (.mk DT_DIR z s ns (some (.mk []))) := by
  intro es n z s ns
  constructor
  · induction es with
    | nil => simp [setLeaf, lookupE]
    | cons q rest ih =>
      obtain ⟨m, e⟩ := q
      by_cases hlt : strLtB n m = true
      · simp [setLeaf, hlt, lookupE]
      · by_cases hnm : n = m
        · subst hnm
          simp [setLeaf, hlt, lookupE]
        · simp [setLeaf, hlt, hnm, lookupE, ih]
  · induction es with
    | nil => simp [flSetLeaf, lookupE]
    | cons q rest ih =>
      obtain ⟨m, e⟩ := q
      by_cases hlt : strLtB n m = true
      · simp [flSetLeaf, hlt, lookupE]
      · by_cases hnm : n = m
        · subst hnm
          simp [flSetLeaf, hlt, lookupE]
        · simp [flSetLeaf, hlt, hnm, lookupE, ih]

/-- C9 counterexample: decoding a directory line for d and then a line
redefining d with the regular file kind succeeds and leaves an entry whose
type is not DT_DIR but which still owns a child tree, violating the child
iff directory invariant. -/
theorem c9_counterexample :
    dlDecode ["d 4 0 2024-01-01 00:00:00.000000000".data,
              "d 8 5 2024-01-01 00:00:00.000000000".data] =
      .ok (.mk [(['d'], .mk 8 5 1704067200 0 (some (.mk [])))]) ∧
    childOkTree (.mk [(['d'], .mk 8 5 1704067200 0 (some (.mk [])))]) = false :=
  ⟨rfl, rfl⟩

/-- C7 counterexample: AddEntry on a name already present does not leave
the existing EntryInfo unchanged — a second insert of a with a different
stat size overwrites the stored size. -/
theorem c7_counterexample :
    lookupE (addEntry [(['a'], .mk 8 5 100 0 none)] ['a'] 8 7 100 0) ['a'] ≠
      some (.mk 8 5 100 0 none) := by
  intro h
  have h2 : (some (7 : Int)) = some 5 :=
    congrArg (fun o => Option.map EntryInfo.size o) h
  simp at h2

/-- C7 amended: at both insertion sites the underlying map emplace reuses
the existing node — the key sequence is unchanged, no duplicate is created,
and the entry's child pointer is preserved — but the subsequent assignments
overwrite type, size and mtime with the newly supplied values (and the
decode step replaces the child by a fresh empty level when the new type is
DT_DIR). -/
theorem c7_amended_insert :
    ∀ (es : List (Str × EntryInfo)) (n : Str) (t z s ns : Int) (e : EntryInfo),
      sortedNames es = true →
      lookupE es n = some e →
      (lookupE (addEntry es n t z s ns) n =
          some (.mk t (if t = DT_DIR then 0 else z) s ns e.dir)
        ∧ (addEntry es n t z s ns).map Prod.fst = es.map Prod.fst)
      ∧ (lookupE (setLeaf es n t z s ns) n =
          some (.mk t z s ns (if t = DT_DIR then some (.mk []) else e.dir))
        ∧ (setLeaf es n t z s ns).map Prod.fst = es.map Prod.fst) := by
  intro es
  induction es with
  | nil => intro n t z s ns e _ hl; cases hl
  | cons q rest ih =>
    obtain ⟨m, f⟩ := q
    intro n t z s ns e hs hl
    by_cases hnm : n = m
    · subst hnm
      have hf : f = e := by simpa [lookupE] using hl
      subst hf
      refine ⟨⟨?_, ?_⟩, ?_, ?_⟩ <;>
        simp [addEntry, setLeaf, strLtB_irrefl, lookupE]
    · have hmem : (n, e) ∈ rest := by
        have h2 : lookupE rest n = some e := by simpa [lookupE, hnm] using hl
        exact lookupE_mem h2
      have hmn : strLtB m n = true := sortedNames_head_lt hs (n, e) hmem
      have hnmlt : strLtB n m = false := strLtB_asymm hmn
      have hrest : lookupE rest n = some e := by
        simpa [lookupE, hnm] using hl
      have ihr := ih n t z s ns e (sortedNames_tail hs) hrest
      refine ⟨⟨?_, ?_⟩, ?_, ?_⟩ <;>
        simp [addEntry, setLeaf, hnmlt, hnm, lookupE, ihr.1.1, ihr.1.2, ihr.2.1, ihr.2.2]

/-- Example level for the c7_amended_insert witness. -/
def c7Level : List (Str × EntryInfo) :=
  [(['a'], .mk 8 5 100 0 none), (['b'], .mk 4 0 50 0 (some (.mk [])))]

/-- Witness for c7_amended_insert: re-inserting b with new metadata into a
two entry level keeps the key sequence and b's child but overwrites the
metadata fields at both sites. -/
theorem c7_amended_insert_witness :
    (sortedNames c7Level = true) ∧
    (lookupE c7Level ['b'] = some (.mk 4 0 50 0 (some (.mk [])))) ∧
    ((lookupE (addEntry c7Level ['b'] 8 7 1 2) ['b'] =
        some (.mk 8 (if (8 : Int) = DT_DIR then 0 else 7) 1 2 (some (.mk [])))
      ∧ (addEntry c7Level ['b'] 8 7 1 2).map Prod.fst = c7Level.map Prod.fst)
    ∧ (lookupE (setLeaf c7Level ['b'] 8 7 1 2) ['b'] =
        some (.mk 8 7 1 2 (if (8 : Int) = DT_DIR then some (.mk []) else some (.mk [])))
      ∧ (setLeaf c7Level ['b'] 8 7 1 2).map Prod.fst = c7Level.map Prod.fst)) :=
  ⟨by decide, rfl,
   c7_amended_insert c7Level ['b'] 8 7 1 2 (.mk 4 0 50 0 (some (.mk [])))
     (by decide) rfl⟩

theorem navUpdate_error_of_navFail :
    ∀ (comps : List Str) (lvl : DirLevel) (walked q : Str) (ln : Nat)
      (f : List (Str × EntryInfo) → List (Str × EntryInfo)),
      navFail lvl comps walked = some q →
      navUpdate lvl comps walked ln f = .error (.missingDir q ln) := by
  intro comps
  induction comps with
  | nil => intro lvl walked q ln f h; cases h
  | cons c rest ih =>
    intro lvl walked q ln f h
    unfold navFail at h
    unfold navUpdate
    cases hlk : lookupE lvl.entries c with
    | none =>
      rw [hlk] at h
      simp only [Option.some_inj] at h
      simp [h]
    | some e =>
      rw [hlk] at h
      simp only at h ⊢
      by_cases ht : e.type = DT_DIR
      · rw [if_pos ht] at h
        rw [if_pos ht]
        cases hd : e.dir with
        | none =>
          rw [hd] at h
          simp only [Option.some_inj] at h
          simp [h]
        | some child =>
          rw [hd] at h
          simp only at h ⊢
          rw [ih child _ q ln f h]
      · rw [if_neg ht] at h
        simp only [Option.some_inj] at h
        simp [ht, h]

/-- C4: whenever a line parses but a component of its directory prefix does
not resolve to an existing DT_DIR entry owning a child (in any decoder
state root, so in particular with no prior line establishing it), the whole
decode of the remaining input fails at once with the missing directory
parse error carrying the walked path and the line number. -/
theorem c4_strict_missing_directory :
    ∀ (root : DirLevel) (line : Str) (rest : List Str) (k : Nat) (p f q : Str),
      dlSplit line = some (p, f) →
      (scan9 f).matched = 9 →
      navFail root (pathComps (splitLastSlash p).1) [] = some q →
      dlDecodeFrom root (line :: rest) k = .error (.missingDir q (k + 1)) := by
  intro root line rest k p f q h1 h2 h3
  have hp : dlProcessLine root line (k + 1) = .error (.missingDir q (k + 1)) := by
    unfold dlProcessLine
    rw [h1]
    simp only [h2, ne_eq, if_neg (by omega : ¬ (9 : Nat) ≠ 9)]
    exact navUpdate_error_of_navFail _ _ _ _ _ _ h3
  unfold dlDecodeFrom
  rw [hp]

/-- Witness for c4_strict_missing_directory: the single line snapshot
x/y.txt with no prior line establishing directory x is rejected by
CreateFromTraverseFile with the missing directory x error at line one. -/
theorem c4_strict_missing_directory_witness :
    dlSplit "x/y.txt 0 5 2024-01-01 00:00:00.000000000".data =
      some ("x/y.txt".data, "0 5 2024-01-01 00:00:00.000000000".data) ∧
    ((scan9 "0 5 2024-01-01 00:00:00.000000000".data).matched = 9) ∧
    navFail (.mk []) (pathComps (splitLastSlash "x/y.txt".data).1) [] = some "x".data ∧
    dlDecode ["x/y.txt 0 5 2024-01-01 00:00:00.000000000".data] =
      .error (.missingDir "x".data 1) :=
  ⟨by decide, by decide, by decide,
   c4_strict_missing_directory (.mk [])
     "x/y.txt 0 5 2024-01-01 00:00:00.000000000".data [] 0
     "x/y.txt".data "0 5 2024-01-01 00:00:00.000000000".data "x".data
     (by decide) (by decide) (by decide)⟩

theorem lookupE_eraseE_ne {es : List (Str × EntryInfo)} {n m : Str} (h : n ≠ m) :
    lookupE (eraseE es m) n = lookupE es n := by
  induction es with
  | nil => rfl
  | cons q rest ih =>
    obtain ⟨k, e⟩ := q
    by_cases hmk : m = k
    · subst hmk
      simp [eraseE, lookupE, fun hh : n = m => h hh]
    · by_cases hnk : n = k
      · subst hnk
        simp [eraseE, lookupE, hmk]
      · simp [eraseE, lookupE, hmk, hnk, ih]

theorem lookupE_setDirAt_ne {es : List (Str × EntryInfo)} {n m : Str} {d : DirLevel}
    (h : n ≠ m) : lookupE (setDirAt es m d) n = lookupE es n := by
  induction es with
  | nil => rfl
  | cons q rest ih =>
    obtain ⟨k, e⟩ := q
    by_cases hmk : m = k
    · subst hmk
      simp [setDirAt, lookupE, fun hh : n = m => h hh]
    · by_cases hnk : n = k
      · subst hnk
        simp [setDirAt, lookupE, hmk]
      · simp [setDirAt, lookupE, hmk, hnk, ih]

theorem lookupE_eq_none_iff {es : List (Str × EntryInfo)} {n : Str} :
    lookupE es n = none ↔ ∀ p ∈ es, p.1 ≠ n := by
  induction es with
  | nil => simp [lookupE]
  | cons q rest ih =>
    obtain ⟨k, e⟩ := q
    by_cases hnk : n = k
    · subst hnk
      simp [lookupE]
    · simp [lookupE, hnk, ih]
      intro _
      exact fun hh => hnk hh.symm

theorem rcLevel_frame :
    ∀ (es : List (Str × EntryInfo)) (d2 : DirLevel) (r : List (Str × EntryInfo))
      (d2' : DirLevel) (n : Str),
      rcLevel es d2 = .ok (r, d2') →
      (∀ p ∈ es, p.1 ≠ n) →
      lookupE r n = none ∧ lookupE d2'.entries n = lookupE d2.entries n := by
  intro es
  induction es with
  | nil =>
    intro d2 r d2' n h _
    simp only [rcLevel, Except.ok.injEq, Prod.mk.injEq] at h
    obtain ⟨h1, h2⟩ := h
    subst h1; subst h2
    exact ⟨rfl, rfl⟩
  | cons q rest ih =>
    intro d2 r d2' n h hne
    obtain ⟨n1, e1⟩ := q
    obtain ⟨t1, z1, s1, ns1, od1⟩ := e1
    have hn1 : n1 ≠ n := hne (n1, .mk t1 z1 s1 ns1 od1) (List.mem_cons_self _ _)
    have hner : ∀ p ∈ rest, p.1 ≠ n := fun p hp => hne p (List.mem_cons_of_mem _ hp)
    unfold rcLevel at h
    cases hlk : lookupE d2.entries n1 with
    | none =>
      rw [hlk] at h
      simp only at h
      cases hr : rcLevel rest d2 with
      | error er => rw [hr] at h; cases h
      | ok rd =>
        rw [hr] at h
        simp only [Except.ok.injEq, Prod.mk.injEq] at h
        obtain ⟨h1, h2⟩ := h
        subst h1; subst h2
        obtain ⟨ha, hb⟩ := ih d2 rd.1 rd.2 n hr hner
        have hnn1 : ¬ n = n1 := fun hh => hn1 hh.symm
        exact ⟨by simp [lookupE, hnn1, ha], hb⟩
    | some e2 =>
      rw [hlk] at h
      simp only at h
      by_cases hdd : t1 = DT_DIR ∧ e2.type = DT_DIR
      · rw [if_pos hdd] at h
        cases od1 with
        | none =>
          cases he2 : e2.dir with
          | none => rw [he2] at h; cases h
          | some c2 => rw [he2] at h; cases h
        | some c1 =>
          cases he2 : e2.dir with
          | none => rw [he2] at h; cases h
          | some c2 =>
            rw [he2] at h
            simp only at h
            cases hcc : removeCommonD c1 c2 with
            | error er => rw [hcc] at h; cases h
            | ok cc =>
              rw [hcc] at h
              simp only at h
              cases hrest : rcLevel rest
                  (if cc.2.entries.isEmpty then DirLevel.mk (eraseE d2.entries n1)
                   else DirLevel.mk (setDirAt d2.entries n1 cc.2)) with
              | error er => rw [hrest] at h; cases h
              | ok rd =>
                rw [hrest] at h
                simp only at h
                have hnn1 : n ≠ n1 := fun hh => hn1 hh.symm
                have hd2x : lookupE
                    (if cc.2.entries.isEmpty then DirLevel.mk (eraseE d2.entries n1)
                     else DirLevel.mk (setDirAt d2.entries n1 cc.2)).entries n =
                    lookupE d2.entries n := by
                  by_cases hcs : cc.2.entries.isEmpty = true
                  · rw [if_pos hcs]
                    show lookupE (eraseE d2.entries n1) n = lookupE d2.entries n
                    exact lookupE_eraseE_ne hnn1
                  · rw [if_neg hcs]
                    show lookupE (setDirAt d2.entries n1 cc.2) n = lookupE d2.entries n
                    exact lookupE_setDirAt_ne hnn1
                obtain ⟨ha, hb⟩ := ih _ rd.1 rd.2 n hrest hner
                by_cases hc1 : cc.1.entries.isEmpty
                · rw [if_pos hc1] at h
                  simp only [Except.ok.injEq, Prod.mk.injEq] at h
                  obtain ⟨h1, h2⟩ := h
                  subst h1; subst h2
                  exact ⟨ha, hb.trans hd2x⟩
                · rw [if_neg hc1] at h
                  simp only [Except.ok.injEq, Prod.mk.injEq] at h
                  obtain ⟨h1, h2⟩ := h
                  subst h1; subst h2
                  refine ⟨?_, hb.trans hd2x⟩
                  have hnn1 : ¬ n = n1 := fun hh => hn1 hh.symm
                  simp [lookupE, hnn1, ha]
      · rw [if_neg hdd] at h
        by_cases heq : t1 = e2.type ∧ z1 = e2.size ∧ s1 = e2.sec ∧ ns1 = e2.nsec
        · rw [if_pos heq] at h
          cases hrest : rcLevel rest (DirLevel.mk (eraseE d2.entries n1)) with
          | error er => rw [hrest] at h; cases h
          | ok rd =>
            rw [hrest] at h
            simp only [Except.ok.injEq, Prod.mk.injEq] at h
            obtain ⟨h1, h2⟩ := h
            subst h1; subst h2
            obtain ⟨ha, hb⟩ := ih _ rd.1 rd.2 n hrest hner
            refine ⟨ha, hb.trans ?_⟩
            simp [DirLevel.entries, lookupE_eraseE_ne hn1.symm]
        · rw [if_neg heq] at h
          cases hrest : rcLevel rest d2 with
          | error er => rw [hrest] at h; cases h
          | ok rd =>
            rw [hrest] at h
            simp only [Except.ok.injEq, Prod.mk.injEq] at h
            obtain ⟨h1, h2⟩ := h
            subst h1; subst h2
            obtain ⟨ha, hb⟩ := ih d2 rd.1 rd.2 n hrest hner
            have hnn1 : ¬ n = n1 := fun hh => hn1 hh.symm
            exact ⟨by simp [lookupE, hnn1, ha], hb⟩

/-- C10: RemoveCommon is driven solely by tree1's key set — for every pair
of levels (the theorem quantifies over all pairs, hence over every pair of
corresponding levels the recursion visits at any depth), a name not keyed
in tree1's entries keeps exactly the same binding in tree2 after the pass:
never visited, never removed, all fields and the whole subtree unchanged. -/
theorem c10_directional_frame :
    ∀ (t1 t2 t1' t2' : DirLevel) (n : Str),
      removeCommonD t1 t2 = .ok (t1', t2') →
      lookupE t1.entries n = none →
      lookupE t2'.entries n = lookupE t2.entries n := by
  intro t1 t2 t1' t2' n h hnone
  obtain ⟨es⟩ := t1
  unfold removeCommonD at h
  cases hr : rcLevel es t2 with
  | error er => rw [hr] at h; cases h
  | ok rd =>
    rw [hr] at h
    simp only [Except.ok.injEq, Prod.mk.injEq] at h
    obtain ⟨_, h2⟩ := h
    have hall : ∀ p ∈ es, p.1 ≠ n := lookupE_eq_none_iff.mp hnone
    exact h2 ▸ (rcLevel_frame es t2 rd.1 rd.2 n hr hall).2

/-- Witness for c10_directional_frame: with tree1 holding only a and tree2
holding a and b, the pass erases a from both sides while b, absent from
tree1, keeps its exact binding in tree2. -/
theorem c10_directional_frame_witness :
    removeCommonD (.mk [(['a'], .mk 8 5 1 2 none)])
        (.mk [(['a'], .mk 8 5 1 2 none), (['b'], .mk 8 1 3 4 none)]) =
      .ok (.mk [], .mk [(['b'], .mk 8 1 3 4 none)]) ∧
    lookupE [(['a'], EntryInfo.mk 8 5 1 2 none)] ['b'] = none ∧
    lookupE (DirLevel.mk [(['b'], EntryInfo.mk 8 1 3 4 none)]).entries ['b'] =
      lookupE (DirLevel.mk [(['a'], .mk 8 5 1 2 none),
                            (['b'], .mk 8 1 3 4 none)]).entries ['b'] :=
  ⟨rfl, rfl,
   c10_directional_frame (.mk [(['a'], .mk 8 5 1 2 none)])
     (.mk [(['a'], .mk 8 5 1 2 none), (['b'], .mk 8 1 3 4 none)])
     (.mk []) (.mk [(['b'], .mk 8 1 3 4 none)]) ['b'] rfl rfl⟩

theorem eraseE_sublist (es : List (Str × EntryInfo)) (n : Str) :
    List.Sublist (eraseE es n) es := by
  induction es with
  | nil => exact List.Sublist.refl _
  | cons q rest ih =>
    obtain ⟨k, e⟩ := q
    by_cases hnk : n = k
    · simp only [eraseE, if_pos hnk]
      exact List.sublist_cons_self _ _
    · simp only [eraseE, if_neg hnk]
      exact List.Sublist.cons₂ _ ih

theorem nodup_eraseE {es : List (Str × EntryInfo)} {n : Str}
    (h : (es.map Prod.fst).Nodup) : ((eraseE es n).map Prod.fst).Nodup :=
  h.sublist (List.Sublist.map _ (eraseE_sublist es n))

theorem setDirAt_keys (es : List (Str × EntryInfo)) (n : Str) (d : DirLevel) :
    (setDirAt es n d).map Prod.fst = es.map Prod.fst := by
  induction es with
  | nil => rfl
  | cons q rest ih =>
    obtain ⟨k, e⟩ := q
    by_cases hnk : n = k
    · simp [setDirAt, hnk]
    · simp [setDirAt, hnk, ih]

theorem lookupE_eraseE_self {es : List (Str × EntryInfo)} {n : Str}
    (h : (es.map Prod.fst).Nodup) : lookupE (eraseE es n) n = none := by
  induction es with
  | nil => rfl
  | cons q rest ih =>
    obtain ⟨k, e⟩ := q
    simp only [List.map_cons, List.nodup_cons] at h
    by_cases hnk : n = k
    · subst hnk
      simp only [eraseE, if_pos rfl]
      exact lookupE_eq_none_iff.mpr (fun p hp hh => h.1 (hh ▸ List.mem_map_of_mem _ hp))
    · simp only [eraseE, if_neg hnk, lookupE, if_neg hnk]
      exact ih h.2

theorem lookupE_setDirAt_self {es : List (Str × EntryInfo)} {n : Str} {e : EntryInfo}
    {d : DirLevel} (h : lookupE es n = some e) :
    lookupE (setDirAt es n d) n = some (.mk e.type e.size e.sec e.nsec (some d)) := by
  induction es with
  | nil => cases h
  | cons q rest ih =>
    obtain ⟨k, f⟩ := q
    by_cases hnk : n = k
    · subst hnk
      have hf : f = e := by simpa [lookupE] using h
      subst hf
      simp [setDirAt, lookupE]
    · simp only [lookupE, if_neg hnk] at h
      simp [setDirAt, lookupE, hnk, fun hh : n = k => hnk hh, ih h]

/-- Behaviour of one RemoveCommon pass at a name bound on both sides:
shorthand for the statements of the directory and non directory erasure
rules, with o1 and o2 the bindings after the pass. -/
def RcAtSpec (o1 o2 : Option EntryInfo) (e1 e2 : EntryInfo) : Prop :=
  (e1.type = DT_DIR ∧ e2.type = DT_DIR →
     ∃ c1 c2 c1' c2', e1.dir = some c1 ∧ e2.dir = some c2 ∧
       removeCommonD c1 c2 = .ok (c1', c2') ∧
       o1 = (if c1'.entries.isEmpty then none
             else some (.mk e1.type e1.size e1.sec e1.nsec (some c1'))) ∧
       o2 = (if c2'.entries.isEmpty then none
             else some (.mk e2.type e2.size e2.sec e2.nsec (some c2'))))
  ∧ (¬(e1.type = DT_DIR ∧ e2.type = DT_DIR) →
     ((e1.type = e2.type ∧ e1.size = e2.size ∧ e1.sec = e2.sec ∧ e1.nsec = e2.nsec →
        o1 = none ∧ o2 = none)
      ∧ (¬(e1.type = e2.type ∧ e1.size = e2.size ∧ e1.sec = e2.sec ∧ e1.nsec = e2.nsec) →
        o1 = some e1 ∧ o2 = some e2)))

theorem rcLevel_at_name :
    ∀ (es : List (Str × EntryInfo)) (d2 : DirLevel) (r : List (Str × EntryInfo))
      (d2' : DirLevel) (n : Str) (e1 e2 : EntryInfo),
      rcLevel es d2 = .ok (r, d2') →
      (es.map Prod.fst).Nodup →
      (d2.entries.map Prod.fst).Nodup →
      lookupE es n = some e1 →
      lookupE d2.entries n = some e2 →
      RcAtSpec (lookupE r n) (lookupE d2'.entries n) e1 e2 := by
  intro es
  induction es with
  | nil => intro d2 r d2' n e1 e2 _ _ _ hl1 _; cases hl1
  | cons q rest ih =>
    intro d2 r d2' n e1 e2 h hnd1 hnd2 hl1 hl2
    obtain ⟨n1, e0⟩ := q
    obtain ⟨t1, z1, s1, ns1, od1⟩ := e0
    simp only [List.map_cons, List.nodup_cons] at hnd1
    by_cases hnn : n = n1
    · subst hnn
      have he1 : EntryInfo.mk t1 z1 s1 ns1 od1 = e1 := by simpa [lookupE] using hl1
      subst he1
      have hnr : lookupE rest n = none :=
        lookupE_eq_none_iff.mpr
          (fun p hp hh => hnd1.1 (hh ▸ List.mem_map_of_mem _ hp))
      have hner : ∀ p ∈ rest, p.1 ≠ n := lookupE_eq_none_iff.mp hnr
      unfold rcLevel at h
      rw [hl2] at h
      simp only at h
      by_cases hdd : t1 = DT_DIR ∧ e2.type = DT_DIR
      · rw [if_pos hdd] at h
        cases od1 with
        | none =>
          cases he2d : e2.dir with
          | none => rw [he2d] at h; simp at h
          | some c2 => rw [he2d] at h; simp at h
        | some c1 =>
          cases he2d : e2.dir with
          | none => rw [he2d] at h; simp at h
          | some c2 =>
            rw [he2d] at h
            simp only at h
            cases hcc : removeCommonD c1 c2 with
            | error er => rw [hcc] at h; simp at h
            | ok cc =>
              rw [hcc] at h
              simp only at h
              cases hrest : rcLevel rest
                  (if cc.2.entries.isEmpty then DirLevel.mk (eraseE d2.entries n)
                   else DirLevel.mk (setDirAt d2.entries n cc.2)) with
              | error er => rw [hrest] at h; simp at h
              | ok rd =>
                rw [hrest] at h
                simp only at h
                obtain ⟨hfa, hfb⟩ := rcLevel_frame rest _ rd.1 rd.2 n hrest hner
                have hd2x : lookupE rd.2.entries n =
                    (if cc.2.entries.isEmpty then none
                     else some (.mk e2.type e2.size e2.sec e2.nsec (some cc.2))) := by
                  rw [hfb]
                  by_cases hcs : cc.2.entries.isEmpty = true
                  · rw [if_pos hcs, if_pos hcs]
                    exact lookupE_eraseE_self hnd2
                  · rw [if_neg hcs, if_neg hcs]
                    exact lookupE_setDirAt_self hl2
                constructor
                · intro _
                  refine ⟨c1, c2, cc.1, cc.2, rfl, he2d, ?_, ?_, ?_⟩
                  · rw [hcc]
                  · by_cases hc1e : cc.1.entries.isEmpty = true
                    · rw [if_pos hc1e] at h
                      simp only [Except.ok.injEq, Prod.mk.injEq] at h
                      obtain ⟨h1, h2⟩ := h
                      subst h1
                      rw [if_pos hc1e]
                      exact hfa
                    · rw [if_neg hc1e] at h
                      simp only [Except.ok.injEq, Prod.mk.injEq] at h
                      obtain ⟨h1, h2⟩ := h
                      subst h1
                      rw [if_neg hc1e]
                      simp [lookupE, EntryInfo.type, EntryInfo.size, EntryInfo.sec,
                        EntryInfo.nsec]
                  · by_cases hc1e : cc.1.entries.isEmpty = true
                    · rw [if_pos hc1e] at h
                      simp only [Except.ok.injEq, Prod.mk.injEq] at h
                      obtain ⟨h1, h2⟩ := h
                      subst h2
                      exact hd2x
                    · rw [if_neg hc1e] at h
                      simp only [Except.ok.injEq, Prod.mk.injEq] at h
                      obtain ⟨h1, h2⟩ := h
                      subst h2
                      exact hd2x
                · intro hnd
                  exact absurd (by simpa [EntryInfo.type] using hdd) hnd
      · rw [if_neg hdd] at h
        by_cases heq : t1 = e2.type ∧ z1 = e2.size ∧ s1 = e2.sec ∧ ns1 = e2.nsec
        · rw [if_pos heq] at h
          cases hrest : rcLevel rest (DirLevel.mk (eraseE d2.entries n)) with
          | error er => rw [hrest] at h; simp at h
          | ok rd =>
            rw [hrest] at h
            simp only [Except.ok.injEq, Prod.mk.injEq] at h
            obtain ⟨h1, h2⟩ := h
            subst h1; subst h2
            obtain ⟨hfa, hfb⟩ := rcLevel_frame rest _ rd.1 rd.2 n hrest hner
            constructor
            · intro hdd2
              exact absurd (by simpa [EntryInfo.type] using hdd2) hdd
            · intro _
              constructor
              · intro _
                refine ⟨hfa, ?_⟩
                rw [hfb]
                exact lookupE_eraseE_self hnd2
              · intro hne
                exact absurd (by simpa [EntryInfo.type, EntryInfo.size,
                  EntryInfo.sec, EntryInfo.nsec] using heq) hne
        · rw [if_neg heq] at h
          cases hrest : rcLevel rest d2 with
          | error er => rw [hrest] at h; simp at h
          | ok rd =>
            rw [hrest] at h
            simp only [Except.ok.injEq, Prod.mk.injEq] at h
            obtain ⟨h1, h2⟩ := h
            subst h1; subst h2
            obtain ⟨hfa, hfb⟩ := rcLevel_frame rest _ rd.1 rd.2 n hrest hner
            constructor
            · intro hdd2
              exact absurd (by simpa [EntryInfo.type] using hdd2) hdd
            · intro _
              constructor
              · intro heq2
                exact absurd (by simpa [EntryInfo.type, EntryInfo.size,
                  EntryInfo.sec, EntryInfo.nsec] using heq2) heq
              · intro _
                refine ⟨?_, hfb ▸ hl2⟩
                simp [lookupE]
    · have hlrest : lookupE rest n = some e1 := by
        simpa [lookupE, hnn] using hl1
      unfold rcLevel at h
      cases hlk : lookupE d2.entries n1 with
      | none =>
        rw [hlk] at h
        simp only at h
        cases hr : rcLevel rest d2 with
        | error er => rw [hr] at h; simp at h
        | ok rd =>
          rw [hr] at h
          simp only [Except.ok.injEq, Prod.mk.injEq] at h
          obtain ⟨h1, h2⟩ := h
          subst h1; subst h2
          have hre : lookupE ((n1, EntryInfo.mk t1 z1 s1 ns1 od1) :: rd.1) n =
              lookupE rd.1 n := by simp [lookupE, hnn]
          rw [hre]
          exact ih d2 rd.1 rd.2 n e1 e2 hr hnd1.2 hnd2 hlrest hl2
      | some f2 =>
        rw [hlk] at h
        simp only at h
        by_cases hdd1 : t1 = DT_DIR ∧ f2.type = DT_DIR
        · rw [if_pos hdd1] at h
          cases od1 with
          | none =>
            cases hf2d : f2.dir with
            | none => rw [hf2d] at h; simp at h
            | some c2 => rw [hf2d] at h; simp at h
          | some c1 =>
            cases hf2d : f2.dir with
            | none => rw [hf2d] at h; simp at h
            | some c2 =>
              rw [hf2d] at h
              simp only at h
              cases hcc : removeCommonD c1 c2 with
              | error er => rw [hcc] at h; simp at h
              | ok cc =>
                rw [hcc] at h
                simp only at h
                cases hrest : rcLevel rest
                    (if cc.2.entries.isEmpty then DirLevel.mk (eraseE d2.entries n1)
                     else DirLevel.mk (setDirAt d2.entries n1 cc.2)) with
                | error er => rw [hrest] at h; simp at h
                | ok rd =>
                  rw [hrest] at h
                  simp only at h
                  have hl2x : lookupE
                      (if cc.2.entries.isEmpty then DirLevel.mk (eraseE d2.entries n1)
                       else DirLevel.mk (setDirAt d2.entries n1 cc.2)).entries n =
                      some e2 := by
                    by_cases hcs : cc.2.entries.isEmpty = true
                    · rw [if_pos hcs]
                      show lookupE (eraseE d2.entries n1) n = some e2
                      rw [lookupE_eraseE_ne hnn]
                      exact hl2
                    · rw [if_neg hcs]
                      show lookupE (setDirAt d2.entries n1 cc.2) n = some e2
                      rw [lookupE_setDirAt_ne hnn]
                      exact hl2
                  have hnd2x : ((if cc.2.entries.isEmpty
                        then DirLevel.mk (eraseE d2.entries n1)
                        else DirLevel.mk (setDirAt d2.entries n1 cc.2)).entries.map
                          Prod.fst).Nodup := by
                    by_cases hcs : cc.2.entries.isEmpty = true
                    · rw [if_pos hcs]
                      exact nodup_eraseE hnd2
                    · rw [if_neg hcs]
                      show ((setDirAt d2.entries n1 cc.2).map Prod.fst).Nodup
                      rw [setDirAt_keys]
                      exact hnd2
                  have hrc := ih _ rd.1 rd.2 n e1 e2 hrest hnd1.2 hnd2x hlrest hl2x
                  by_cases hc1e : cc.1.entries.isEmpty = true
                  · rw [if_pos hc1e] at h
                    simp only [Except.ok.injEq, Prod.mk.injEq] at h
                    obtain ⟨h1, h2⟩ := h
                    subst h1; subst h2
                    exact hrc
                  · rw [if_neg hc1e] at h
                    simp only [Except.ok.injEq, Prod.mk.injEq] at h
                    obtain ⟨h1, h2⟩ := h
                    subst h1; subst h2
                    have hre : lookupE ((n1, EntryInfo.mk t1 z1 s1 ns1 (some cc.1))
                        :: rd.1) n = lookupE rd.1 n := by simp [lookupE, hnn]
                    rw [hre]
                    exact hrc
        · rw [if_neg hdd1] at h
          by_cases heq1 : t1 = f2.type ∧ z1 = f2.size ∧ s1 = f2.sec ∧ ns1 = f2.nsec
          · rw [if_pos heq1] at h
            cases hrest : rcLevel rest (DirLevel.mk (eraseE d2.entries n1)) with
            | error er => rw [hrest] at h; simp at h
            | ok rd =>
              rw [hrest] at h
              simp only [Except.ok.injEq, Prod.mk.injEq] at h
              obtain ⟨h1, h2⟩ := h
              subst h1; subst h2
              have hl2x : lookupE (DirLevel.mk (eraseE d2.entries n1)).entries n =
                  some e2 := by
                show lookupE (eraseE d2.entries n1) n = some e2
                rw [lookupE_eraseE_ne hnn]
                exact hl2
              exact ih _ rd.1 rd.2 n e1 e2 hrest hnd1.2 (nodup_eraseE hnd2) hlrest hl2x
          · rw [if_neg heq1] at h
            cases hrest : rcLevel rest d2 with
            | error er => rw [hrest] at h; simp at h
            | ok rd =>
              rw [hrest] at h
              simp only [Except.ok.injEq, Prod.mk.injEq] at h
              obtain ⟨h1, h2⟩ := h
              subst h1; subst h2
              have hre : lookupE ((n1, EntryInfo.mk t1 z1 s1 ns1 od1) :: rd.1) n =
                  lookupE rd.1 n := by simp [lookupE, hnn]
              rw [hre]
              exact ih d2 rd.1 rd.2 n e1 e2 hrest hnd1.2 hnd2 hlrest hl2

/-- C2: for a name bound at the same level in both trees whose two entries
are not both directories, RemoveCommon erases the entry from BOTH trees
exactly when the kinds, sizes and both mtime fields agree, and leaves both
bindings exactly as they were otherwise (kind mismatch, or same kind with a
size or mtime difference). The map key hypotheses restate the std::map
uniqueness invariant. -/
theorem c2_nondir_erase_rule :
    ∀ (t1 t2 t1' t2' : DirLevel) (n : Str) (e1 e2 : EntryInfo),
      removeCommonD t1 t2 = .ok (t1', t2') →
      (t1.entries.map Prod.fst).Nodup →
      (t2.entries.map Prod.fst).Nodup →
      lookupE t1.entries n = some e1 →
      lookupE t2.entries n = some e2 →
      ¬(e1.type = DT_DIR ∧ e2.type = DT_DIR) →
      ((e1.type = e2.type ∧ e1.size = e2.size ∧ e1.sec = e2.sec ∧ e1.nsec = e2.nsec →
          lookupE t1'.entries n = none ∧ lookupE t2'.entries n = none)
       ∧ (¬(e1.type = e2.type ∧ e1.size = e2.size ∧ e1.sec = e2.sec ∧
              e1.nsec = e2.nsec) →
          lookupE t1'.entries n = some e1 ∧ lookupE t2'.entries n = some e2)) := by
  intro t1 t2 t1' t2' n e1 e2 h hnd1 hnd2 hl1 hl2 hdd
  obtain ⟨es⟩ := t1
  unfold removeCommonD at h
  cases hr : rcLevel es t2 with
  | error er => rw [hr] at h; simp at h
  | ok rd =>
    rw [hr] at h
    simp only [Except.ok.injEq, Prod.mk.injEq] at h
    obtain ⟨h1, h2⟩ := h
    subst h1; subst h2
    exact (rcLevel_at_name es t2 rd.1 rd.2 n e1 e2 hr hnd1 hnd2 hl1 hl2).2 hdd

/-- Witness for c2_nondir_erase_rule: two single entry trees with an exact
duplicate a are both emptied by the pass. -/
theorem c2_nondir_erase_rule_witness :
    removeCommonD (.mk [(['a'], .mk 8 5 10 20 none)])
        (.mk [(['a'], .mk 8 5 10 20 none)]) = .ok (.mk [], .mk []) ∧
    (lookupE (DirLevel.mk []).entries ['a'] = none ∧
     lookupE (DirLevel.mk []).entries ['a'] = none) :=
  ⟨rfl,
   (c2_nondir_erase_rule (.mk [(['a'], .mk 8 5 10 20 none)])
      (.mk [(['a'], .mk 8 5 10 20 none)]) (.mk []) (.mk []) ['a']
      (.mk 8 5 10 20 none) (.mk 8 5 10 20 none) rfl (by decide) (by decide) rfl rfl
      (by decide)).1 ⟨rfl, rfl, rfl, rfl⟩⟩

/-- C3: for a name that is directory kind on both sides, RemoveCommon
recurses into the two children unconditionally (the recursive result
exists and determines the outcome), and afterwards each side's directory
entry is erased exactly when that side's pruned child is empty, the two
erasures independent; a surviving entry keeps its fields with the pruned
child written back. -/
theorem c3_directory_pruning :
    ∀ (t1 t2 t1' t2' : DirLevel) (n : Str) (e1 e2 : EntryInfo),
      removeCommonD t1 t2 = .ok (t1', t2') →
      (t1.entries.map Prod.fst).Nodup →
      (t2.entries.map Prod.fst).Nodup →
      lookupE t1.entries n = some e1 →
      lookupE t2.entries n = some e2 →
      e1.type = DT_DIR → e2.type = DT_DIR →
      ∃ c1 c2 c1' c2', e1.dir = some c1 ∧ e2.dir = some c2 ∧
        removeCommonD c1 c2 = .ok (c1', c2') ∧
        lookupE t1'.entries n = (if c1'.entries.isEmpty then none
          else some (.mk e1.type e1.size e1.sec e1.nsec (some c1'))) ∧
        lookupE t2'.entries n = (if c2'.entries.isEmpty then none
          else some (.mk e2.type e2.size e2.sec e2.nsec (some c2'))) := by
  intro t1 t2 t1' t2' n e1 e2 h hnd1 hnd2 hl1 hl2 ht1 ht2
  obtain ⟨es⟩ := t1
  unfold removeCommonD at h
  cases hr : rcLevel es t2 with
  | error er => rw [hr] at h; simp at h
  | ok rd =>
    rw [hr] at h
    simp only [Except.ok.injEq, Prod.mk.injEq] at h
    obtain ⟨h1, h2⟩ := h
    subst h1; subst h2
    exact (rcLevel_at_name es t2 rd.1 rd.2 n e1 e2 hr hnd1 hnd2 hl1 hl2).1 ⟨ht1, ht2⟩

/-- Witness for c3_directory_pruning at the spec example: tree1 holding
d with a (100 bytes) against tree2 holding d with a (100 bytes) and b
(1 byte); afterwards tree1 is empty (d pruned) while tree2 retains d with
only b. -/
theorem c3_directory_pruning_witness :
    removeCommonD
        (.mk [(['d'], .mk 4 0 7 8 (some (.mk [(['a'], .mk 8 100 9 10 none)])))])
        (.mk [(['d'], .mk 4 0 7 8 (some (.mk [(['a'], .mk 8 100 9 10 none),
                                              (['b'], .mk 8 1 11 12 none)])))]) =
      .ok (.mk [],
           .mk [(['d'], .mk 4 0 7 8 (some (.mk [(['b'], .mk 8 1 11 12 none)])))]) ∧
    (∃ c1 c2 c1' c2',
        (EntryInfo.mk 4 0 7 8
            (some (.mk [(['a'], .mk 8 100 9 10 none)]))).dir = some c1 ∧
        (EntryInfo.mk 4 0 7 8
            (some (.mk [(['a'], .mk 8 100 9 10 none),
                        (['b'], .mk 8 1 11 12 none)]))).dir = some c2 ∧
        removeCommonD c1 c2 = .ok (c1', c2') ∧
        lookupE (DirLevel.mk ([] : List (Str × EntryInfo))).entries ['d'] =
          (if c1'.entries.isEmpty then none
           else some (.mk 4 0 7 8 (some c1'))) ∧
        lookupE (DirLevel.mk [(['d'], EntryInfo.mk 4 0 7 8
            (some (.mk [(['b'], .mk 8 1 11 12 none)])))]).entries ['d'] =
          (if c2'.entries.isEmpty then none
           else some (.mk 4 0 7 8 (some c2')))) :=
  ⟨rfl,
   c3_directory_pruning
     (.mk [(['d'], .mk 4 0 7 8 (some (.mk [(['a'], .mk 8 100 9 10 none)])))])
     (.mk [(['d'], .mk 4 0 7 8 (some (.mk [(['a'], .mk 8 100 9 10 none),
                                           (['b'], .mk 8 1 11 12 none)])))])
     (.mk [])
     (.mk [(['d'], .mk 4 0 7 8 (some (.mk [(['b'], .mk 8 1 11 12 none)])))])
     ['d'] (.mk 4 0 7 8 (some (.mk [(['a'], .mk 8 100 9 10 none)])))
     (.mk 4 0 7 8 (some (.mk [(['a'], .mk 8 100 9 10 none),
                              (['b'], .mk 8 1 11 12 none)])))
     rfl (by decide) (by decide) rfl rfl rfl rfl⟩

mutual
/-- Well formedness of a filesystem listing: names pairwise distinct at
each level (readdir never repeats a name), recursively. -/
def fsWfList : List (Str × FSNode) → Bool
  | [] => true
  | (n, .mk _ _ _ _ osub) :: rest =>
    decide (¬ n ∈ rest.map Prod.fst)
      && (match osub with
          | some sub => fsWfDir sub
          | none => true)
      && fsWfList rest

/-- Well formedness of a filesystem model directory. -/
def fsWfDir : FSDir → Bool
  | .mk l => fsWfList l
end

theorem lookupE_addEntry_ne {es : List (Str × EntryInfo)} {n m : Str}
    {t z s ns : Int} (h : m ≠ n) :
    lookupE (addEntry es n t z s ns) m = lookupE es m := by
  induction es with
  | nil => simp [addEntry, lookupE, h]
  | cons q rest ih =>
    obtain ⟨k, e⟩ := q
    by_cases hlt : strLtB n k = true
    · simp [addEntry, hlt, lookupE, h]
    · by_cases hnk : n = k
      · subst hnk
        simp [addEntry, hlt, lookupE, h]
      · simp [addEntry, hlt, hnk, lookupE, ih]

theorem childOk_addEntry_nondir {es : List (Str × EntryInfo)} {n : Str}
    {t z s ns : Int} (hf : lookupE es n = none) (ht : t ≠ DT_DIR)
    (h : childOkEntries es = true) :
    childOkEntries (addEntry es n t z s ns) = true := by
  induction es with
  | nil => simp [addEntry, childOkEntries, ht, h]
  | cons q rest ih =>
    obtain ⟨k, e⟩ := q
    obtain ⟨tk, zk, sk, nsk, odk⟩ := e
    by_cases hnk : n = k
    · simp [lookupE, hnk] at hf
    · simp only [lookupE, if_neg hnk] at hf
      cases odk with
      | some c =>
        simp only [childOkEntries, Bool.and_eq_true] at h
        by_cases hlt : strLtB n k = true
        · simp only [addEntry, hlt, if_true]
          simp [childOkEntries, ht, h.1, h.2]
        · simp only [addEntry, hlt, Bool.false_eq_true, if_false, if_neg hnk]
          simp [childOkEntries, h.1, ih hf h.2]
      | none =>
        simp only [childOkEntries, Bool.and_eq_true] at h
        by_cases hlt : strLtB n k = true
        · simp only [addEntry, hlt, if_true]
          simp [childOkEntries, ht, h.1, h.2]
        · simp only [addEntry, hlt, Bool.false_eq_true, if_false, if_neg hnk]
          simp [childOkEntries, h.1, ih hf h.2]

theorem childOk_addEntry_dir {es : List (Str × EntryInfo)} {n : Str}
    {z s ns : Int} {child : DirLevel} (hf : lookupE es n = none)
    (hc : childOkTree child = true) (h : childOkEntries es = true) :
    childOkEntries (setDirAt (addEntry es n DT_DIR z s ns) n child) = true := by
  induction es with
  | nil => simp [addEntry, setDirAt, childOkEntries, hc, EntryInfo.type,
      EntryInfo.size, EntryInfo.sec, EntryInfo.nsec]
  | cons q rest ih =>
    obtain ⟨k, e⟩ := q
    obtain ⟨tk, zk, sk, nsk, odk⟩ := e
    by_cases hnk : n = k
    · simp [lookupE, hnk] at hf
    · simp only [lookupE, if_neg hnk] at hf
      cases odk with
      | some c =>
        simp only [childOkEntries, Bool.and_eq_true] at h
        by_cases hlt : strLtB n k = true
        · simp only [addEntry, hlt, if_true, setDirAt, if_pos rfl]
          simp [childOkEntries, EntryInfo.type, EntryInfo.size, EntryInfo.sec,
            EntryInfo.nsec, hc, h.1, h.2]
        · simp only [addEntry, hlt, Bool.false_eq_true, if_false, if_neg hnk,
            setDirAt]
          simp [setDirAt, if_neg hnk, childOkEntries, h.1, ih hf h.2]
      | none =>
        simp only [childOkEntries, Bool.and_eq_true] at h
        by_cases hlt : strLtB n k = true
        · simp only [addEntry, hlt, if_true, setDirAt, if_pos rfl]
          simp [childOkEntries, EntryInfo.type, EntryInfo.size, EntryInfo.sec,
            EntryInfo.nsec, hc, h.1, h.2]
        · simp only [addEntry, hlt, Bool.false_eq_true, if_false, if_neg hnk,
            setDirAt]
          simp [setDirAt, if_neg hnk, childOkEntries, h.1, ih hf h.2]

mutual
theorem readEntries_childOk :
    ∀ (l : List (Str × FSNode)) (acc out : List (Str × EntryInfo)),
      readEntries l acc = some out →
      fsWfList l = true →
      childOkEntries acc = true →
      (∀ p ∈ l, lookupE acc p.1 = none) →
      childOkEntries out = true
  | [], acc, out, h, _, hacc, _ => by
    simp only [readEntries, Option.some_inj] at h
    exact h ▸ hacc
  | (n, .mk t z s ns osub) :: rest, acc, out, h, hwf, hacc, hfr => by
    have hfn : lookupE acc n = none :=
      hfr (n, .mk t z s ns osub) (List.mem_cons_self _ _)
    unfold readEntries at h
    by_cases hdot : n = ['.'] ∨ n = ['.', '.']
    · rw [if_pos hdot] at h
      cases osub with
      | none =>
        replace hwf : (decide (¬ n ∈ rest.map Prod.fst) && true
            && fsWfList rest) = true := hwf
        simp only [Bool.and_eq_true] at hwf
        exact readEntries_childOk rest acc out h hwf.2 hacc
          (fun p hp => hfr p (List.mem_cons_of_mem _ hp))
      | some sub =>
        replace hwf : (decide (¬ n ∈ rest.map Prod.fst) && fsWfDir sub
            && fsWfList rest) = true := hwf
        simp only [Bool.and_eq_true] at hwf
        exact readEntries_childOk rest acc out h hwf.2 hacc
          (fun p hp => hfr p (List.mem_cons_of_mem _ hp))
    · rw [if_neg hdot] at h
      cases osub with
      | none =>
        replace hwf : (decide (¬ n ∈ rest.map Prod.fst) && true
            && fsWfList rest) = true := hwf
        simp only [Bool.and_eq_true, decide_eq_true_eq] at hwf
        by_cases ht : t = DT_DIR
        · rw [if_pos ht] at h
          simp at h
        · rw [if_neg ht] at h
          refine readEntries_childOk rest _ out h hwf.2
            (childOk_addEntry_nondir hfn ht hacc) ?_
          intro p hp
          have hpn : p.1 ≠ n := by
            intro hh
            exact hwf.1.1 (hh ▸ List.mem_map_of_mem _ hp)
          rw [lookupE_addEntry_ne hpn]
          exact hfr p (List.mem_cons_of_mem _ hp)
      | some sub =>
        replace hwf : (decide (¬ n ∈ rest.map Prod.fst) && fsWfDir sub
            && fsWfList rest) = true := hwf
        simp only [Bool.and_eq_true, decide_eq_true_eq] at hwf
        by_cases ht : t = DT_DIR
        · rw [if_pos ht] at h
          simp only at h
          cases hrd : readDirM sub with
          | none => rw [hrd] at h; simp at h
          | some child =>
            rw [hrd] at h
            simp only at h
            subst ht
            have hchild : childOkTree child = true :=
              readDirM_childOk sub child hrd hwf.1.2
            refine readEntries_childOk rest _ out h hwf.2
              (childOk_addEntry_dir hfn hchild hacc) ?_
            intro p hp
            have hpn : p.1 ≠ n := by
              intro hh
              exact hwf.1.1 (hh ▸ List.mem_map_of_mem _ hp)
            rw [lookupE_setDirAt_ne hpn, lookupE_addEntry_ne hpn]
            exact hfr p (List.mem_cons_of_mem _ hp)
        · rw [if_neg ht] at h
          refine readEntries_childOk rest _ out h hwf.2
            (childOk_addEntry_nondir hfn ht hacc) ?_
          intro p hp
          have hpn : p.1 ≠ n := by
            intro hh
            exact hwf.1.1 (hh ▸ List.mem_map_of_mem _ hp)
          rw [lookupE_addEntry_ne hpn]
          exact hfr p (List.mem_cons_of_mem _ hp)

theorem readDirM_childOk :
    ∀ (fs : FSDir) (t : DirLevel),
      readDirM fs = some t → fsWfDir fs = true → childOkTree t = true
  | .mk l, t, h, hwf => by
    unfold readDirM at h
    cases hre : readEntries l [] with
    | none => rw [hre] at h; cases h
    | some es =>
      rw [hre] at h
      simp only [Option.some_inj] at h
      subst h
      show childOkEntries es = true
      exact readEntries_childOk l [] es hre hwf rfl (fun p _ => rfl)
end

theorem dirOwns_lookup {es : List (Str × EntryInfo)} {n : Str} {e : EntryInfo}
    {c : DirLevel} (h : dirOwnsEntries es = true) (hl : lookupE es n = some e)
    (hd : e.dir = some c) : dirOwnsTree c = true := by
  induction es with
  | nil => cases hl
  | cons q rest ih =>
    obtain ⟨k, f⟩ := q
    obtain ⟨tk, zk, sk, nsk, odk⟩ := f
    by_cases hnk : n = k
    · subst hnk
      have hf : EntryInfo.mk tk zk sk nsk odk = e := by simpa [lookupE] using hl
      subst hf
      cases odk with
      | none => simp [EntryInfo.dir] at hd
      | some c2 =>
        replace h : (dirOwnsTree c2 && dirOwnsEntries rest) = true := h
        simp only [Bool.and_eq_true] at h
        have : c2 = c := by simpa [EntryInfo.dir] using hd
        exact this ▸ h.1
    · simp only [lookupE, if_neg hnk] at hl
      cases odk with
      | none =>
        replace h : ((tk != DT_DIR) && dirOwnsEntries rest) = true := h
        simp only [Bool.and_eq_true] at h
        exact ih h.2 hl
      | some c2 =>
        replace h : (dirOwnsTree c2 && dirOwnsEntries rest) = true := h
        simp only [Bool.and_eq_true] at h
        exact ih h.2 hl

theorem dirOwns_setDirAt {es : List (Str × EntryInfo)} {n : Str} {d : DirLevel}
    (h : dirOwnsEntries es = true) (hd : dirOwnsTree d = true) :
    dirOwnsEntries (setDirAt es n d) = true := by
  induction es with
  | nil => exact h
  | cons q rest ih =>
    obtain ⟨k, f⟩ := q
    obtain ⟨tk, zk, sk, nsk, odk⟩ := f
    cases odk with
    | none =>
      replace h : ((tk != DT_DIR) && dirOwnsEntries rest) = true := h
      simp only [Bool.and_eq_true] at h
      by_cases hnk : n = k
      · simp only [setDirAt, if_pos hnk]
        show (dirOwnsTree d && dirOwnsEntries rest) = true
        simp [hd, h.2]
      · simp only [setDirAt, if_neg hnk]
        show ((tk != DT_DIR) && dirOwnsEntries (setDirAt rest n d)) = true
        simp [h.1, ih h.2]
    | some c2 =>
      replace h : (dirOwnsTree c2 && dirOwnsEntries rest) = true := h
      simp only [Bool.and_eq_true] at h
      by_cases hnk : n = k
      · simp only [setDirAt, if_pos hnk]
        show (dirOwnsTree d && dirOwnsEntries rest) = true
        simp [hd, h.2]
      · simp only [setDirAt, if_neg hnk]
        show (dirOwnsTree c2 && dirOwnsEntries (setDirAt rest n d)) = true
        simp [h.1, ih h.2]

theorem setLeaf_dirOwns {es : List (Str × EntryInfo)} {n : Str} {t z s ns : Int}
    (h : dirOwnsEntries es = true) :
    dirOwnsEntries (setLeaf es n t z s ns) = true := by
  have hemp : dirOwnsTree (DirLevel.mk []) = true := rfl
  have hemp2 : dirOwnsEntries ([] : List (Str × EntryInfo)) = true := rfl
  induction es with
  | nil =>
    by_cases ht : t = DT_DIR
    · simp only [setLeaf, if_pos ht]
      show ((match some (DirLevel.mk []) with
             | some c => dirOwnsTree c
             | none => t != DT_DIR) && dirOwnsEntries []) = true
      rfl
    · simp only [setLeaf, if_neg ht]
      show ((match (none : Option DirLevel) with
             | some c => dirOwnsTree c
             | none => t != DT_DIR) && dirOwnsEntries []) = true
      simp [ht, hemp2]
  | cons q rest ih =>
    obtain ⟨k, f⟩ := q
    obtain ⟨tk, zk, sk, nsk, odk⟩ := f
    cases odk with
    | none =>
      replace h : ((tk != DT_DIR) && dirOwnsEntries rest) = true := h
      simp only [Bool.and_eq_true] at h
      by_cases hlt : strLtB n k = true
      · simp only [setLeaf, hlt, if_true]
        by_cases ht : t = DT_DIR
        · simp only [if_pos ht]
          show (dirOwnsTree (.mk []) &&
            ((tk != DT_DIR) && dirOwnsEntries rest)) = true
          simp [hemp, h.1, h.2]
        · simp only [if_neg ht]
          show ((match (none : Option DirLevel) with
                 | some c => dirOwnsTree c
                 | none => t != DT_DIR) &&
            ((tk != DT_DIR) && dirOwnsEntries rest)) = true
          simp [ht, hemp, h.1, h.2]
      · by_cases hnk : n = k
        · simp only [setLeaf, hlt, Bool.false_eq_true, if_false, if_pos hnk]
          by_cases ht : t = DT_DIR
          · simp only [if_pos ht]
            show (dirOwnsTree (.mk []) && dirOwnsEntries rest) = true
            simp [hemp, h.2]
          · simp only [if_neg ht]
            show ((match (EntryInfo.mk tk zk sk nsk none).dir with
                   | some c => dirOwnsTree c
                   | none => t != DT_DIR) && dirOwnsEntries rest) = true
            simp [EntryInfo.dir, ht, h.2]
        · simp only [setLeaf, hlt, Bool.false_eq_true, if_false, if_neg hnk]
          show ((tk != DT_DIR) && dirOwnsEntries (setLeaf rest n t z s ns)) = true
          simp [h.1, ih h.2]
    | some c2 =>
      replace h : (dirOwnsTree c2 && dirOwnsEntries rest) = true := h
      simp only [Bool.and_eq_true] at h
      by_cases hlt : strLtB n k = true
      · simp only [setLeaf, hlt, if_true]
        by_cases ht : t = DT_DIR
        · simp only [if_pos ht]
          show (dirOwnsTree (.mk []) &&
            (dirOwnsTree c2 && dirOwnsEntries rest)) = true
          simp [hemp, h.1, h.2]
        · simp only [if_neg ht]
          show ((match (none : Option DirLevel) with
                 | some c => dirOwnsTree c
                 | none => t != DT_DIR) &&
            (dirOwnsTree c2 && dirOwnsEntries rest)) = true
          simp [ht, hemp, h.1, h.2]
      · by_cases hnk : n = k
        · simp only [setLeaf, hlt, Bool.false_eq_true, if_false, if_pos hnk]
          by_cases ht : t = DT_DIR
          · simp only [if_pos ht]
            show (dirOwnsTree (.mk []) && dirOwnsEntries rest) = true
            simp [hemp, h.2]
          · simp only [if_neg ht]
            show ((match (EntryInfo.mk tk zk sk nsk (some c2)).dir with
                   | some c => dirOwnsTree c
                   | none => t != DT_DIR) && dirOwnsEntries rest) = true
            simp [EntryInfo.dir, h.1, h.2]
        · simp only [setLeaf, hlt, Bool.false_eq_true, if_false, if_neg hnk]
          show (dirOwnsTree c2 && dirOwnsEntries (setLeaf rest n t z s ns)) = true
          simp [h.1, ih h.2]

theorem navUpdate_dirOwns :
    ∀ (comps : List Str) (lvl : DirLevel) (walked : Str) (ln : Nat)
      (f : List (Str × EntryInfo) → List (Str × EntryInfo)) (lvl2 : DirLevel),
      navUpdate lvl comps walked ln f = .ok lvl2 →
      dirOwnsTree lvl = true →
      (∀ es, dirOwnsEntries es = true → dirOwnsEntries (f es) = true) →
      dirOwnsTree lvl2 = true := by
  intro comps
  induction comps with
  | nil =>
    intro lvl walked ln f lvl2 h hok hf
    obtain ⟨es⟩ := lvl
    simp only [navUpdate, Except.ok.injEq] at h
    subst h
    exact hf es hok
  | cons c rest ih =>
    intro lvl walked ln f lvl2 h hok hf
    unfold navUpdate at h
    cases hlk : lookupE lvl.entries c with
    | none => rw [hlk] at h; cases h
    | some e =>
      rw [hlk] at h
      simp only at h
      by_cases ht : e.type = DT_DIR
      · rw [if_pos ht] at h
        cases hd : e.dir with
        | none => rw [hd] at h; cases h
        | some child =>
          rw [hd] at h
          simp only at h
          cases hup : navUpdate child rest (walked ++ c ++ ['/']) ln f with
          | error er => rw [hup] at h; cases h
          | ok child2 =>
            rw [hup] at h
            simp only [Except.ok.injEq] at h
            subst h
            obtain ⟨es⟩ := lvl
            have hc : dirOwnsTree child = true := dirOwns_lookup hok hlk hd
            have hc2 : dirOwnsTree child2 = true := ih child _ ln f child2 hup hc hf
            show dirOwnsEntries (setDirAt es c child2) = true
            exact dirOwns_setDirAt hok hc2
      · rw [if_neg ht] at h; cases h

theorem dlDecodeFrom_dirOwns :
    ∀ (ls : List Str) (root : DirLevel) (k : Nat) (root2 : DirLevel),
      dlDecodeFrom root ls k = .ok root2 →
      dirOwnsTree root = true → dirOwnsTree root2 = true := by
  intro ls
  induction ls with
  | nil =>
    intro root k root2 h hok
    simp only [dlDecodeFrom, Except.ok.injEq] at h
    exact h ▸ hok
  | cons l rest ih =>
    intro root k root2 h hok
    unfold dlDecodeFrom at h
    cases hp : dlProcessLine root l (k + 1) with
    | error er => rw [hp] at h; cases h
    | ok r =>
      rw [hp] at h
      refine ih r (k + 1) root2 h ?_
      unfold dlProcessLine at hp
      cases hsp : dlSplit l with
      | none => rw [hsp] at hp; cases hp
      | some pf =>
        rw [hsp] at hp
        simp only at hp
        by_cases hm : (scan9 pf.2).matched ≠ 9
        · rw [if_pos hm] at hp; cases hp
        · rw [if_neg hm] at hp
          exact navUpdate_dirOwns _ root [] (k + 1) _ r hp hok
            (fun es hes => setLeaf_dirOwns hes)

theorem childOk_lookup {es : List (Str × EntryInfo)} {n : Str} {e : EntryInfo}
    (h : childOkEntries es = true) (hl : lookupE es n = some e) :
    (∃ c, e.dir = some c ∧ e.type = DT_DIR ∧ childOkTree c = true)
      ∨ (e.dir = none ∧ e.type ≠ DT_DIR) := by
  induction es with
  | nil => cases hl
  | cons q rest ih =>
    obtain ⟨k, f⟩ := q
    obtain ⟨tk, zk, sk, nsk, odk⟩ := f
    by_cases hnk : n = k
    · subst hnk
      have hf : EntryInfo.mk tk zk sk nsk odk = e := by simpa [lookupE] using hl
      subst hf
      cases odk with
      | none =>
        replace h : ((tk != DT_DIR) && childOkEntries rest) = true := h
        simp only [Bool.and_eq_true, bne_iff_ne, ne_eq] at h
        exact Or.inr ⟨rfl, h.1⟩
      | some c =>
        replace h : ((tk == DT_DIR && childOkTree c) && childOkEntries rest) = true := h
        simp only [Bool.and_eq_true, beq_iff_eq] at h
        exact Or.inl ⟨c, rfl, h.1.1, h.1.2⟩
    · simp only [lookupE, if_neg hnk] at hl
      cases odk with
      | none =>
        replace h : ((tk != DT_DIR) && childOkEntries rest) = true := h
        simp only [Bool.and_eq_true] at h
        exact ih h.2 hl
      | some c =>
        replace h : ((tk == DT_DIR && childOkTree c) && childOkEntries rest) = true := h
        simp only [Bool.and_eq_true] at h
        exact ih h.2 hl

theorem childOk_eraseE {es : List (Str × EntryInfo)} {n : Str}
    (h : childOkEntries es = true) : childOkEntries (eraseE es n) = true := by
  induction es with
  | nil => exact h
  | cons q rest ih =>
    obtain ⟨k, f⟩ := q
    obtain ⟨tk, zk, sk, nsk, odk⟩ := f
    cases odk with
    | none =>
      replace h : ((tk != DT_DIR) && childOkEntries rest) = true := h
      simp only [Bool.and_eq_true] at h
      by_cases hnk : n = k
      · simp only [eraseE, if_pos hnk]
        exact h.2
      · simp only [eraseE, if_neg hnk]
        show ((tk != DT_DIR) && childOkEntries (eraseE rest n)) = true
        simp [h.1, ih h.2]
    | some c =>
      replace h : ((tk == DT_DIR && childOkTree c) && childOkEntries rest) = true := h
      simp only [Bool.and_eq_true] at h
      by_cases hnk : n = k
      · simp only [eraseE, if_pos hnk]
        exact h.2
      · simp only [eraseE, if_neg hnk]
        show ((tk == DT_DIR && childOkTree c) && childOkEntries (eraseE rest n)) = true
        simp [h.1.1, h.1.2, ih h.2]

theorem childOk_setDirAt_dir {es : List (Str × EntryInfo)} {n : Str}
    {e : EntryInfo} {d : DirLevel} (h : childOkEntries es = true)
    (hl : lookupE es n = some e) (ht : e.type = DT_DIR)
    (hd : childOkTree d = true) :
    childOkEntries (setDirAt es n d) = true := by
  induction es with
  | nil => exact h
  | cons q rest ih =>
    obtain ⟨k, f⟩ := q
    obtain ⟨tk, zk, sk, nsk, odk⟩ := f
    by_cases hnk : n = k
    · subst hnk
      have hf : EntryInfo.mk tk zk sk nsk odk = e := by simpa [lookupE] using hl
      have htk : tk = DT_DIR := by rw [← hf] at ht; simpa [EntryInfo.type] using ht
      cases odk with
      | none =>
        replace h : ((tk != DT_DIR) && childOkEntries rest) = true := h
        simp only [Bool.and_eq_true, bne_iff_ne, ne_eq] at h
        exact absurd htk h.1
      | some c =>
        replace h : ((tk == DT_DIR && childOkTree c) && childOkEntries rest) = true := h
        simp only [Bool.and_eq_true] at h
        simp only [setDirAt, if_pos rfl]
        show ((tk == DT_DIR && childOkTree d) && childOkEntries rest) = true
        simp [htk, hd, h.2]
    · simp only [lookupE, if_neg hnk] at hl
      cases odk with
      | none =>
        replace h : ((tk != DT_DIR) && childOkEntries rest) = true := h
        simp only [Bool.and_eq_true] at h
        simp only [setDirAt, if_neg hnk]
        show ((tk != DT_DIR) && childOkEntries (setDirAt rest n d)) = true
        simp [h.1, ih h.2 hl]
      | some c =>
        replace h : ((tk == DT_DIR && childOkTree c) && childOkEntries rest) = true := h
        simp only [Bool.and_eq_true] at h
        simp only [setDirAt, if_neg hnk]
        show ((tk == DT_DIR && childOkTree c) && childOkEntries (setDirAt rest n d)) = true
        simp [h.1.1, h.1.2, ih h.2 hl]

mutual
theorem rcLevel_childOk :
    ∀ (es : List (Str × EntryInfo)) (d2 : DirLevel) (r : List (Str × EntryInfo))
      (d2' : DirLevel),
      rcLevel es d2 = .ok (r, d2') →
      childOkEntries es = true →
      childOkTree d2 = true →
      childOkEntries r = true ∧ childOkTree d2' = true
  | [], d2, r, d2', h, _, hok2 => by
    simp only [rcLevel, Except.ok.injEq, Prod.mk.injEq] at h
    obtain ⟨h1, h2⟩ := h
    subst h1; subst h2
    exact ⟨rfl, hok2⟩
  | (n1, .mk t1 z1 s1 ns1 od1) :: rest, d2, r, d2', h, hok1, hok2 => by
    have hok2e : childOkEntries d2.entries = true := by
      obtain ⟨es2⟩ := d2
      exact hok2
    unfold rcLevel at h
    cases hlk : lookupE d2.entries n1 with
    | none =>
      rw [hlk] at h
      simp only at h
      cases hr : rcLevel rest d2 with
      | error er => rw [hr] at h; simp at h
      | ok rd =>
        rw [hr] at h
        simp only [Except.ok.injEq, Prod.mk.injEq] at h
        obtain ⟨h1, h2⟩ := h
        subst h1; subst h2
        cases od1 with
        | none =>
          replace hok1 : ((t1 != DT_DIR) && childOkEntries rest) = true := hok1
          simp only [Bool.and_eq_true] at hok1
          obtain ⟨ha, hb⟩ := rcLevel_childOk rest d2 rd.1 rd.2 hr hok1.2 hok2
          refine ⟨?_, hb⟩
          show ((t1 != DT_DIR) && childOkEntries rd.1) = true
          simp [hok1.1, ha]
        | some c1 =>
          replace hok1 : ((t1 == DT_DIR && childOkTree c1)
              && childOkEntries rest) = true := hok1
          simp only [Bool.and_eq_true] at hok1
          obtain ⟨ha, hb⟩ := rcLevel_childOk rest d2 rd.1 rd.2 hr hok1.2 hok2
          refine ⟨?_, hb⟩
          show ((t1 == DT_DIR && childOkTree c1) && childOkEntries rd.1) = true
          simp [hok1.1.1, hok1.1.2, ha]
    | some e2 =>
      rw [hlk] at h
      simp only at h
      by_cases hdd : t1 = DT_DIR ∧ e2.type = DT_DIR
      · rw [if_pos hdd] at h
        cases od1 with
        | none =>
          cases he2d : e2.dir with
          | none => rw [he2d] at h; simp at h
          | some c2 => rw [he2d] at h; simp at h
        | some c1 =>
          replace hok1 : ((t1 == DT_DIR && childOkTree c1)
              && childOkEntries rest) = true := hok1
          simp only [Bool.and_eq_true] at hok1
          cases he2d : e2.dir with
          | none => rw [he2d] at h; simp at h
          | some c2 =>
            rw [he2d] at h
            simp only at h
            have hc2 : childOkTree c2 = true := by
              rcases childOk_lookup hok2e hlk with ⟨c, hcd, _, hcok⟩ | ⟨hcd, _⟩
              · rw [he2d] at hcd
                simp only [Option.some_inj] at hcd
                exact hcd ▸ hcok
              · rw [he2d] at hcd; cases hcd
            cases hcc : removeCommonD c1 c2 with
            | error er => rw [hcc] at h; simp at h
            | ok cc =>
              rw [hcc] at h
              simp only at h
              have hccok := removeCommonD_childOk c1 c2 cc.1 cc.2
                (by rw [hcc]) hok1.1.2 hc2
              have hd2xok : childOkTree
                  (if cc.2.entries.isEmpty then DirLevel.mk (eraseE d2.entries n1)
                   else DirLevel.mk (setDirAt d2.entries n1 cc.2)) = true := by
                by_cases hcs : cc.2.entries.isEmpty = true
                · rw [if_pos hcs]
                  show childOkEntries (eraseE d2.entries n1) = true
                  exact childOk_eraseE hok2e
                · rw [if_neg hcs]
                  show childOkEntries (setDirAt d2.entries n1 cc.2) = true
                  exact childOk_setDirAt_dir hok2e hlk hdd.2 hccok.2
              cases hrest : rcLevel rest
                  (if cc.2.entries.isEmpty then DirLevel.mk (eraseE d2.entries n1)
                   else DirLevel.mk (setDirAt d2.entries n1 cc.2)) with
              | error er => rw [hrest] at h; simp at h
              | ok rd =>
                rw [hrest] at h
                simp only at h
                obtain ⟨ha, hb⟩ := rcLevel_childOk rest _ rd.1 rd.2 hrest
                  hok1.2 hd2xok
                by_cases hc1e : cc.1.entries.isEmpty = true
                · rw [if_pos hc1e] at h
                  simp only [Except.ok.injEq, Prod.mk.injEq] at h
                  obtain ⟨h1, h2⟩ := h
                  subst h1; subst h2
                  exact ⟨ha, hb⟩
                · rw [if_neg hc1e] at h
                  simp only [Except.ok.injEq, Prod.mk.injEq] at h
                  obtain ⟨h1, h2⟩ := h
                  subst h1; subst h2
                  refine ⟨?_, hb⟩
                  show ((t1 == DT_DIR && childOkTree cc.1)
                    && childOkEntries rd.1) = true
                  simp [hdd.1, hccok.1, ha]
      · rw [if_neg hdd] at h
        by_cases heq : t1 = e2.type ∧ z1 = e2.size ∧ s1 = e2.sec ∧ ns1 = e2.nsec
        · rw [if_pos heq] at h
          cases hrest : rcLevel rest (DirLevel.mk (eraseE d2.entries n1)) with
          | error er => rw [hrest] at h; simp at h
          | ok rd =>
            rw [hrest] at h
            simp only [Except.ok.injEq, Prod.mk.injEq] at h
            obtain ⟨h1, h2⟩ := h
            subst h1; subst h2
            have hok1r : childOkEntries rest = true := by
              cases od1 with
              | none =>
                replace hok1 : ((t1 != DT_DIR) && childOkEntries rest) = true := hok1
                simp only [Bool.and_eq_true] at hok1
                exact hok1.2
              | some c1 =>
                replace hok1 : ((t1 == DT_DIR && childOkTree c1)
                    && childOkEntries rest) = true := hok1
                simp only [Bool.and_eq_true] at hok1
                exact hok1.2
            exact rcLevel_childOk rest _ rd.1 rd.2 hrest hok1r
              (childOk_eraseE hok2e)
        · rw [if_neg heq] at h
          cases hrest : rcLevel rest d2 with
          | error er => rw [hrest] at h; simp at h
          | ok rd =>
            rw [hrest] at h
            simp only [Except.ok.injEq, Prod.mk.injEq] at h
            obtain ⟨h1, h2⟩ := h
            subst h1; subst h2
            cases od1 with
            | none =>
              replace hok1 : ((t1 != DT_DIR) && childOkEntries rest) = true := hok1
              simp only [Bool.and_eq_true] at hok1
              obtain ⟨ha, hb⟩ := rcLevel_childOk rest d2 rd.1 rd.2 hrest hok1.2 hok2
              refine ⟨?_, hb⟩
              show ((t1 != DT_DIR) && childOkEntries rd.1) = true
              simp [hok1.1, ha]
            | some c1 =>
              replace hok1 : ((t1 == DT_DIR && childOkTree c1)
                  && childOkEntries rest) = true := hok1
              simp only [Bool.and_eq_true] at hok1
              obtain ⟨ha, hb⟩ := rcLevel_childOk rest d2 rd.1 rd.2 hrest hok1.2 hok2
              refine ⟨?_, hb⟩
              show ((t1 == DT_DIR && childOkTree c1) && childOkEntries rd.1) = true
              simp [hok1.1.1, hok1.1.2, ha]

theorem removeCommonD_childOk :
    ∀ (d1 d2 d1' d2' : DirLevel),
      removeCommonD d1 d2 = .ok (d1', d2') →
      childOkTree d1 = true →
      childOkTree d2 = true →
      childOkTree d1' = true ∧ childOkTree d2' = true
  | .mk es, d2, d1', d2', h, hok1, hok2 => by
    unfold removeCommonD at h
    cases hr : rcLevel es d2 with
    | error er => rw [hr] at h; simp at h
    | ok rd =>
      rw [hr] at h
      simp only [Except.ok.injEq, Prod.mk.injEq] at h
      obtain ⟨h1, h2⟩ := h
      subst h1; subst h2
      obtain ⟨ha, hb⟩ := rcLevel_childOk es d2 rd.1 rd.2 hr hok1 hok2
      exact ⟨ha, hb⟩
end

/-- C9 amended: a tree built by a successful CreateFromPath over a well
formed listing satisfies child iff DT_DIR; a tree from a successful
CreateFromTraverseFile satisfies the one sided invariant that every DT_DIR
entry owns a child tree (the converse can fail when a line redefines an
existing directory path with a non directory kind, see the counterexample);
and a successful RemoveCommon preserves the child iff DT_DIR invariant on
both trees at every depth. -/
theorem c9_amended_invariant :
    (∀ (fs : FSDir) (t : DirLevel),
        createFromPath fs = some t → fsWfDir fs = true → childOkTree t = true) ∧
    (∀ (ls : List Str) (t : DirLevel),
        dlDecode ls = .ok t → dirOwnsTree t = true) ∧
    (∀ (t1 t2 t1' t2' : DirLevel),
        removeCommonD t1 t2 = .ok (t1', t2') →
        childOkTree t1 = true → childOkTree t2 = true →
        childOkTree t1' = true ∧ childOkTree t2' = true) := by
  refine ⟨?_, ?_, ?_⟩
  · intro fs t h hwf
    exact readDirM_childOk fs t h hwf
  · intro ls t h
    exact dlDecodeFrom_dirOwns ls (.mk []) 0 t h rfl
  · intro t1 t2 t1' t2' h h1 h2
    exact removeCommonD_childOk t1 t2 t1' t2' h h1 h2

/-- Witness for c9_amended_invariant: a one file filesystem walk, a one
directory decode, and a matching pair fed to RemoveCommon. -/
theorem c9_amended_invariant_witness :
    (createFromPath (.mk [(['a'], .mk 8 5 1 2 none)]) =
        some (.mk [(['a'], .mk 8 5 1 2 none)]) ∧
     fsWfDir (.mk [(['a'], .mk 8 5 1 2 none)]) = true ∧
     childOkTree (.mk [(['a'], .mk 8 5 1 2 none)]) = true) ∧
    (dlDecode ["d 4 0 2024-01-01 00:00:00.000000000".data] =
        .ok (.mk [(['d'], .mk 4 0 1704067200 0 (some (.mk [])))]) ∧
     dirOwnsTree (.mk [(['d'], .mk 4 0 1704067200 0 (some (.mk [])))]) = true) ∧
    (removeCommonD (.mk [(['a'], .mk 8 5 1 2 none)])
        (.mk [(['a'], .mk 8 5 1 2 none)]) = .ok (.mk [], .mk []) ∧
     childOkTree (.mk []) = true ∧ childOkTree (.mk []) = true) :=
  ⟨⟨rfl, rfl,
    c9_amended_invariant.1 (.mk [(['a'], .mk 8 5 1 2 none)])
      (.mk [(['a'], .mk 8 5 1 2 none)]) rfl rfl⟩,
   ⟨rfl,
    c9_amended_invariant.2.1 ["d 4 0 2024-01-01 00:00:00.000000000".data]
      (.mk [(['d'], .mk 4 0 1704067200 0 (some (.mk [])))]) rfl⟩,
   ⟨rfl,
    c9_amended_invariant.2.2 (.mk [(['a'], .mk 8 5 1 2 none)])
      (.mk [(['a'], .mk 8 5 1 2 none)]) (.mk []) (.mk []) rfl rfl rfl⟩⟩

theorem sortedNames_pairwise :
    ∀ (es : List (Str × EntryInfo)), sortedNames es = true →
      List.Pairwise (fun a b : Str × EntryInfo => strLtB a.1 b.1 = true) es
  | [], _ => List.Pairwise.nil
  | (m, e) :: rest, h =>
    List.Pairwise.cons (fun x hx => sortedNames_head_lt h x hx)
      (sortedNames_pairwise rest (sortedNames_tail h))

theorem traverseEntries_cons_eq (n0 : Str) (t0 z0 s0 ns0 : Int)
    (od0 : Option DirLevel) (rest : List (Str × EntryInfo)) (p : Str) :
    traverseEntries ((n0, .mk t0 z0 s0 ns0 od0) :: rest) p =
    (match gmtime s0 with
     | none => none
     | some tm =>
       match traverseChild od0 (p ++ n0 ++ ['/']) with
       | none => none
       | some sub =>
         match traverseEntries rest p with
         | none => none
         | some tail =>
           some ((p ++ n0 ++ fmtFields (.mk t0 z0 s0 ns0 od0) tm)
             :: (sub ++ tail))) := rfl

theorem traverseEntries_join :
    ∀ (es : List (Str × EntryInfo)) (p : Str) (ls : List Str),
      traverseEntries es p = some ls →
      ∃ segs : List (List Str),
        ls = segs.join ∧
        segs.length = es.length ∧
        ∀ (i : Nat) (n : Str) (e : EntryInfo), es[i]? = some (n, e) →
          ∃ tm cls, gmtime e.sec = some tm ∧
            traverseChild e.dir (p ++ n ++ ['/']) = some cls ∧
            segs[i]? = some ((p ++ n ++ fmtFields e tm) :: cls) := by
  intro es
  induction es with
  | nil =>
    intro p ls h
    have hls : [] = ls := Option.some_inj.mp h
    refine ⟨[], hls.symm, rfl, ?_⟩
    intro i n e hi
    simp at hi
  | cons q rest ih =>
    intro p ls h
    obtain ⟨n0, e0⟩ := q
    obtain ⟨t0, z0, s0, ns0, od0⟩ := e0
    rw [traverseEntries_cons_eq] at h
    cases hgm : gmtime s0 with
    | none => rw [hgm] at h; cases h
    | some tm0 =>
      rw [hgm] at h
      simp only at h
      cases hsub : traverseChild od0 (p ++ n0 ++ ['/']) with
      | none => rw [hsub] at h; cases h
      | some sub =>
        rw [hsub] at h
        simp only at h
        cases htail : traverseEntries rest p with
        | none => rw [htail] at h; cases h
        | some tail =>
          rw [htail] at h
          simp only [Option.some_inj] at h
          obtain ⟨segs, hjoin, hlen, hidx⟩ := ih p tail htail
          refine ⟨((p ++ n0 ++ fmtFields (.mk t0 z0 s0 ns0 od0) tm0) :: sub)
            :: segs, ?_, ?_, ?_⟩
          · rw [← h, hjoin]
            simp
          · simp only [List.length_cons, hlen]
          · intro i n e hi
            cases i with
            | zero =>
              rw [List.getElem?_cons_zero] at hi
              injection hi with hpr
              injection hpr with hn he
              subst hn
              subst he
              exact ⟨tm0, sub, hgm, hsub, by simp⟩
            | succ k =>
              rw [List.getElem?_cons_succ] at hi
              rw [List.getElem?_cons_succ]
              exact hidx k n e hi

/-- C5: Traverse emits one output segment per entry of the level, in the
map's iteration order: the whole output is exactly the concatenation of the
per entry segments, and the i-th segment is the i-th entry's own line
followed by the complete traversal of that entry's child, empty for a non
directory entry, so a directory's own line precedes every line of its
descendants. Under the sorted level invariant of std::map, a hypothesis
here, the entry names at positions i < j compare strictly ascending byte
wise, so the segments, and with them the emitted lines, follow strictly
ascending name order. The theorem quantifies over every tree and prefix,
covering every level of the depth first traversal. -/
theorem c5_encode_ordering :
    ∀ (t : DirLevel) (p : Str) (ls : List Str),
      traverseLines t p = some ls →
      sortedNames t.entries = true →
      ∃ segs : List (List Str),
        ls = segs.join ∧
        segs.length = t.entries.length ∧
        (∀ (i : Nat) (n : Str) (e : EntryInfo), t.entries[i]? = some (n, e) →
          ∃ tm cls, gmtime e.sec = some tm ∧
            traverseChild e.dir (p ++ n ++ ['/']) = some cls ∧
            segs[i]? = some ((p ++ n ++ fmtFields e tm) :: cls)) ∧
        (∀ (i j : Nat) (ni nj : Str) (ei ej : EntryInfo), i < j →
          t.entries[i]? = some (ni, ei) → t.entries[j]? = some (nj, ej) →
          strLtB ni nj = true) := by
  intro t p ls h hs
  obtain ⟨es⟩ := t
  obtain ⟨segs, h1, h2, h3⟩ := traverseEntries_join es p ls h
  refine ⟨segs, h1, h2, h3, ?_⟩
  intro i j ni nj ei ej hij hi hj
  replace hi : es[i]? = some (ni, ei) := hi
  replace hj : es[j]? = some (nj, ej) := hj
  obtain ⟨hib, hvi⟩ := List.getElem?_eq_some_iff.mp hi
  obtain ⟨hjb, hvj⟩ := List.getElem?_eq_some_iff.mp hj
  have hp := List.pairwise_iff_getElem.mp (sortedNames_pairwise es hs) i j hib hjb hij
  rw [hvi, hvj] at hp
  exact hp

/-- Example tree for the c5_encode_ordering witness: a directory b holding
c, and a file d. -/
def c5Tree : DirLevel :=
  .mk [(['b'], .mk 4 0 0 0 (some (.mk [(['c'], .mk 8 7 0 1 none)]))),
       (['d'], .mk 8 9 0 2 none)]

/-- Witness for c5_encode_ordering on c5Tree: the three output lines split
into a segment per entry, the directory b's own line heading the block of
its descendant's lines, and the names at ascending positions compare
strictly ascending. -/
theorem c5_encode_ordering_witness :
    traverseLines c5Tree [] =
      some ["b 4 0 1970-01-01 00:00:00.000000000".data,
            "b/c 8 7 1970-01-01 00:00:00.000000001".data,
            "d 8 9 1970-01-01 00:00:00.000000002".data] ∧
    sortedNames c5Tree.entries = true ∧
    (∃ segs : List (List Str),
      ["b 4 0 1970-01-01 00:00:00.000000000".data,
       "b/c 8 7 1970-01-01 00:00:00.000000001".data,
       "d 8 9 1970-01-01 00:00:00.000000002".data] = segs.join ∧
      segs.length = c5Tree.entries.length ∧
      (∀ (i : Nat) (n : Str) (e : EntryInfo), c5Tree.entries[i]? = some (n, e) →
        ∃ tm cls, gmtime e.sec = some tm ∧
          traverseChild e.dir ([] ++ n ++ ['/']) = some cls ∧
          segs[i]? = some (([] ++ n ++ fmtFields e tm) :: cls)) ∧
      (∀ (i j : Nat) (ni nj : Str) (ei ej : EntryInfo), i < j →
        c5Tree.entries[i]? = some (ni, ei) → c5Tree.entries[j]? = some (nj, ej) →
        strLtB ni nj = true)) :=
  ⟨rfl, rfl, c5_encode_ordering c5Tree []
    ["b 4 0 1970-01-01 00:00:00.000000000".data,
     "b/c 8 7 1970-01-01 00:00:00.000000001".data,
     "d 8 9 1970-01-01 00:00:00.000000002".data] rfl rfl⟩

theorem digitChar_isDigit : ∀ k < 10, isDigitC (digitChar k) = true := by decide

theorem digitVal_digitChar : ∀ k < 10, digitVal (digitChar k) = k := by decide

theorem digitChar_not_special : ∀ k < 10,
    digitChar k ≠ ' ' ∧ digitChar k ≠ '\n' ∧ digitChar k ≠ '-' ∧
    digitChar k ≠ ':' ∧ digitChar k ≠ '.' := by decide

theorem natDigits_ne_nil (n : Nat) : natDigits n ≠ [] := by
  rw [natDigits_eq]
  by_cases h : n < 10
  · rw [if_pos h]; simp
  · rw [if_neg h]; simp

theorem natDigits_all_digits (n : Nat) : ∀ c ∈ natDigits n, isDigitC c = true := by
  induction n using Nat.strong_induction_on with
  | _ n ih =>
    rw [natDigits_eq]
    by_cases h : n < 10
    · rw [if_pos h]
      intro c hc
      simp only [List.mem_singleton] at hc
      exact hc ▸ digitChar_isDigit n h
    · rw [if_neg h]
      intro c hc
      rcases List.mem_append.mp hc with hc1 | hc2
      · exact ih (n / 10) (Nat.div_lt_self (by omega) (by omega)) c hc1
      · simp only [List.mem_singleton] at hc2
        exact hc2 ▸ digitChar_isDigit (n % 10) (Nat.mod_lt _ (by omega))

theorem isDigit_not_special {c : Char} (h : isDigitC c = true) :
    c ≠ ' ' ∧ c ≠ '\n' ∧ c ≠ '-' ∧ c ≠ ':' ∧ c ≠ '.' ∧ isSpaceC c = false := by
  simp only [isDigitC, Bool.and_eq_true, decide_eq_true_eq] at h
  refine ⟨?_, ?_, ?_, ?_, ?_, ?_⟩
  · intro hh; subst hh; revert h; decide
  · intro hh; subst hh; revert h; decide
  · intro hh; subst hh; revert h; decide
  · intro hh; subst hh; revert h; decide
  · intro hh; subst hh; revert h; decide
  · obtain ⟨h1, h2⟩ := h
    simp only [isSpaceC, Bool.or_eq_false_iff, beq_eq_false_iff_ne, ne_eq]
    refine ⟨⟨⟨⟨⟨?_, ?_⟩, ?_⟩, ?_⟩, ?_⟩, ?_⟩ <;>
      (intro hh; subst hh; revert h1 h2; decide)

theorem digitsVal_append (ds1 ds2 : Str) (acc : Nat) :
    digitsVal acc (ds1 ++ ds2) = digitsVal (digitsVal acc ds1) ds2 := by
  induction ds1 generalizing acc with
  | nil => rfl
  | cons c rest ih => exact ih (acc * 10 + digitVal c)

theorem natDigits_val (n : Nat) :
    ∀ acc, digitsVal acc (natDigits n) = acc * 10 ^ (natDigits n).length + n := by
  induction n using Nat.strong_induction_on with
  | _ n ih =>
    intro acc
    rw [natDigits_eq]
    by_cases h : n < 10
    · rw [if_pos h]
      show digitsVal (acc * 10 + digitVal (digitChar n)) [] =
        acc * 10 ^ (List.length [digitChar n]) + n
      rw [digitVal_digitChar n h]
      show acc * 10 + n = acc * 10 ^ 1 + n
      rw [pow_one]
    · rw [if_neg h]
      have hd : n / 10 < n := Nat.div_lt_self (by omega) (by omega)
      rw [digitsVal_append, ih (n / 10) hd acc]
      show digitsVal (_ * 10 + digitVal (digitChar (n % 10))) [] = _
      rw [digitVal_digitChar (n % 10) (Nat.mod_lt _ (by omega))]
      show (acc * 10 ^ (natDigits (n / 10)).length + n / 10) * 10 + n % 10 =
        acc * 10 ^ (natDigits (n / 10) ++ [digitChar (n % 10)]).length + n
      rw [List.length_append, List.length_singleton, pow_succ]
      have hr : acc * (10 ^ (natDigits (n / 10)).length * 10) =
          acc * 10 ^ (natDigits (n / 10)).length * 10 := by ring
      rw [hr]
      omega

theorem digitsVal_natDigits (n : Nat) : digitsVal 0 (natDigits n) = n := by
  rw [natDigits_val n 0]
  simp

theorem isDigit_not_plus {c : Char} (h : isDigitC c = true) : c ≠ '+' := by
  intro hh
  subst hh
  simp [isDigitC] at h

theorem takeWhile_all_append {p : Char → Bool} {ds rest : Str}
    (h1 : ∀ c ∈ ds, p c = true)
    (h2 : ∀ c, rest.head? = some c → p c = false) :
    (ds ++ rest).takeWhile p = ds ∧ (ds ++ rest).dropWhile p = rest := by
  induction ds with
  | nil =>
    simp only [List.nil_append]
    cases rest with
    | nil => exact ⟨rfl, rfl⟩
    | cons c r =>
      have := h2 c rfl
      simp [List.takeWhile, List.dropWhile, this]
  | cons d ds2 ih =>
    have hd : p d = true := h1 d (List.mem_cons_self _ _)
    have ih2 := ih (fun c hc => h1 c (List.mem_cons_of_mem _ hc))
    simp [List.takeWhile, List.dropWhile, hd, ih2.1, ih2.2]

theorem head_nondigit (d : Char) (hd : isDigitC d = false) (X : Str) :
    ∀ c, ((d :: X) : Str).head? = some c → isDigitC c = false := by
  intro c hc
  simp only [List.head?, Option.some_inj] at hc
  exact hc ▸ hd

theorem digitsVal_zeros (k : Nat) : digitsVal 0 (List.replicate k '0') = 0 := by
  induction k with
  | zero => rfl
  | succ m ih =>
    show digitsVal (0 * 10 + digitVal '0') (List.replicate m '0') = 0
    have : (0 : Nat) * 10 + digitVal '0' = 0 := by decide
    rw [this]
    exact ih

theorem replicate_zero_digits (k : Nat) :
    ∀ c ∈ List.replicate k '0', isDigitC c = true := by
  intro c hc
  rw [List.eq_of_mem_replicate hc]
  decide

theorem dropSpaces_head_not {c : Char} {X : Str} (h : isSpaceC c = false) :
    ((c :: X) : Str).dropWhile isSpaceC = c :: X := by
  simp [List.dropWhile, h]

theorem scanInt_zeros_digits {k v : Nat} {rest : Str}
    (h2 : ∀ c, rest.head? = some c → isDigitC c = false) :
    scanInt (List.replicate k '0' ++ natDigits v ++ rest) = some ((v : Int), rest) := by
  have hall : ∀ c ∈ List.replicate k '0' ++ natDigits v, isDigitC c = true := by
    intro c hc
    rcases List.mem_append.mp hc with hc1 | hc2
    · exact replicate_zero_digits k c hc1
    · exact natDigits_all_digits v c hc2
  have hsp := takeWhile_all_append hall h2
  have hne : List.replicate k '0' ++ natDigits v ≠ [] := by
    intro hh
    exact natDigits_ne_nil v (List.append_eq_nil.mp hh).2
  have hval : digitsVal 0 (List.replicate k '0' ++ natDigits v) = v := by
    rw [digitsVal_append, digitsVal_zeros, digitsVal_natDigits]
  obtain ⟨c0, X, hshape, hc0⟩ : ∃ c0 X,
      List.replicate k '0' ++ natDigits v ++ rest = c0 :: X ∧
      isDigitC c0 = true := by
    cases k with
    | zero =>
      cases hnv : natDigits v with
      | nil => exact absurd hnv (natDigits_ne_nil v)
      | cons c cs =>
        refine ⟨c, cs ++ rest, by simp [hnv], ?_⟩
        exact natDigits_all_digits v c (hnv ▸ List.mem_cons_self _ _)
    | succ m =>
      refine ⟨'0', List.replicate m '0' ++ natDigits v ++ rest, ?_, by decide⟩
      rw [List.replicate_succ]
      simp
  obtain ⟨_, _, hc0m, _, _, hc0sp⟩ := isDigit_not_special hc0
  unfold scanInt
  rw [hshape, dropSpaces_head_not hc0sp, ← hshape]
  split
  · rename_i r heq
    rw [hshape] at heq
    injection heq with hh _
    exact absurd hh hc0m
  · rename_i r heq
    rw [hshape] at heq
    injection heq with hh _
    exact absurd hh (isDigit_not_plus hc0)
  · rw [hsp.1, hsp.2, if_neg hne, hval]

theorem scanInt_digits {v : Nat} {rest : Str}
    (h2 : ∀ c, rest.head? = some c → isDigitC c = false) :
    scanInt (natDigits v ++ rest) = some ((v : Int), rest) := by
  have hh : scanInt (List.replicate 0 '0' ++ natDigits v ++ rest)
      = some ((v : Int), rest) := scanInt_zeros_digits h2
  simpa using hh

theorem scanInt_neg_digits {v : Nat} {rest : Str}
    (h2 : ∀ c, rest.head? = some c → isDigitC c = false) :
    scanInt ('-' :: (natDigits v ++ rest)) = some (-(v : Int), rest) := by
  have hall := natDigits_all_digits v
  have hsp := takeWhile_all_append hall h2
  unfold scanInt
  rw [dropSpaces_head_not (by decide)]
  show (if List.takeWhile isDigitC (natDigits v ++ rest) = [] then none
        else some (-(digitsVal 0 (List.takeWhile isDigitC (natDigits v ++ rest)) : Int),
          List.dropWhile isDigitC (natDigits v ++ rest))) = some (-(v : Int), rest)
  rw [hsp.1, hsp.2, if_neg (natDigits_ne_nil v), digitsVal_natDigits]

theorem scanInt_space (X : Str) : scanInt (' ' :: X) = scanInt X := by
  unfold scanInt
  rw [show ((' ' :: X : Str).dropWhile isSpaceC) = X.dropWhile isSpaceC by
    simp [List.dropWhile, isSpaceC]]

theorem expectCh_cons (c : Char) (rest : Str) : expectCh c (c :: rest) = some rest := by
  simp [expectCh]

theorem scanULong_of_scanInt {s rest : Str} {v : Int}
    (h : scanInt s = some (v, rest)) :
    scanULong s = some (v.emod (2 ^ 64), rest) := by
  unfold scanULong
  rw [h]

theorem scanInt_pad {w : Nat} {v : Nat} {rest : Str}
    (h2 : ∀ c, rest.head? = some c → isDigitC c = false) :
    scanInt (padZ w (natDigits v) ++ rest) = some ((v : Int), rest) := by
  have h : scanInt (List.replicate (w - (natDigits v).length) '0'
        ++ natDigits v ++ rest)
      = some ((v : Int), rest) := scanInt_zeros_digits h2
  unfold padZ
  simpa [List.append_assoc] using h

theorem count_space_digits {l : Str} (h : ∀ c ∈ l, isDigitC c = true) :
    l.count ' ' = 0 := by
  rw [List.count_eq_zero]
  intro hm
  have := h ' ' hm
  simp [isDigitC] at this

theorem count_space_natDigits (n : Nat) : (natDigits n).count ' ' = 0 :=
  count_space_digits (natDigits_all_digits n)

theorem count_space_padZ (w : Nat) {s : Str} (h : s.count ' ' = 0) :
    (padZ w s).count ' ' = 0 := by
  unfold padZ
  rw [List.count_append, h, Nat.add_zero, List.count_eq_zero]
  intro hm
  exact absurd (List.eq_of_mem_replicate hm) (by decide)

theorem count_space_intDigits (i : Int) : (intDigits i).count ' ' = 0 := by
  unfold intDigits
  split
  · simp [List.count_cons, count_space_natDigits]
  · exact count_space_natDigits _

/-- The trailing fields of a line after the separating space, in the right
nested form the sscanf model consumes. -/
def fmtTail (e : EntryInfo) (tm : Tm) : Str :=
  intDigits e.type ++ ' ' :: (luDigits e.size
    ++ ' ' :: (padZ 4 (uDigitsI tm.year)
    ++ '-' :: (padZ 2 (uDigitsN tm.mon)
    ++ '-' :: (padZ 2 (uDigitsN tm.mday)
    ++ ' ' :: (padZ 2 (uDigitsN tm.hour)
    ++ ':' :: (padZ 2 (uDigitsN tm.minute)
    ++ ':' :: (padZ 2 (uDigitsN tm.sec)
    ++ '.' :: padZ 9 (luDigits e.nsec))))))))

theorem fmtFields_eq_tail (e : EntryInfo) (tm : Tm) :
    fmtFields e tm = ' ' :: fmtTail e tm := by
  unfold fmtFields fmtTail
  simp [List.append_assoc]

theorem fmtTail_count (e : EntryInfo) (tm : Tm) :
    (fmtTail e tm).count ' ' = 3 := by
  unfold fmtTail luDigits uDigitsN uDigitsI
  simp [List.count_append, List.count_cons, count_space_intDigits,
    count_space_padZ, count_space_natDigits]

theorem no_newline_digits {l : Str} (h : ∀ c ∈ l, isDigitC c = true) :
    '\n' ∉ l := fun hm => by
  have := h '\n' hm
  simp [isDigitC] at this

theorem no_newline_natDigits (n : Nat) : '\n' ∉ natDigits n :=
  no_newline_digits (natDigits_all_digits n)

theorem no_newline_padZ (w : Nat) {s : Str} (h : '\n' ∉ s) : '\n' ∉ padZ w s := by
  unfold padZ
  intro hm
  rcases List.mem_append.mp hm with h1 | h2
  · exact absurd (List.eq_of_mem_replicate h1) (by decide)
  · exact h h2

theorem no_newline_intDigits (i : Int) : '\n' ∉ intDigits i := by
  unfold intDigits
  split
  · intro hm
    rcases List.mem_cons.mp hm with h1 | h2
    · exact absurd h1 (by decide)
    · exact no_newline_natDigits _ h2
  · exact no_newline_natDigits _

theorem no_newline_fmtFields (e : EntryInfo) (tm : Tm) : '\n' ∉ fmtFields e tm := by
  rw [fmtFields_eq_tail]
  unfold fmtTail luDigits uDigitsN uDigitsI
  intro hm
  simp only [List.mem_cons, List.mem_append] at hm
  rcases hm with h|h|h|h|h|h|h|h|h|h|h|h|h|h|h|h|h|h
  all_goals first
    | exact absurd h (by decide)
    | exact no_newline_natDigits _ h
    | exact no_newline_intDigits _ h
    | exact no_newline_padZ _ (no_newline_natDigits _) h

theorem splitRevAux_through :
    ∀ (T P acc : Str) (remain : Nat), T.count ' ' + 1 = remain →
      splitRevAux (T ++ ' ' :: P) remain acc = some (P.reverse, T.reverse ++ acc) := by
  intro T
  induction T with
  | nil =>
    intro P acc remain h
    simp only [List.count_nil, Nat.zero_add] at h
    subst h
    show splitRevAux (' ' :: P) 1 acc = some (P.reverse, acc)
    simp [splitRevAux]
  | cons c T' ih =>
    intro P acc remain h
    rw [List.count_cons] at h
    by_cases hc : c = ' '
    · subst hc
      simp only [beq_self_eq_true, if_true] at h
      show splitRevAux (' ' :: (T' ++ ' ' :: P)) remain acc = _
      simp only [splitRevAux, beq_self_eq_true, if_true]
      rw [if_neg (by simp only [beq_iff_eq]; omega)]
      rw [ih P (' ' :: acc) (remain - 1) (by omega)]
      simp [List.append_assoc]
    · have hcb2 : (c == ' ') = false := by
        simpa [beq_eq_false_iff_ne] using hc
      simp only [hcb2, Bool.false_eq_true, if_false, Nat.add_zero] at h
      show splitRevAux (c :: (T' ++ ' ' :: P)) remain acc = _
      simp only [splitRevAux, hcb2, Bool.false_eq_true, if_false]
      rw [ih P (c :: acc) remain h]
      simp [List.append_assoc]

theorem dlSplit_at {path T : Str} (h : T.count ' ' = 3) :
    dlSplit (path ++ ' ' :: T) = some (path, T) := by
  unfold dlSplit
  rw [List.reverse_append]
  have hr : (' ' :: T : Str).reverse ++ path.reverse
      = T.reverse ++ ' ' :: path.reverse := by
    simp [List.append_assoc]
  rw [hr, splitRevAux_through T.reverse path.reverse [] 4
    (by rw [List.count_reverse, h])]
  simp

theorem scanInt_intDigits (ty : Int) {rest : Str}
    (h2 : ∀ c, rest.head? = some c → isDigitC c = false) :
    scanInt (intDigits ty ++ rest) = some (ty, rest) := by
  unfold intDigits
  by_cases h : ty < 0
  · rw [if_pos h, List.cons_append, scanInt_neg_digits h2]
    have ht : ((-ty).toNat : Int) = -ty := Int.toNat_of_nonneg (by omega)
    rw [ht, neg_neg]
  · rw [if_neg h, scanInt_digits h2]
    have ht : ((ty.toNat : Int)) = ty := Int.toNat_of_nonneg (by omega)
    rw [ht]

theorem scan9_fmt (ty : Int) (z yr mo dy hr mi se ns : Nat) :
    scan9 (intDigits ty ++ ' ' :: (natDigits z
      ++ ' ' :: (padZ 4 (natDigits yr)
      ++ '-' :: (padZ 2 (natDigits mo)
      ++ '-' :: (padZ 2 (natDigits dy)
      ++ ' ' :: (padZ 2 (natDigits hr)
      ++ ':' :: (padZ 2 (natDigits mi)
      ++ ':' :: (padZ 2 (natDigits se)
      ++ '.' :: padZ 9 (natDigits ns))))))))) =
    ⟨9, ty, (z : Int).emod (2 ^ 64), (yr : Int), (mo : Int), (dy : Int),
      (hr : Int), (mi : Int), (se : Int), (ns : Int)⟩ := by
  set x9 : Str := padZ 9 (natDigits ns) with hx9
  set x8 : Str := padZ 2 (natDigits se) ++ '.' :: x9 with hx8
  set x7 : Str := padZ 2 (natDigits mi) ++ ':' :: x8 with hx7
  set x6 : Str := padZ 2 (natDigits hr) ++ ':' :: x7 with hx6
  set x5 : Str := padZ 2 (natDigits dy) ++ ' ' :: x6 with hx5
  set x4 : Str := padZ 2 (natDigits mo) ++ '-' :: x5 with hx4
  set x3 : Str := padZ 4 (natDigits yr) ++ '-' :: x4 with hx3
  set x2 : Str := natDigits z ++ ' ' :: x3 with hx2
  set x1 : Str := intDigits ty ++ ' ' :: x2 with hx1
  have h1 : scanInt x1 = some (ty, ' ' :: x2) := by
    rw [hx1]; exact scanInt_intDigits ty (head_nondigit ' ' (by decide) _)
  have h2 : scanULong (' ' :: x2) = some ((z : Int).emod (2 ^ 64), ' ' :: x3) := by
    apply scanULong_of_scanInt
    rw [scanInt_space, hx2]
    exact scanInt_digits (head_nondigit ' ' (by decide) _)
  have h3 : scanInt (' ' :: x3) = some ((yr : Int), '-' :: x4) := by
    rw [scanInt_space, hx3]
    exact scanInt_pad (head_nondigit '-' (by decide) _)
  have h4 : expectCh '-' ('-' :: x4) = some x4 := expectCh_cons _ _
  have h5 : scanInt x4 = some ((mo : Int), '-' :: x5) := by
    rw [hx4]; exact scanInt_pad (head_nondigit '-' (by decide) _)
  have h6 : expectCh '-' ('-' :: x5) = some x5 := expectCh_cons _ _
  have h7 : scanInt x5 = some ((dy : Int), ' ' :: x6) := by
    rw [hx5]; exact scanInt_pad (head_nondigit ' ' (by decide) _)
  have h8 : scanInt (' ' :: x6) = some ((hr : Int), ':' :: x7) := by
    rw [scanInt_space, hx6]
    exact scanInt_pad (head_nondigit ':' (by decide) _)
  have h9 : expectCh ':' (':' :: x7) = some x7 := expectCh_cons _ _
  have h10 : scanInt x7 = some ((mi : Int), ':' :: x8) := by
    rw [hx7]; exact scanInt_pad (head_nondigit ':' (by decide) _)
  have h11 : expectCh ':' (':' :: x8) = some x8 := expectCh_cons _ _
  have h12 : scanInt x8 = some ((se : Int), '.' :: x9) := by
    rw [hx8]; exact scanInt_pad (head_nondigit '.' (by decide) _)
  have h13 : expectCh '.' ('.' :: x9) = some x9 := expectCh_cons _ _
  have h14 : scanInt x9 = some ((ns : Int), []) := by
    rw [hx9]
    have hp : scanInt (padZ 9 (natDigits ns) ++ ([] : Str))
        = some ((ns : Int), ([] : Str)) := scanInt_pad (fun c hc => by simp at hc)
    simpa using hp
  show scan9 x1 = _
  simp only [scan9, h1, h2, h3, h4, h5, h6, h7, h8, h9, h10, h11, h12, h13, h14]

theorem sumDays_succ_left (y0 : Int) : ∀ n,
    sumDays y0 (n + 1) = daysInYear y0 + sumDays (y0 + 1) n
  | 0 => by simp [sumDays]
  | n + 1 => by
    show sumDays y0 (n + 1) + daysInYear (y0 + (n + 1 : Nat))
      = daysInYear y0 + (sumDays (y0 + 1) n + daysInYear (y0 + 1 + n))
    rw [sumDays_succ_left y0 n]
    have he : y0 + ((n + 1 : Nat) : Int) = y0 + 1 + n := by push_cast; ring
    rw [he]
    omega

theorem yearsDaysI_succ (y : Int) :
    yearsDaysI (y + 1) = yearsDaysI y + daysInYear y := by
  by_cases h1 : 1970 ≤ y
  · have h2 : 1970 ≤ y + 1 := by omega
    unfold yearsDaysI
    rw [if_pos h1, if_pos h2]
    have hn : (y + 1 - 1970).toNat = (y - 1970).toNat + 1 := by omega
    rw [hn]
    show ((sumDays 1970 ((y - 1970).toNat)
      + daysInYear (1970 + ((y - 1970).toNat : Int)) : Nat) : Int) = _
    have hy : (1970 : Int) + ((y - 1970).toNat : Int) = y := by omega
    rw [hy]
    push_cast
    ring
  · by_cases h2 : 1970 ≤ y + 1
    · have hy : y = 1969 := by omega
      subst hy
      decide
    · unfold yearsDaysI
      rw [if_neg h1, if_neg h2]
      have hm : (1970 - y).toNat = (1970 - (y + 1)).toNat + 1 := by omega
      rw [hm, sumDays_succ_left]
      push_cast
      ring

theorem yearsDaysI_le_add : ∀ (n : Nat) (y : Int), yearsDaysI y ≤ yearsDaysI (y + n)
  | 0, y => by simp
  | m + 1, y => by
    have h1 := yearsDaysI_le_add m y
    have hs := yearsDaysI_succ (y + m)
    have hc : y + ((m + 1 : Nat) : Int) = (y + (m : Nat)) + 1 := by push_cast; ring
    rw [hc, hs]
    have hD := daysInYear_pos (y + m)
    omega

theorem yearsDaysI_1970 : yearsDaysI 1970 = 0 := by decide

theorem sumDays_add (y0 : Int) (m n : Nat) :
    sumDays y0 (m + n) = sumDays y0 m + sumDays (y0 + m) n := by
  induction n with
  | zero => rfl
  | succ k ih =>
    rw [show m + (k + 1) = (m + k) + 1 from rfl]
    simp only [sumDays]
    rw [ih, show (((m + k : Nat) : Int)) = (m : Int) + k from by push_cast; ring]
    rw [show y0 + ((m : Int) + k) = y0 + m + k from by ring]
    omega

set_option maxRecDepth 4000 in
theorem sumDays_0_400 : sumDays 0 400 = 146097 := by decide

set_option maxRecDepth 4000 in
theorem sumDays_400_400 : sumDays 400 400 = 146097 := by decide

set_option maxRecDepth 4000 in
theorem sumDays_800_400 : sumDays 800 400 = 146097 := by decide

set_option maxRecDepth 4000 in
theorem sumDays_1200_400 : sumDays 1200 400 = 146097 := by decide

set_option maxRecDepth 4000 in
theorem sumDays_1600_370 : sumDays 1600 370 = 135140 := by decide

theorem yearsDaysI_zero : yearsDaysI 0 = -719528 := by
  have h1 := sumDays_add 0 400 1570
  have h2 := sumDays_add 400 400 1170
  have h3 := sumDays_add 800 400 770
  have h4 := sumDays_add 1200 400 370
  norm_num at h1 h2 h3 h4
  show -(sumDays 0 ((1970 : Int) - 0).toNat : Int) = -719528
  rw [show ((1970 : Int) - 0).toNat = 1970 from rfl]
  rw [h1, h2, h3, h4, sumDays_0_400, sumDays_400_400, sumDays_800_400,
    sumDays_1200_400, sumDays_1600_370]
  norm_num

theorem findYearF_correct : ∀ (a f : Nat) (d y : Int), d.natAbs = a →
    d.natAbs / 365 + 2 ≤ f →
    yearsDaysI (findYearF f d y).1 + (findYearF f d y).2 = yearsDaysI y + d ∧
    0 ≤ (findYearF f d y).2 ∧
    (findYearF f d y).2 < daysInYear (findYearF f d y).1 := by
  intro a
  induction a using Nat.strong_induction_on with
  | _ a ih =>
    intro f d y ha hf
    obtain ⟨g, rfl⟩ : ∃ g, f = g + 1 := ⟨f - 1, by omega⟩
    simp only [findYearF]
    by_cases hd0 : d < 0
    · rw [if_pos hd0]
      have hD := daysInYear_pos (y - 1)
      by_cases hneg : d + daysInYear (y - 1) < 0
      · have hab : (d + (daysInYear (y - 1) : Int)).natAbs < a := by omega
        have hdiv : (d + (daysInYear (y - 1) : Int)).natAbs / 365 + 1
            ≤ d.natAbs / 365 := by
          have hle : (d + (daysInYear (y - 1) : Int)).natAbs + 365 ≤ d.natAbs := by
            omega
          omega
        obtain ⟨c1, c2, c3⟩ := ih _ hab g _ (y - 1) rfl (by omega)
        refine ⟨?_, c2, c3⟩
        rw [c1]
        have hs := yearsDaysI_succ (y - 1)
        rw [show y - 1 + 1 = y from by ring] at hs
        omega
      · have hlt : d + daysInYear (y - 1) < daysInYear (y - 1) := by omega
        rw [findYearF_terminal g _ _ (by omega) (by omega) hlt]
        have hs := yearsDaysI_succ (y - 1)
        rw [show y - 1 + 1 = y from by ring] at hs
        refine ⟨?_, ?_, ?_⟩
        · show yearsDaysI (y - 1) + (d + (daysInYear (y - 1) : Int))
            = yearsDaysI y + d
          omega
        · show (0 : Int) ≤ d + (daysInYear (y - 1) : Int)
          omega
        · exact hlt
    · rw [if_neg hd0]
      by_cases hterm : d < daysInYear y
      · rw [if_pos hterm]
        exact ⟨rfl, by omega, hterm⟩
      · rw [if_neg hterm]
        have hD := daysInYear_pos y
        have hab : (d - (daysInYear y : Int)).natAbs < a := by omega
        have hdiv : (d - (daysInYear y : Int)).natAbs / 365 + 1
            ≤ d.natAbs / 365 := by
          have hle : (d - (daysInYear y : Int)).natAbs + 365 ≤ d.natAbs := by omega
          omega
        obtain ⟨c1, c2, c3⟩ := ih _ hab g _ (y + 1) rfl (by omega)
        refine ⟨?_, c2, c3⟩
        rw [c1]
        have hs := yearsDaysI_succ y
        omega

theorem findYear_correct (d : Int) :
    yearsDaysI (findYear d 1970).1 + (findYear d 1970).2 = d ∧
    0 ≤ (findYear d 1970).2 ∧
    (findYear d 1970).2 < daysInYear (findYear d 1970).1 := by
  have h := findYearF_correct d.natAbs _ d 1970 rfl (le_refl _)
  rw [yearsDaysI_1970] at h
  simpa using h

theorem findMonth_spec : ∀ (ml : List Nat) (doy m0 : Nat), doy < ml.sum →
    m0 ≤ (findMonth doy ml m0).1 ∧
    (findMonth doy ml m0).1 - m0 < ml.length ∧
    (ml.take ((findMonth doy ml m0).1 - m0)).sum + (findMonth doy ml m0).2 = doy := by
  intro ml
  induction ml with
  | nil =>
    intro doy m0 h
    simp only [List.sum_nil] at h
    omega
  | cons a rest ih =>
    intro doy m0 h
    simp only [findMonth]
    by_cases hd : doy < a
    · rw [if_pos hd]
      exact ⟨le_refl _, by simp, by simp⟩
    · rw [if_neg hd]
      have hsum : doy - a < rest.sum := by
        simp only [List.sum_cons] at h
        omega
      obtain ⟨ih1, ih2, ih3⟩ := ih (doy - a) (m0 + 1) hsum
      set r := findMonth (doy - a) rest (m0 + 1)
      refine ⟨by omega, ?_, ?_⟩
      · simp only [List.length_cons]
        omega
      · have hidx : r.1 - m0 = (r.1 - (m0 + 1)) + 1 := by omega
        rw [hidx, List.take_succ_cons, List.sum_cons]
        omega

theorem monthLens_sum (b : Bool) : (monthLens b).sum = if b then 366 else 365 := by
  cases b <;> decide

theorem monthLens_length (b : Bool) : (monthLens b).length = 12 := by
  cases b <;> rfl

theorem daysInYear_le (y : Int) : daysInYear y ≤ 366 := by
  unfold daysInYear
  split <;> omega

theorem timegm_eval (y : Int) (m0 md0 hh mm ss : Nat) :
    timegm y ((m0 + 1 : Nat) : Int) ((md0 + 1 : Nat) : Int)
      ((hh : Nat) : Int) ((mm : Nat) : Int) ((ss : Nat) : Int)
    = (yearsDaysI y + (((monthLens (isLeap y)).take m0).sum : Int) + (md0 : Int))
        * 86400 + (hh : Int) * 3600 + (mm : Int) * 60 + (ss : Int) := by
  unfold timegm
  have h2 : (((m0 + 1 : Nat) : Int) - 1).toNat = m0 := by omega
  rw [h2]
  push_cast
  ring

theorem gmtime_spec {s : Int} {tm : Tm} (hsf : -62167219200 ≤ s)
    (h : gmtime s = some tm) :
    0 ≤ tm.year ∧ tm.year ≤ 2147485547 ∧ 1 ≤ tm.mon ∧ tm.mon ≤ 12 ∧
    1 ≤ tm.mday ∧ tm.mday ≤ 366 ∧ tm.hour < 24 ∧ tm.minute < 60 ∧ tm.sec < 60 ∧
    timegm tm.year (tm.mon : Int) (tm.mday : Int) (tm.hour : Int)
      (tm.minute : Int) (tm.sec : Int) = s := by
  unfold gmtime at h
  simp only [] at h
  by_cases hg : -2147481748 ≤ (findYear (s / 86400) 1970).1 ∧
      (findYear (s / 86400) 1970).1 ≤ 2147485547
  · rw [if_pos hg, Option.some_inj] at h
    obtain ⟨hglo, hghi⟩ := hg
    obtain ⟨hyd, hr0, hrlt⟩ := findYear_correct (s / 86400)
    set d := s / 86400 with hdd
    set sod := (s % 86400).toNat with hsodd
    set yr := findYear d 1970 with hyrd
    clear_value sod yr
    have hdlb : -719528 ≤ d := by
      rw [hdd]
      have h1 := Int.ediv_le_ediv (by norm_num : (0 : Int) < 86400) hsf
      have h2 : (-62167219200 : Int) / 86400 = -719528 := by decide
      rw [h2] at h1
      exact h1
    have hy0 : 0 ≤ yr.1 := by
      by_contra hneg
      push_neg at hneg
      have hmono := yearsDaysI_le_add ((-(yr.1 + 1)).toNat) (yr.1 + 1)
      rw [show (yr.1 + 1) + (((-(yr.1 + 1)).toNat : Nat) : Int) = 0 from by omega,
        yearsDaysI_zero] at hmono
      have hds := yearsDaysI_succ yr.1
      obtain ⟨A, hA⟩ : ∃ A, yearsDaysI yr.1 = A := ⟨_, rfl⟩
      obtain ⟨B, hB⟩ : ∃ B, yearsDaysI (yr.1 + 1) = B := ⟨_, rfl⟩
      obtain ⟨D, hDq⟩ : ∃ D, daysInYear yr.1 = D := ⟨_, rfl⟩
      rw [hA, hB, hDq] at *
      omega
    have hsum : (monthLens (isLeap yr.1)).sum = daysInYear yr.1 := by
      rw [monthLens_sum]
      unfold daysInYear
      rfl
    obtain ⟨hm0, hmlen, hmsum⟩ := findMonth_spec (monthLens (isLeap yr.1))
      yr.2.toNat 0 (by rw [hsum]; omega)
    set md := findMonth yr.2.toNat (monthLens (isLeap yr.1)) 0 with hmdd
    clear_value md
    subst h
    dsimp only
    have hml := monthLens_length (isLeap yr.1)
    have hdle := daysInYear_le yr.1
    have hms2 : ((monthLens (isLeap yr.1)).take md.1).sum + md.2 = yr.2.toNat := by
      simpa using hmsum
    have hsodint : (sod : Int) = s % 86400 := by
      rw [hsodd]
      exact Int.toNat_of_nonneg (Int.emod_nonneg s (by norm_num))
    have hsplit : d * 86400 + (sod : Int) = s := by
      rw [hdd, hsodint]
      omega
    have hsodlt : sod < 86400 := by
      have hlt : s % 86400 < 86400 := Int.emod_lt_of_pos s (by norm_num)
      omega
    refine ⟨hy0, hghi, by omega, ?_, by omega, ?_, by omega, by omega, by omega, ?_⟩
    · rw [hml] at hmlen
      omega
    · obtain ⟨T, hT⟩ : ∃ T, ((monthLens (isLeap yr.1)).take md.1).sum = T := ⟨_, rfl⟩
      rw [hT] at hms2
      obtain ⟨D, hDq⟩ : ∃ D, daysInYear yr.1 = D := ⟨_, rfl⟩
      rw [hDq] at hrlt hdle
      omega
    · rw [timegm_eval yr.1 md.1 md.2 (sod / 3600) (sod % 3600 / 60) (sod % 60)]
      obtain ⟨T, hT⟩ : ∃ T, ((monthLens (isLeap yr.1)).take md.1).sum = T := ⟨_, rfl⟩
      rw [hT] at hms2 ⊢
      obtain ⟨Y, hY⟩ : ∃ Y, yearsDaysI yr.1 = Y := ⟨_, rfl⟩
      rw [hY] at hyd ⊢
      omega
  · rw [if_neg hg] at h
    exact absurd h (by simp)

theorem goodName_parts {n : Str} (h : goodNameB n = true) :
    n ≠ [] ∧ '/' ∉ n ∧ '\n' ∉ n := by
  unfold goodNameB at h
  simp only [Bool.and_eq_true, Bool.not_eq_true'] at h
  obtain ⟨⟨h1, h2⟩, h3⟩ := h
  refine ⟨?_, ?_, ?_⟩
  · intro he
    subst he
    simp at h1
  · intro hm
    have hc : List.contains n '/' = true := List.elem_iff.mpr hm
    rw [h2] at hc
    exact absurd hc (by simp)
  · intro hm
    have hc : List.contains n '\n' = true := List.elem_iff.mpr hm
    rw [h3] at hc
    exact absurd hc (by simp)

theorem splitSlashAux_none : ∀ (T acc : Str), (∀ c ∈ T, c ≠ '/') →
    splitSlashAux T acc = ([], T.reverse ++ acc) := by
  intro T
  induction T with
  | nil => intro acc _; simp [splitSlashAux]
  | cons c T' ih =>
    intro acc h
    have hc : c ≠ '/' := h c (List.mem_cons_self _ _)
    have hcb : (c == '/') = false := by simpa [beq_eq_false_iff_ne] using hc
    simp only [splitSlashAux, hcb, Bool.false_eq_true, if_false]
    rw [ih (c :: acc) (fun x hx => h x (List.mem_cons_of_mem _ hx))]
    simp [List.append_assoc]

theorem splitSlashAux_through : ∀ (T : Str), (∀ c ∈ T, c ≠ '/') →
    ∀ (P acc : Str), splitSlashAux (T ++ '/' :: P) acc
      = (('/' :: P : Str).reverse, T.reverse ++ acc) := by
  intro T
  induction T with
  | nil =>
    intro _ P acc
    show splitSlashAux ('/' :: P) acc = _
    simp [splitSlashAux]
  | cons c T' ih =>
    intro h P acc
    have hc : c ≠ '/' := h c (List.mem_cons_self _ _)
    have hcb : (c == '/') = false := by simpa [beq_eq_false_iff_ne] using hc
    show splitSlashAux (c :: (T' ++ '/' :: P)) acc = _
    simp only [splitSlashAux, hcb, Bool.false_eq_true, if_false]
    rw [ih (fun x hx => h x (List.mem_cons_of_mem _ hx)) P (c :: acc)]
    simp [List.append_assoc]

theorem pathStr_reverse_slash : ∀ (P : List Str), P ≠ [] →
    ∃ W, (pathStr P).reverse = '/' :: W := by
  intro P
  induction P with
  | nil => intro h; exact absurd rfl h
  | cons c rest ih =>
    intro _
    show ∃ W, (c ++ '/' :: pathStr rest : Str).reverse = '/' :: W
    by_cases hr : rest = []
    · subst hr
      refine ⟨c.reverse, ?_⟩
      simp [pathStr]
    · obtain ⟨W, hW⟩ := ih hr
      refine ⟨W ++ '/' :: c.reverse, ?_⟩
      rw [List.reverse_append,
        show ('/' :: pathStr rest : Str).reverse = (pathStr rest).reverse ++ ['/'] from
          List.reverse_cons _ _,
        hW]
      simp

theorem splitLastSlash_pathStr (P : List Str) (n : Str) (hn : ∀ c ∈ n, c ≠ '/') :
    splitLastSlash (pathStr P ++ n) = (pathStr P, n) := by
  unfold splitLastSlash
  rw [List.reverse_append]
  by_cases hP : P = []
  · subst hP
    rw [show (pathStr [] : Str).reverse = [] from rfl, List.append_nil]
    rw [splitSlashAux_none n.reverse [] (fun c hc => hn c (List.mem_reverse.mp hc))]
    simp [pathStr]
  · obtain ⟨W, hW⟩ := pathStr_reverse_slash P hP
    rw [hW,
      splitSlashAux_through n.reverse (fun c hc => hn c (List.mem_reverse.mp hc)) W [],
      ← hW]
    simp

theorem compsAux_through : ∀ (m : Str), (∀ c ∈ m, c ≠ '/') →
    ∀ (X cur : Str), compsAux (m ++ '/' :: X) cur
      = if m.reverse ++ cur = [] then compsAux X []
        else (m.reverse ++ cur : Str).reverse :: compsAux X [] := by
  intro m
  induction m with
  | nil =>
    intro _ X cur
    show compsAux ('/' :: X) cur = _
    by_cases hcur : cur = []
    · subst hcur
      simp [compsAux]
    · have hb : (cur == []) = false := by simpa [beq_eq_false_iff_ne] using hcur
      simp [compsAux, hb, hcur]
  | cons c m' ih =>
    intro h X cur
    have hc : c ≠ '/' := h c (List.mem_cons_self _ _)
    have hcb : (c == '/') = false := by simpa [beq_eq_false_iff_ne] using hc
    show compsAux (c :: (m' ++ '/' :: X)) cur = _
    simp only [compsAux, hcb, Bool.false_eq_true, if_false]
    rw [ih (fun x hx => h x (List.mem_cons_of_mem _ hx)) X (c :: cur)]
    have he : m'.reverse ++ (c :: cur) = (c :: m' : Str).reverse ++ cur := by
      simp
    rw [he]

theorem pathComps_pathStr : ∀ (P : List Str),
    (∀ m ∈ P, goodNameB m = true) → pathComps (pathStr P) = P := by
  intro P
  induction P with
  | nil => intro _; rfl
  | cons q rest ih =>
    intro h
    obtain ⟨hqne, hqs, _⟩ := goodName_parts (h q (List.mem_cons_self _ _))
    show pathComps (q ++ '/' :: pathStr rest) = q :: rest
    unfold pathComps
    rw [compsAux_through q (fun c hc he => hqs (he ▸ hc)) (pathStr rest) [],
      List.append_nil]
    rw [if_neg (by simpa using hqne)]
    simp only [List.reverse_reverse]
    rw [show compsAux (pathStr rest) [] = pathComps (pathStr rest) from rfl,
      ih (fun m hm => h m (List.mem_cons_of_mem _ hm))]

theorem pathStr_append_one (P : List Str) (n : Str) :
    pathStr (P ++ [n]) = pathStr P ++ (n ++ ['/']) := by
  induction P with
  | nil => simp [pathStr]
  | cons c rest ih =>
    show c ++ '/' :: pathStr (rest ++ [n]) = (c ++ '/' :: pathStr rest) ++ (n ++ ['/'])
    rw [ih]
    simp

theorem lookupE_none_of_lt {es : List (Str × EntryInfo)} {n : Str}
    (h : ∀ p ∈ es, strLtB p.1 n = true) : lookupE es n = none := by
  rw [lookupE_eq_none_iff]
  intro p hp he
  have h2 := h p hp
  rw [he, strLtB_irrefl] at h2
  cases h2

theorem setLeaf_append {es : List (Str × EntryInfo)} {n : Str} (t z s ns : Int)
    (h : ∀ p ∈ es, strLtB p.1 n = true) :
    setLeaf es n t z s ns
      = es ++ [(n, .mk t z s ns (if t = DT_DIR then some (.mk []) else none))] := by
  induction es with
  | nil => rfl
  | cons q rest ih =>
    obtain ⟨m, e⟩ := q
    have hlt : strLtB m n = true := h (m, e) (List.mem_cons_self _ _)
    have h1 : strLtB n m = false := strLtB_asymm hlt
    have h2 : n ≠ m := fun he => by rw [he, strLtB_irrefl] at hlt; cases hlt
    simp only [setLeaf, h1, Bool.false_eq_true, if_false, if_neg h2]
    rw [ih (fun p hp => h p (List.mem_cons_of_mem _ hp))]
    simp

theorem setDirAt_last {es : List (Str × EntryInfo)} {n : Str} {e : EntryInfo}
    (h : lookupE es n = none) (d : DirLevel) :
    setDirAt (es ++ [(n, e)]) n d
      = es ++ [(n, .mk e.type e.size e.sec e.nsec (some d))] := by
  induction es with
  | nil => simp [setDirAt]
  | cons q rest ih =>
    obtain ⟨m, f⟩ := q
    have hnm : n ≠ m := by
      intro he
      subst he
      simp [lookupE] at h
    have htl : lookupE rest n = none := by
      simpa [lookupE, hnm] using h
    rw [List.cons_append, setDirAt, if_neg hnm, ih htl]
    rfl

theorem setDirAt_setDirAt (es : List (Str × EntryInfo)) (n : Str) (d1 d2 : DirLevel) :
    setDirAt (setDirAt es n d1) n d2 = setDirAt es n d2 := by
  induction es with
  | nil => rfl
  | cons q rest ih =>
    obtain ⟨m, e⟩ := q
    by_cases hnm : n = m
    · simp [setDirAt, hnm, EntryInfo.type, EntryInfo.size, EntryInfo.sec,
        EntryInfo.nsec]
    · simp [setDirAt, hnm, ih]

theorem navSet_cons_eq {R : DirLevel} {c : Str} {rest : List Str} {e : EntryInfo}
    {child : DirLevel} (hlk : lookupE R.entries c = some e) (hd : e.dir = some child)
    (es : List (Str × EntryInfo)) :
    navSet R (c :: rest) es = .mk (setDirAt R.entries c (navSet child rest es)) := by
  have hstep : navSet R (c :: rest) es
      = match lookupE R.entries c with
        | some e2 =>
          match e2.dir with
          | some child2 => DirLevel.mk (setDirAt R.entries c (navSet child2 rest es))
          | none => R
        | none => R := by
    rw [navSet.eq_def]
  rw [hstep, hlk]
  simp only
  rw [hd]

theorem navUpdate_ok :
    ∀ (P : List Str) (R L : DirLevel) (walked : Str) (ln : Nat)
      (f : List (Str × EntryInfo) → List (Str × EntryInfo)),
      navGet R P = some L →
      navUpdate R P walked ln f = .ok (navSet R P (f L.entries)) := by
  intro P
  induction P with
  | nil =>
    intro R L walked ln f h
    simp only [navGet, Option.some_inj] at h
    subst h
    rfl
  | cons c rest ih =>
    intro R L walked ln f h
    unfold navGet at h
    cases hlk : lookupE R.entries c with
    | none => rw [hlk] at h; cases h
    | some e =>
      rw [hlk] at h
      simp only at h
      by_cases ht : e.type = DT_DIR
      · rw [if_pos ht] at h
        cases hd : e.dir with
        | none => rw [hd] at h; cases h
        | some child =>
          rw [hd] at h
          simp only at h
          show navUpdate R (c :: rest) walked ln f = _
          unfold navUpdate
          rw [hlk]
          simp only
          rw [if_pos ht, hd]
          simp only
          rw [ih child L _ ln f h]
          rw [navSet_cons_eq hlk hd (f L.entries)]
      · rw [if_neg ht] at h; cases h

theorem navGet_navSet :
    ∀ (P : List Str) (R L : DirLevel) (es : List (Str × EntryInfo)),
      navGet R P = some L →
      navGet (navSet R P es) P = some (.mk es) := by
  intro P
  induction P with
  | nil => intro R L es _; rfl
  | cons c rest ih =>
    intro R L es h
    unfold navGet at h
    cases hlk : lookupE R.entries c with
    | none => rw [hlk] at h; cases h
    | some e =>
      rw [hlk] at h
      simp only at h
      by_cases ht : e.type = DT_DIR
      · rw [if_pos ht] at h
        cases hd : e.dir with
        | none => rw [hd] at h; cases h
        | some child =>
          rw [hd] at h
          simp only at h
          rw [navSet_cons_eq hlk hd es]
          have hlk2 : lookupE (setDirAt R.entries c (navSet child rest es)) c
              = some (.mk e.type e.size e.sec e.nsec (some (navSet child rest es))) :=
            lookupE_setDirAt_self hlk
          show navGet (DirLevel.mk (setDirAt R.entries c (navSet child rest es)))
            (c :: rest) = some (.mk es)
          unfold navGet
          rw [show (DirLevel.mk (setDirAt R.entries c (navSet child rest es))).entries
            = setDirAt R.entries c (navSet child rest es) from rfl, hlk2]
          simp only
          show (if e.type = DT_DIR then navGet (navSet child rest es) rest else none)
            = some (DirLevel.mk es)
          rw [if_pos ht]
          exact ih child L es h
      · rw [if_neg ht] at h; cases h

theorem navSet_navSet :
    ∀ (P : List Str) (R L : DirLevel) (es1 es2 : List (Str × EntryInfo)),
      navGet R P = some L →
      navSet (navSet R P es1) P es2 = navSet R P es2 := by
  intro P
  induction P with
  | nil => intro R L es1 es2 _; rfl
  | cons c rest ih =>
    intro R L es1 es2 h
    unfold navGet at h
    cases hlk : lookupE R.entries c with
    | none => rw [hlk] at h; cases h
    | some e =>
      rw [hlk] at h
      simp only at h
      by_cases ht : e.type = DT_DIR
      · rw [if_pos ht] at h
        cases hd : e.dir with
        | none => rw [hd] at h; cases h
        | some child =>
          rw [hd] at h
          simp only at h
          rw [navSet_cons_eq hlk hd es1]
          have hlk2 : lookupE (setDirAt R.entries c (navSet child rest es1)) c
              = some (.mk e.type e.size e.sec e.nsec (some (navSet child rest es1))) :=
            lookupE_setDirAt_self hlk
          rw [navSet_cons_eq
            (show lookupE (DirLevel.mk (setDirAt R.entries c
                (navSet child rest es1))).entries c
              = some (.mk e.type e.size e.sec e.nsec (some (navSet child rest es1)))
              from hlk2)
            (show (EntryInfo.mk e.type e.size e.sec e.nsec
                (some (navSet child rest es1))).dir
              = some (navSet child rest es1) from rfl) es2]
          rw [show (DirLevel.mk (setDirAt R.entries c (navSet child rest es1))).entries
            = setDirAt R.entries c (navSet child rest es1) from rfl]
          rw [ih child L es1 es2 h, setDirAt_setDirAt]
          rw [← navSet_cons_eq hlk hd es2]
      · rw [if_neg ht] at h; cases h

theorem navSet_deep :
    ∀ (P : List Str) (R L : DirLevel) (n : Str) (es1 : List (Str × EntryInfo))
      (e1 : EntryInfo) (d1 : DirLevel) (es2 : List (Str × EntryInfo)),
      navGet R P = some L →
      lookupE es1 n = some e1 → e1.dir = some d1 →
      navSet (navSet R P es1) (P ++ [n]) es2
        = navSet R P (setDirAt es1 n (.mk es2)) := by
  intro P
  induction P with
  | nil =>
    intro R L n es1 e1 d1 es2 _ hlk hd
    show navSet (.mk es1) [n] es2 = navSet R [] (setDirAt es1 n (.mk es2))
    rw [navSet_cons_eq (show lookupE (DirLevel.mk es1).entries n = some e1 from hlk)
      hd es2]
    rfl
  | cons c rest ih =>
    intro R L n es1 e1 d1 es2 h hlk hd
    unfold navGet at h
    cases hlk0 : lookupE R.entries c with
    | none => rw [hlk0] at h; cases h
    | some e =>
      rw [hlk0] at h
      simp only at h
      by_cases ht : e.type = DT_DIR
      · rw [if_pos ht] at h
        cases hd0 : e.dir with
        | none => rw [hd0] at h; cases h
        | some child =>
          rw [hd0] at h
          simp only at h
          rw [navSet_cons_eq hlk0 hd0 es1]
          have hlk2 : lookupE (setDirAt R.entries c (navSet child rest es1)) c
              = some (.mk e.type e.size e.sec e.nsec (some (navSet child rest es1))) :=
            lookupE_setDirAt_self hlk0
          show navSet _ (c :: (rest ++ [n])) es2 = _
          rw [navSet_cons_eq
            (show lookupE (DirLevel.mk (setDirAt R.entries c
                (navSet child rest es1))).entries c
              = some (.mk e.type e.size e.sec e.nsec (some (navSet child rest es1)))
              from hlk2)
            (show (EntryInfo.mk e.type e.size e.sec e.nsec
                (some (navSet child rest es1))).dir
              = some (navSet child rest es1) from rfl) es2]
          rw [show (DirLevel.mk (setDirAt R.entries c (navSet child rest es1))).entries
            = setDirAt R.entries c (navSet child rest es1) from rfl]
          rw [ih child L n es1 e1 d1 es2 h hlk hd, setDirAt_setDirAt]
          rw [← navSet_cons_eq hlk0 hd0 (setDirAt es1 n (.mk es2))]
      · rw [if_neg ht] at h; cases h

theorem dlDecodeFrom_append :
    ∀ (l1 l2 : List Str) (R : DirLevel) (k : Nat),
      dlDecodeFrom R (l1 ++ l2) k
        = match dlDecodeFrom R l1 k with
          | .ok r => dlDecodeFrom r l2 (k + l1.length)
          | .error e => .error e := by
  intro l1
  induction l1 with
  | nil => intro l2 R k; simp [dlDecodeFrom]
  | cons l ls ih =>
    intro l2 R k
    have hL : dlDecodeFrom R ((l :: ls) ++ l2) k
        = match dlProcessLine R l (k + 1) with
          | .ok r => dlDecodeFrom r (ls ++ l2) (k + 1)
          | .error e => .error e := rfl
    have hR : dlDecodeFrom R (l :: ls) k
        = match dlProcessLine R l (k + 1) with
          | .ok r => dlDecodeFrom r ls (k + 1)
          | .error e => .error e := rfl
    rw [hL, hR]
    cases hp : dlProcessLine R l (k + 1) with
    | error er => simp
    | ok r =>
      simp only
      rw [ih l2 r (k + 1)]
      have he : k + 1 + ls.length = k + (l :: ls).length := by
        simp only [List.length_cons]
        omega
      rw [he]

theorem validEntries_cons_none {n : Str} {t z s ns : Int}
    {rest : List (Str × EntryInfo)}
    (h : validEntries ((n, .mk t z s ns none) :: rest) = true) :
    goodNameB n = true ∧ 0 ≤ z ∧ z < 2 ^ 64 ∧ 0 ≤ ns ∧ ns < 1000000000 ∧
    -62167219200 ≤ s ∧ t ≠ DT_DIR ∧ validEntries rest = true := by
  replace h : (goodNameB n && decide (0 ≤ z) && decide (z < 2 ^ 64) && decide (0 ≤ ns)
      && decide (ns < 1000000000) && decide (-62167219200 ≤ s)
      && (t != DT_DIR) && validEntries rest) = true := h
  simp only [Bool.and_eq_true, decide_eq_true_eq, bne_iff_ne, ne_eq] at h
  exact ⟨h.1.1.1.1.1.1.1, h.1.1.1.1.1.1.2, h.1.1.1.1.1.2, h.1.1.1.1.2, h.1.1.1.2,
    h.1.1.2, h.1.2, h.2⟩

theorem validEntries_cons_some {n : Str} {t z s ns : Int} {c : DirLevel}
    {rest : List (Str × EntryInfo)}
    (h : validEntries ((n, .mk t z s ns (some c)) :: rest) = true) :
    goodNameB n = true ∧ 0 ≤ z ∧ z < 2 ^ 64 ∧ 0 ≤ ns ∧ ns < 1000000000 ∧
    -62167219200 ≤ s ∧ t = DT_DIR ∧ validTree c = true ∧
    validEntries rest = true := by
  replace h : (goodNameB n && decide (0 ≤ z) && decide (z < 2 ^ 64) && decide (0 ≤ ns)
      && decide (ns < 1000000000) && decide (-62167219200 ≤ s)
      && (t == DT_DIR && validTree c) && validEntries rest) = true := h
  simp only [Bool.and_eq_true, decide_eq_true_eq, beq_iff_eq] at h
  exact ⟨h.1.1.1.1.1.1.1, h.1.1.1.1.1.1.2, h.1.1.1.1.1.2, h.1.1.1.1.2, h.1.1.1.2,
    h.1.1.2, h.1.2.1, h.1.2.2, h.2⟩

theorem validEntries_head_good {n : Str} {e : EntryInfo}
    {rest : List (Str × EntryInfo)}
    (h : validEntries ((n, e) :: rest) = true) :
    goodNameB n = true ∧ validEntries rest = true := by
  obtain ⟨t, z, s, ns, od⟩ := e
  cases od with
  | none =>
    have hh := validEntries_cons_none h
    exact ⟨hh.1, hh.2.2.2.2.2.2.2⟩
  | some c =>
    have hh := validEntries_cons_some h
    exact ⟨hh.1, hh.2.2.2.2.2.2.2.2⟩

theorem validTree_parts {es : List (Str × EntryInfo)}
    (h : validTree (.mk es) = true) :
    sortedNames es = true ∧ validEntries es = true := by
  replace h : (sortedNames es && validEntries es) = true := h
  rw [Bool.and_eq_true] at h
  exact h

theorem sortedNames_append_lt :
    ∀ (done : List (Str × EntryInfo)) (n : Str) (e : EntryInfo)
      (rest : List (Str × EntryInfo)),
      sortedNames (done ++ (n, e) :: rest) = true →
      ∀ p ∈ done, strLtB p.1 n = true := by
  intro done
  induction done with
  | nil => intro n e rest _ p hp; cases hp
  | cons q done' ih =>
    intro n e rest h p hp
    obtain ⟨m, f⟩ := q
    rw [List.cons_append] at h
    rcases List.mem_cons.mp hp with h1 | h2
    · subst h1
      exact sortedNames_head_lt h (n, e) (by simp)
    · exact ih n e rest (sortedNames_tail h) p h2

mutual
theorem traverseEntries_noNL :
    ∀ (es : List (Str × EntryInfo)) (p : Str) (ls : List Str),
      validEntries es = true → '\n' ∉ p →
      traverseEntries es p = some ls → ∀ l ∈ ls, '\n' ∉ l
  | [], p, ls, _, _, h => by
    replace h : (some ([] : List Str) : Option (List Str)) = some ls := h
    rw [Option.some_inj] at h
    subst h
    intro l hl
    cases hl
  | (n, .mk t z s ns od) :: rest, p, ls, hv, hp, h => by
    cases od with
    | none =>
      obtain ⟨hg, _, _, _, _, _, _, hrest⟩ := validEntries_cons_none hv
      rw [traverseEntries_cons_eq] at h
      cases hgm : gmtime s with
      | none => rw [hgm] at h; cases h
      | some tm =>
        rw [hgm] at h
        simp only at h
        rw [show traverseChild none (p ++ n ++ ['/']) = some [] from rfl] at h
        simp only at h
        cases htl : traverseEntries rest p with
        | none => rw [htl] at h; cases h
        | some tail =>
          rw [htl] at h
          simp only [Option.some_inj] at h
          subst h
          intro l hl
          rcases List.mem_cons.mp hl with hline | hmem
          · subst hline
            intro hm
            rcases List.mem_append.mp hm with hm1 | hm2
            · rcases List.mem_append.mp hm1 with hma | hmb
              · exact hp hma
              · exact (goodName_parts hg).2.2 hmb
            · exact no_newline_fmtFields _ _ hm2
          · simp only [List.nil_append] at hmem
            exact traverseEntries_noNL rest p tail hrest hp htl l hmem
    | some c =>
      obtain ⟨hg, _, _, _, _, _, _, hvt, hrest⟩ := validEntries_cons_some hv
      rw [traverseEntries_cons_eq] at h
      cases hgm : gmtime s with
      | none => rw [hgm] at h; cases h
      | some tm =>
        rw [hgm] at h
        simp only at h
        cases hch : traverseLines c (p ++ n ++ ['/']) with
        | none =>
          rw [show traverseChild (some c) (p ++ n ++ ['/'])
            = traverseLines c (p ++ n ++ ['/']) from rfl, hch] at h
          cases h
        | some sub =>
          rw [show traverseChild (some c) (p ++ n ++ ['/'])
            = traverseLines c (p ++ n ++ ['/']) from rfl, hch] at h
          simp only at h
          cases htl : traverseEntries rest p with
          | none => rw [htl] at h; cases h
          | some tail =>
            rw [htl] at h
            simp only [Option.some_inj] at h
            subst h
            have hpn : '\n' ∉ p ++ n ++ ['/'] := by
              intro hm
              rcases List.mem_append.mp hm with hm1 | hm2
              · rcases List.mem_append.mp hm1 with hma | hmb
                · exact hp hma
                · exact (goodName_parts hg).2.2 hmb
              · simp at hm2
            intro l hl
            rcases List.mem_cons.mp hl with hline | hmem
            · subst hline
              intro hm
              rcases List.mem_append.mp hm with hm1 | hm2
              · rcases List.mem_append.mp hm1 with hma | hmb
                · exact hp hma
                · exact (goodName_parts hg).2.2 hmb
              · exact no_newline_fmtFields _ _ hm2
            · rcases List.mem_append.mp hmem with hsub | htail
              · exact traverseLines_noNL c (p ++ n ++ ['/']) sub hvt hpn hch l hsub
              · exact traverseEntries_noNL rest p tail hrest hp htl l htail

theorem traverseLines_noNL :
    ∀ (dl : DirLevel) (p : Str) (ls : List Str),
      validTree dl = true → '\n' ∉ p →
      traverseLines dl p = some ls → ∀ l ∈ ls, '\n' ∉ l
  | .mk es, p, ls, hv, hp, h =>
    traverseEntries_noNL es p ls (validTree_parts hv).2 hp h
end

theorem dlProcessLine_fmt
    (R : DirLevel) (P : List Str) (done : List (Str × EntryInfo))
    (n : Str) (t z s ns : Int) (od : Option DirLevel) (tm : Tm) (ln : Nat)
    (hnav : navGet R P = some (.mk done))
    (hP : ∀ m ∈ P, goodNameB m = true)
    (hgood : goodNameB n = true)
    (hz0 : 0 ≤ z) (hzlt : z < 2 ^ 64)
    (hns0 : 0 ≤ ns) (hnslt : ns < 1000000000)
    (hsf : -62167219200 ≤ s)
    (hgm : gmtime s = some tm)
    (hlt : ∀ p ∈ done, strLtB p.1 n = true) :
    dlProcessLine R (pathStr P ++ n ++ fmtFields (.mk t z s ns od) tm) ln
      = .ok (navSet R P (done ++ [(n, .mk t z s ns
          (if t = DT_DIR then some (.mk []) else none))])) := by
  obtain ⟨hy0, hyb, hm1, hm12, hd1, hd366, hh24, hmin60, hsec60, htg⟩ :=
    gmtime_spec hsf hgm
  obtain ⟨hnne, hnslash, hnnl⟩ := goodName_parts hgood
  have hz64 : luDigits z = natDigits z.toNat := by
    unfold luDigits
    rw [show z.emod (2 ^ 64) = z from Int.emod_eq_of_lt hz0 hzlt]
  have hns64 : luDigits ns = natDigits ns.toNat := by
    unfold luDigits
    rw [show ns.emod (2 ^ 64) = ns from Int.emod_eq_of_lt hns0 (by omega)]
  have hyU : uDigitsI tm.year = natDigits tm.year.toNat := by
    unfold uDigitsI
    rw [show tm.year.emod (2 ^ 32) = tm.year from Int.emod_eq_of_lt hy0 (by omega)]
  have hmoU : uDigitsN tm.mon = natDigits tm.mon := by
    unfold uDigitsN
    rw [Nat.mod_eq_of_lt (by omega)]
  have hmdU : uDigitsN tm.mday = natDigits tm.mday := by
    unfold uDigitsN
    rw [Nat.mod_eq_of_lt (by omega)]
  have hhU : uDigitsN tm.hour = natDigits tm.hour := by
    unfold uDigitsN
    rw [Nat.mod_eq_of_lt (by omega)]
  have hmiU : uDigitsN tm.minute = natDigits tm.minute := by
    unfold uDigitsN
    rw [Nat.mod_eq_of_lt (by omega)]
  have hseU : uDigitsN tm.sec = natDigits tm.sec := by
    unfold uDigitsN
    rw [Nat.mod_eq_of_lt (by omega)]
  have hscan : scan9 (fmtTail (.mk t z s ns od) tm)
      = ⟨9, t, z, tm.year, (tm.mon : Int), (tm.mday : Int), (tm.hour : Int),
          (tm.minute : Int), (tm.sec : Int), ns⟩ := by
    show scan9 (intDigits t ++ ' ' :: (luDigits z
      ++ ' ' :: (padZ 4 (uDigitsI tm.year)
      ++ '-' :: (padZ 2 (uDigitsN tm.mon)
      ++ '-' :: (padZ 2 (uDigitsN tm.mday)
      ++ ' ' :: (padZ 2 (uDigitsN tm.hour)
      ++ ':' :: (padZ 2 (uDigitsN tm.minute)
      ++ ':' :: (padZ 2 (uDigitsN tm.sec)
      ++ '.' :: padZ 9 (luDigits ns))))))))) = _
    rw [hz64, hns64, hyU, hmoU, hmdU, hhU, hmiU, hseU]
    rw [scan9_fmt t z.toNat tm.year.toNat tm.mon tm.mday tm.hour tm.minute tm.sec
      ns.toNat]
    rw [Int.toNat_of_nonneg hz0, Int.toNat_of_nonneg hns0,
      Int.toNat_of_nonneg hy0,
      show z.emod (2 ^ 64) = z from Int.emod_eq_of_lt hz0 hzlt]
  have hline : pathStr P ++ n ++ fmtFields (.mk t z s ns od) tm
      = (pathStr P ++ n) ++ ' ' :: fmtTail (.mk t z s ns od) tm := by
    rw [fmtFields_eq_tail]
  rw [hline]
  have hsplit : dlSplit ((pathStr P ++ n) ++ ' ' :: fmtTail (.mk t z s ns od) tm)
      = some (pathStr P ++ n, fmtTail (.mk t z s ns od) tm) :=
    dlSplit_at (fmtTail_count _ _)
  unfold dlProcessLine
  rw [hsplit]
  simp only
  rw [hscan]
  simp only
  rw [if_neg (by simp : ¬ ((9 : Nat) ≠ 9))]
  rw [splitLastSlash_pathStr P n (fun c hc he => hnslash (he ▸ hc))]
  simp only
  rw [pathComps_pathStr P hP, htg,
    navUpdate_ok P R (.mk done) [] ln _ hnav]
  show Except.ok (navSet R P (setLeaf done n t z s ns))
    = Except.ok (navSet R P (done ++ [(n, EntryInfo.mk t z s ns
        (if t = DT_DIR then some (DirLevel.mk []) else none))]))
  rw [setLeaf_append t z s ns hlt]

theorem lookupE_last {es : List (Str × EntryInfo)} {n : Str} (e : EntryInfo)
    (h : lookupE es n = none) : lookupE (es ++ [(n, e)]) n = some e := by
  induction es with
  | nil => simp [lookupE]
  | cons q rest ih =>
    obtain ⟨m, f⟩ := q
    have hnm : n ≠ m := by
      intro he
      subst he
      simp [lookupE] at h
    have htl : lookupE rest n = none := by
      simpa [lookupE, hnm] using h
    simp only [List.cons_append, lookupE, if_neg hnm]
    exact ih htl

theorem setDirAt_id : ∀ (es : List (Str × EntryInfo)) (c : Str) (e : EntryInfo)
    (child : DirLevel),
    lookupE es c = some e → e.dir = some child → setDirAt es c child = es := by
  intro es
  induction es with
  | nil => intro c e child h _; cases h
  | cons q rest ih =>
    intro c e child h hd
    obtain ⟨m, f⟩ := q
    by_cases hcm : c = m
    · subst hcm
      have hf : f = e := by simpa [lookupE] using h
      subst hf
      obtain ⟨t, z2, s2, ns2, od2⟩ := f
      replace hd : od2 = some child := hd
      subst hd
      simp [setDirAt, EntryInfo.type, EntryInfo.size, EntryInfo.sec, EntryInfo.nsec]
    · have htl : lookupE rest c = some e := by
        simpa [lookupE, hcm] using h
      simp only [setDirAt, if_neg hcm]
      rw [ih c e child htl hd]

theorem navSet_self : ∀ (P : List Str) (R : DirLevel)
    (done : List (Str × EntryInfo)),
    navGet R P = some (.mk done) → navSet R P done = R := by
  intro P
  induction P with
  | nil =>
    intro R done h
    simp only [navGet, Option.some_inj] at h
    subst h
    rfl
  | cons c rest ih =>
    intro R done h
    unfold navGet at h
    cases hlk : lookupE R.entries c with
    | none => rw [hlk] at h; cases h
    | some e =>
      rw [hlk] at h
      simp only at h
      by_cases ht : e.type = DT_DIR
      · rw [if_pos ht] at h
        cases hd : e.dir with
        | none => rw [hd] at h; cases h
        | some child =>
          rw [hd] at h
          simp only at h
          rw [navSet_cons_eq hlk hd done, ih child done h,
            setDirAt_id R.entries c e child hlk hd]
          obtain ⟨res⟩ := R
          rfl
      · rw [if_neg ht] at h; cases h

theorem navGet_append : ∀ (P : List Str) (R : DirLevel) (Q : List Str),
    navGet R (P ++ Q) = match navGet R P with
      | some L => navGet L Q
      | none => none := by
  intro P
  induction P with
  | nil => intro R Q; rfl
  | cons c rest ih =>
    intro R Q
    show navGet R (c :: (rest ++ Q)) = _
    have hL : navGet R (c :: (rest ++ Q))
        = match lookupE R.entries c with
          | some e =>
            if e.type = DT_DIR then
              match e.dir with
              | some child => navGet child (rest ++ Q)
              | none => none
            else none
          | none => none := by rw [navGet.eq_def]
    have hR : navGet R (c :: rest)
        = match lookupE R.entries c with
          | some e =>
            if e.type = DT_DIR then
              match e.dir with
              | some child => navGet child rest
              | none => none
            else none
          | none => none := by rw [navGet.eq_def]
    rw [hL, hR]
    cases hlk : lookupE R.entries c with
    | none => rfl
    | some e =>
      simp only
      by_cases ht : e.type = DT_DIR
      · rw [if_pos ht, if_pos ht]
        cases hd : e.dir with
        | none => rfl
        | some child =>
          simp only
          exact ih child Q
      · rw [if_neg ht, if_neg ht]

mutual
theorem decode_traverseEntries :
    ∀ (es : List (Str × EntryInfo)) (P : List Str) (R : DirLevel)
      (done : List (Str × EntryInfo)) (k : Nat) (ls : List Str),
      validEntries es = true →
      sortedNames (done ++ es) = true →
      (∀ m ∈ P, goodNameB m = true) →
      navGet R P = some (.mk done) →
      traverseEntries es (pathStr P) = some ls →
      dlDecodeFrom R ls k = .ok (navSet R P (done ++ es))
  | [], P, R, done, k, ls, _, _, _, hnav, h => by
    replace h : (some ([] : List Str) : Option (List Str)) = some ls := h
    rw [Option.some_inj] at h
    subst h
    show Except.ok R = Except.ok (navSet R P (done ++ []))
    rw [List.append_nil, navSet_self P R done hnav]
  | (n, .mk t z s ns od) :: rest, P, R, done, k, ls, hv, hsort, hP, hnav, h => by
    rw [traverseEntries_cons_eq] at h
    cases hgm : gmtime s with
    | none => rw [hgm] at h; cases h
    | some tm =>
      rw [hgm] at h
      simp only at h
      cases od with
      | none =>
        obtain ⟨hg, hz0, hzlt, hns0, hnslt, hsf, hnd, hrest⟩ :=
          validEntries_cons_none hv
        rw [show traverseChild none (pathStr P ++ n ++ ['/']) = some [] from rfl] at h
        simp only at h
        cases htl : traverseEntries rest (pathStr P) with
        | none => rw [htl] at h; cases h
        | some tail =>
          rw [htl] at h
          simp only [Option.some_inj] at h
          subst h
          have hlt : ∀ p ∈ done, strLtB p.1 n = true :=
            sortedNames_append_lt done n _ rest hsort
          have hproc := dlProcessLine_fmt R P done n t z s ns none tm (k + 1)
            hnav hP hg hz0 hzlt hns0 hnslt hsf hgm hlt
          rw [if_neg hnd] at hproc
          rw [show dlDecodeFrom R ((pathStr P ++ n
                ++ fmtFields (.mk t z s ns none) tm) :: ([] ++ tail)) k
            = (match dlProcessLine R (pathStr P ++ n
                  ++ fmtFields (.mk t z s ns none) tm) (k + 1) with
               | .ok r => dlDecodeFrom r ([] ++ tail) (k + 1)
               | .error e => Except.error e) from rfl]
          rw [hproc]
          simp only [List.nil_append]
          have hnav2 : navGet (navSet R P
              (done ++ [(n, EntryInfo.mk t z s ns none)])) P
              = some (.mk (done ++ [(n, EntryInfo.mk t z s ns none)])) :=
            navGet_navSet P R (.mk done) _ hnav
          have hsort2 : sortedNames ((done ++ [(n, EntryInfo.mk t z s ns none)])
              ++ rest) = true := by
            rw [List.append_assoc, List.singleton_append]
            exact hsort
          rw [decode_traverseEntries rest P
            (navSet R P (done ++ [(n, EntryInfo.mk t z s ns none)]))
            (done ++ [(n, EntryInfo.mk t z s ns none)]) (k + 1) tail
            hrest hsort2 hP hnav2 htl]
          rw [navSet_navSet P R (.mk done) _ _ hnav,
            List.append_assoc, List.singleton_append]
      | some c =>
        obtain ⟨ces⟩ := c
        obtain ⟨hg, hz0, hzlt, hns0, hnslt, hsf, htd, hvt, hrest⟩ :=
          validEntries_cons_some hv
        subst htd
        rw [show traverseChild (some (DirLevel.mk ces)) (pathStr P ++ n ++ ['/'])
          = traverseLines (.mk ces) (pathStr P ++ n ++ ['/']) from rfl] at h
        cases hch : traverseLines (.mk ces) (pathStr P ++ n ++ ['/']) with
        | none => rw [hch] at h; cases h
        | some sub =>
          rw [hch] at h
          simp only at h
          cases htl : traverseEntries rest (pathStr P) with
          | none => rw [htl] at h; cases h
          | some tail =>
            rw [htl] at h
            simp only [Option.some_inj] at h
            subst h
            have hlt : ∀ p ∈ done, strLtB p.1 n = true :=
              sortedNames_append_lt done n _ rest hsort
            have hproc := dlProcessLine_fmt R P done n DT_DIR z s ns
              (some (.mk ces)) tm (k + 1)
              hnav hP hg hz0 hzlt hns0 hnslt hsf hgm hlt
            rw [if_pos rfl] at hproc
            rw [show dlDecodeFrom R ((pathStr P ++ n
                  ++ fmtFields (.mk DT_DIR z s ns (some (.mk ces))) tm)
                  :: (sub ++ tail)) k
              = (match dlProcessLine R (pathStr P ++ n
                    ++ fmtFields (.mk DT_DIR z s ns (some (.mk ces))) tm)
                    (k + 1) with
                 | .ok r => dlDecodeFrom r (sub ++ tail) (k + 1)
                 | .error e => Except.error e) from rfl]
            rw [hproc]
            simp only
            rw [dlDecodeFrom_append sub tail _ (k + 1)]
            have hlk1 : lookupE (done ++ [(n, EntryInfo.mk DT_DIR z s ns
                (some (DirLevel.mk [])))]) n
                = some (EntryInfo.mk DT_DIR z s ns (some (DirLevel.mk []))) :=
              lookupE_last _ (lookupE_none_of_lt hlt)
            have hnav1 : navGet (navSet R P (done ++ [(n, EntryInfo.mk DT_DIR z s ns
                (some (DirLevel.mk [])))])) P
                = some (.mk (done ++ [(n, EntryInfo.mk DT_DIR z s ns
                    (some (DirLevel.mk [])))])) :=
              navGet_navSet P R (.mk done) _ hnav
            have hnavc : navGet (navSet R P (done ++ [(n, EntryInfo.mk DT_DIR z s ns
                (some (DirLevel.mk [])))])) (P ++ [n]) = some (.mk []) := by
              rw [navGet_append P _ [n], hnav1]
              simp only
              have hstep : navGet (DirLevel.mk (done
                  ++ [(n, EntryInfo.mk DT_DIR z s ns (some (DirLevel.mk [])))])) [n]
                  = match lookupE (done ++ [(n, EntryInfo.mk DT_DIR z s ns
                      (some (DirLevel.mk [])))]) n with
                    | some e =>
                      if e.type = DT_DIR then
                        match e.dir with
                        | some child => navGet child []
                        | none => none
                      else none
                    | none => none := by
                rw [navGet.eq_def]
                rfl
              rw [hstep, hlk1]
              rfl
            have hPn : ∀ m ∈ P ++ [n], goodNameB m = true := by
              intro m hm
              rcases List.mem_append.mp hm with h1 | h2
              · exact hP m h1
              · simp only [List.mem_singleton] at h2
                exact h2 ▸ hg
            have hps : pathStr (P ++ [n]) = pathStr P ++ n ++ ['/'] := by
              rw [pathStr_append_one, ← List.append_assoc]
            have hchild : dlDecodeFrom (navSet R P (done
                ++ [(n, EntryInfo.mk DT_DIR z s ns (some (DirLevel.mk [])))]))
                sub (k + 1)
                = .ok (navSet (navSet R P (done ++ [(n, EntryInfo.mk DT_DIR z s ns
                    (some (DirLevel.mk [])))])) (P ++ [n]) ces) :=
              decode_traverseLines (.mk ces) (P ++ [n])
                (navSet R P (done ++ [(n, EntryInfo.mk DT_DIR z s ns
                  (some (DirLevel.mk [])))])) (k + 1) sub
                hvt hPn hnavc (by rw [hps]; exact hch)
            rw [hchild]
            simp only
            rw [navSet_deep P R (.mk done) n
              (done ++ [(n, EntryInfo.mk DT_DIR z s ns (some (DirLevel.mk [])))])
              (EntryInfo.mk DT_DIR z s ns (some (DirLevel.mk []))) (.mk []) ces
              hnav hlk1 rfl]
            rw [setDirAt_last (lookupE_none_of_lt hlt) (DirLevel.mk ces)]
            show dlDecodeFrom (navSet R P (done ++ [(n, EntryInfo.mk DT_DIR z s ns
                (some (DirLevel.mk ces)))])) tail (k + 1 + sub.length)
              = Except.ok (navSet R P (done
                  ++ (n, EntryInfo.mk DT_DIR z s ns (some (DirLevel.mk ces))) :: rest))
            have hnav3 : navGet (navSet R P (done ++ [(n, EntryInfo.mk DT_DIR z s ns
                (some (DirLevel.mk ces)))])) P
                = some (.mk (done ++ [(n, EntryInfo.mk DT_DIR z s ns
                    (some (DirLevel.mk ces)))])) :=
              navGet_navSet P R (.mk done) _ hnav
            have hsort3 : sortedNames ((done ++ [(n, EntryInfo.mk DT_DIR z s ns
                (some (DirLevel.mk ces)))]) ++ rest) = true := by
              rw [List.append_assoc, List.singleton_append]
              exact hsort
            rw [decode_traverseEntries rest P
              (navSet R P (done ++ [(n, EntryInfo.mk DT_DIR z s ns
                (some (DirLevel.mk ces)))]))
              (done ++ [(n, EntryInfo.mk DT_DIR z s ns (some (DirLevel.mk ces)))])
              (k + 1 + sub.length) tail hrest hsort3 hP hnav3 htl]
            rw [navSet_navSet P R (.mk done) _ _ hnav,
              List.append_assoc, List.singleton_append]

theorem decode_traverseLines :
    ∀ (dl : DirLevel) (P : List Str) (R : DirLevel) (k : Nat) (ls : List Str),
      validTree dl = true →
      (∀ m ∈ P, goodNameB m = true) →
      navGet R P = some (.mk []) →
      traverseLines dl (pathStr P) = some ls →
      dlDecodeFrom R ls k = .ok (navSet R P dl.entries)
  | .mk es, P, R, k, ls, hv, hP, hnav, h =>
    decode_traverseEntries es P R [] k ls (validTree_parts hv).2
      (validTree_parts hv).1 hP hnav h
end

